import Mathlib

/-!
# bse: a shallow embedding of `bse.c`

The development follows the C source function by function.

* A C string or buffer is a `List Char` without its terminating NUL; a read at
  the end of the list yields NUL (`List.getD _ _ '\x00'`), which is what the
  terminator gives for the one-past-the-end read the code performs.
* `row->size` is `row.chars.length`, `row->rsize` is `row.render.length`.
* The global `E` is passed explicitly; an `erow *` is the position of the row in
  `E.row`.  `E->numrows` is a field of its own, because `editorInsertRow`
  re-derives the new row before it increments the counter.
* An access `E->row[i]` outside the array is undefined behaviour in C: the
  embedding returns `none` for it.  The cross-row recursion of
  `editorUpdateSyntax` takes a fuel argument and returns `none` when the fuel is
  used up; for a document whose rows carry their positions as `idx`, fuel above
  `numrows` is enough (`editorUpdateSyntax_spec`).
* A store into the highlight array is `List.set`.  The code stores at positions
  below `rsize` only: at the scan position `i < size <= rsize`, and over a token
  that `strncmp` has just matched in the render buffer.
-/

namespace Bse

/-! ## Constants and data model -/

/-- `#define BSE_TAB_STOP 4` -/
abbrev BSE_TAB_STOP : Nat := 4

/-- `enum editorHighlight` -/
inductive editorHighlight where
  | HL_NORMAL
  | HL_COMMENT
  | HL_MLCOMMENT
  | HL_KEYWORD1
  | HL_KEYWORD2
  | HL_STRING
  | HL_NUMBER
  | HL_MATCH
  deriving DecidableEq

open editorHighlight

/-- `#define HL_HIGHLIGHT_NUMBERS (1 << 0)` -/
abbrev HL_HIGHLIGHT_NUMBERS : Nat := 1

/-- `#define HL_HIGHLIGHT_STRINGS (1 << 1)` -/
abbrev HL_HIGHLIGHT_STRINGS : Nat := 2

/-- `struct editorSyntax` (declared in `bse.h`; the fields are those the
initialisers of `HLDB` and `editorUpdateSyntax` use).  A `NULL` token and the
empty token behave alike (`scs ? strlen(scs) : 0`), both are the empty list. -/
structure editorSyntax where
  filetype : String
  filematch : List String
  keywords : List (List Char)
  singleline_comment_start : List Char
  multiline_comment_start : List Char
  multiline_comment_end : List Char
  flags : Nat

/-- `erow` (declared in `bse.h`; the fields are those `bse.c` reads and writes). -/
structure erow where
  idx : Int
  chars : List Char
  render : List Char
  hl : List editorHighlight
  hl_open_comment : Bool

/-- The editor modes `MODE_NORMAL` and `MODE_INSERT`. -/
inductive editorMode where
  | MODE_NORMAL
  | MODE_INSERT
  deriving DecidableEq

/-- `struct editorConfig` (declared in `bse.h`; the fields are those
`initEditor` sets, without the terminal settings, the message time and the
history links).  The field `syntax_` is `E->syntax`. -/
structure editorConfig where
  cx : Int
  cy : Int
  rx : Int
  rowoff : Int
  coloff : Int
  screenrows : Int
  screencols : Int
  numrows : Int
  row : List erow
  dirty : Int
  filename : Option String
  statusmsg : String
  syntax_ : Option editorSyntax
  mode : editorMode

/-- `row->size` -/
abbrev erow.size (row : erow) : Int := (row.chars.length : Int)

/-- `row->rsize` -/
abbrev erow.rsize (row : erow) : Int := (row.render.length : Int)

/-- The row `E->row[i]` for a C `int` index; `none` outside the array. -/
def rowAt (E : editorConfig) (i : Int) : Option erow :=
  if i < 0 then none else E.row[i.toNat]?

/-! ## Character classes -/

/-- `isspace` of the C locale: space, `\t`, `\n`, `\v`, `\f`, `\r`. -/
def isspace (c : Char) : Bool :=
  c.toNat = 32 || (9 ≤ c.toNat && c.toNat ≤ 13)

/-- `isdigit` -/
def isdigit (c : Char) : Bool :=
  48 ≤ c.toNat && c.toNat ≤ 57

/-- `is_separator`: whitespace, NUL, or a character of the punctuation string
given to `strchr`. -/
def is_separator (c : Char) : Bool :=
  isspace c || c = '\x00' || decide (c ∈ ",.()+-/*=~%<>[];".toList)

/-! ## Coordinate mapper -/

/-- One round of the column loop shared by `editorRowCxToRx` and
`editorRowRxToCx`: a tab first moves to the last column before the next tab
stop, then every character advances by one. -/
def rxAdvance (c : Char) (rx : Int) : Int :=
  (if c = '\t' then rx + (((BSE_TAB_STOP : Int) - 1) - rx % (BSE_TAB_STOP : Int)) else rx) + 1

/-- `editorRowCxToRx`: `for (j = 0; j < cx; j++)` over `row->chars[j]`. -/
def editorRowCxToRx (row : erow) (cx : Int) : Int :=
  (List.range cx.toNat).foldl (fun rx j => rxAdvance (row.chars.getD j '\x00') rx) 0

/-- The loop of `editorRowRxToCx` on the characters from column `cx` on. -/
def rxToCxLoop (rx : Int) : List Char → Int → Int → Int
  | [], _, cx => cx
  | c :: cs, cur_rx, cx =>
    if rxAdvance c cur_rx > rx then cx else rxToCxLoop rx cs (rxAdvance c cur_rx) (cx + 1)

/-- `editorRowRxToCx` -/
def editorRowRxToCx (row : erow) (rx : Int) : Int :=
  rxToCxLoop rx row.chars 0 0

/-! ## Render buffer -/

/-- The inner loop `while (idx % BSE_TAB_STOP != 0) row->render[idx++] = ' ';`
of `editorUpdateRow`; `idx` is the length of the buffer written so far.  The
first argument bounds the number of rounds. -/
def tabPad : Nat → List Char → List Char
  | 0, acc => acc
  | n + 1, acc => if acc.length % BSE_TAB_STOP ≠ 0 then tabPad n (acc ++ [' ']) else acc

/-- The second `for` loop of `editorUpdateRow` over the raw characters. -/
def renderLoop : List Char → List Char → List Char
  | [], acc => acc
  | c :: cs, acc =>
    if c = '\t' then renderLoop cs (tabPad BSE_TAB_STOP (acc ++ [' ']))
    else renderLoop cs (acc ++ [c])

/-- The first `for` loop of `editorUpdateRow`: the number of tabs. -/
def countTabs (chars : List Char) : Nat :=
  chars.foldl (fun tabs c => if c = '\t' then tabs + 1 else tabs) 0

/-! ## Syntax highlighter -/

/-- `strncmp(&buf[i], s, n) == 0`: compares at most `n` characters and stops at a
NUL that both strings share. -/
def strncmpEq (buf : List Char) (i : Nat) (s : List Char) : Nat → Bool
  | 0 => true
  | n + 1 =>
    if buf.getD i '\x00' ≠ s.headD '\x00' then false
    else if buf.getD i '\x00' = '\x00' then true
    else strncmpEq buf (i + 1) s.tail n

/-- `memset(&hl[i], v, n)` -/
def memsetHl (v : editorHighlight) : Nat → Nat → List editorHighlight → List editorHighlight
  | 0, _, hl => hl
  | n + 1, i, hl => memsetHl v n (i + 1) (hl.set i v)

/-- The keyword loop `for (j = 0; keywords[j]; j++)` of `editorUpdateSyntax`:
the length and the class flag `kw2` of the first keyword that matches at `i`
and is followed by a separator; `none` when the loop reaches the final `NULL`.
An entry is a secondary keyword when its last character is `|`. -/
def keywordLoop (render : List Char) (i : Nat) : List (List Char) → Option (Nat × Bool)
  | [] => none
  | kw :: rest =>
    let kw2 : Bool := decide (kw.getLast? = some '|')
    let klen : Nat := if kw2 then kw.length - 1 else kw.length
    if strncmpEq render i kw klen && is_separator (render.getD (i + klen) '\x00')
    then some (klen, kw2)
    else keywordLoop render i rest

/-- The local variables of the scan loop of `editorUpdateSyntax`, with the
highlight array of the row.  `in_string` holds the opening quote, NUL outside a
string. -/
structure scanState where
  i : Nat
  prev_sep : Bool
  in_string : Char
  in_comment : Bool
  hl : List editorHighlight

/-- `unsigned char prev_hl = (i > 0) ? row->hl[i - 1] : HL_NORMAL;` -/
def prevHl (st : scanState) : editorHighlight :=
  if st.i > 0 then st.hl.getD (st.i - 1) HL_NORMAL else HL_NORMAL

/-- The block `if (prev_sep) { for (j = 0; keywords[j]; j++) ... }`: the keyword
found at the scan position, if the position follows a separator. -/
def keywordAt (syn : editorSyntax) (render : List Char) (st : scanState) : Option (Nat × Bool) :=
  if st.prev_sep = true then keywordLoop render st.i syn.keywords else none

/-- One round of `while (i < row->size)` in `editorUpdateSyntax`; the flag is
true when the round leaves the loop by `break`. -/
def scanStep (syn : editorSyntax) (render : List Char) (st : scanState) : scanState × Bool :=
  let i := st.i
  let c := render.getD i '\x00'
  let prev_hl := prevHl st
  let scs := syn.singleline_comment_start
  let mcs := syn.multiline_comment_start
  let mce := syn.multiline_comment_end
  if scs.length ≠ 0 ∧ st.in_string = '\x00' ∧ st.in_comment = false
      ∧ strncmpEq render i scs scs.length = true then
    ({ st with hl := memsetHl HL_COMMENT (render.length - i) i st.hl }, true)
  else if mcs.length ≠ 0 ∧ mce.length ≠ 0 ∧ st.in_string = '\x00' ∧ st.in_comment = true then
    if strncmpEq render i mce mce.length = true then
      ({ st with hl := memsetHl HL_MLCOMMENT mce.length i (st.hl.set i HL_MLCOMMENT),
                 i := i + mce.length, in_comment := false, prev_sep := true }, false)
    else
      ({ st with hl := st.hl.set i HL_MLCOMMENT, i := i + 1 }, false)
  else if mcs.length ≠ 0 ∧ mce.length ≠ 0 ∧ st.in_string = '\x00'
      ∧ strncmpEq render i mcs mcs.length = true then
    ({ st with hl := memsetHl HL_MLCOMMENT mcs.length i st.hl,
               i := i + mcs.length, in_comment := true }, false)
  else if syn.flags &&& HL_HIGHLIGHT_STRINGS ≠ 0 ∧ st.in_string ≠ '\x00' then
    if c = '\\' ∧ i + 1 < render.length then
      ({ st with hl := (st.hl.set i HL_STRING).set (i + 1) HL_STRING, i := i + 2 }, false)
    else
      ({ st with hl := st.hl.set i HL_STRING,
                 in_string := if c = st.in_string then '\x00' else st.in_string,
                 i := i + 1, prev_sep := true }, false)
  else if syn.flags &&& HL_HIGHLIGHT_STRINGS ≠ 0 ∧ (c = '"' ∨ c = '\'') then
    ({ st with in_string := c, hl := st.hl.set i HL_STRING, i := i + 1 }, false)
  else if syn.flags &&& HL_HIGHLIGHT_NUMBERS ≠ 0
      ∧ ((isdigit c = true ∧ (st.prev_sep = true ∨ prev_hl = HL_NUMBER))
          ∨ (c = '.' ∧ prev_hl = HL_NUMBER)) then
    ({ st with hl := st.hl.set i HL_NUMBER, i := i + 1, prev_sep := false }, false)
  else
    match keywordAt syn render st with
    | some (klen, kw2) =>
      ({ st with hl := memsetHl (if kw2 then HL_KEYWORD2 else HL_KEYWORD1) klen i st.hl,
                 i := i + klen, prev_sep := false }, false)
    | none => ({ st with prev_sep := is_separator c, i := i + 1 }, false)

/-- The loop `while (i < row->size)` of `editorUpdateSyntax`; the first argument
bounds the number of rounds, `none` when it is used up before the loop ends. -/
def scanLoop (syn : editorSyntax) (size : Nat) (render : List Char) :
    Nat → scanState → Option scanState
  | 0, st => if st.i < size then none else some st
  | fuel + 1, st =>
    if st.i < size then
      if (scanStep syn render st).2 = true then some (scanStep syn render st).1
      else scanLoop syn size render fuel (scanStep syn render st).1
    else some st

/-- The scan of one row by `editorUpdateSyntax`, from the freshly cleared
highlight array and the seed `in_comment`.  Every two rounds advance `i`, so
`2 * size + 2` rounds are enough (`scanRow_isSome`). -/
def scanRow (syn : editorSyntax) (row : erow) (in_comment : Bool) : Option scanState :=
  scanLoop syn row.chars.length row.render (2 * row.chars.length + 2)
    { i := 0, prev_sep := true, in_string := '\x00', in_comment := in_comment,
      hl := List.replicate row.render.length HL_NORMAL }

/-- `editorUpdateSyntax(&E->row[p])`.  The first argument bounds the depth of
the recursion into the following rows. -/
def editorUpdateSyntax : Nat → editorConfig → Nat → Option editorConfig
  | 0, _, _ => none
  | fuel + 1, E, p =>
    match E.row[p]? with
    | none => none
    | some row =>
      match E.syntax_ with
      | none =>
        some { E with
               row := E.row.set p { row with hl := List.replicate row.render.length HL_NORMAL } }
      | some syn =>
        match (if row.idx > 0 then (rowAt E (row.idx - 1)).map (fun r => r.hl_open_comment)
               else some false) with
        | none => none
        | some in_comment =>
          match scanRow syn row in_comment with
          | none => none
          | some st =>
            let changed : Bool := row.hl_open_comment != st.in_comment
            let E1 : editorConfig :=
              { E with
                row := E.row.set p { row with hl := st.hl, hl_open_comment := st.in_comment } }
            if changed = true ∧ row.idx + 1 < E.numrows then
              if row.idx + 1 < 0 then none
              else editorUpdateSyntax fuel E1 (row.idx + 1).toNat
            else some E1

/-! ## Row store and edit operations -/

/-- `editorUpdateRow(&E->row[p])` -/
def editorUpdateRow (fuel : Nat) (E : editorConfig) (p : Nat) : Option editorConfig :=
  match E.row[p]? with
  | none => none
  | some row =>
    editorUpdateSyntax fuel
      { E with row := E.row.set p { row with render := renderLoop row.chars [] } } p

/-- `editorInsertRow(at, s, len)` with `s` the `len` characters copied.  The rows
from `at` on move up by one and get `idx++`; the new row is re-derived before
`E->numrows` is incremented. -/
def editorInsertRow (fuel : Nat) (E : editorConfig) (at_ : Int) (s : List Char) :
    Option editorConfig :=
  if at_ < 0 ∨ at_ > E.numrows then some E
  else
    let newrow : erow :=
      { idx := at_, chars := s, render := [], hl := [], hl_open_comment := false }
    let rows := E.row.take at_.toNat ++ newrow ::
      (E.row.drop at_.toNat).map (fun r => { r with idx := r.idx + 1 })
    match editorUpdateRow fuel { E with row := rows } at_.toNat with
    | none => none
    | some E1 => some { E1 with numrows := E1.numrows + 1, dirty := E1.dirty + 1 }

/-- `editorDelRow(at)` -/
def editorDelRow (E : editorConfig) (at_ : Int) : editorConfig :=
  if at_ < 0 ∨ at_ ≥ E.numrows then E
  else
    { E with
      row := E.row.take at_.toNat ++
        (E.row.drop (at_.toNat + 1)).map (fun r => { r with idx := r.idx - 1 }),
      numrows := E.numrows - 1,
      dirty := E.dirty + 1 }

/-- `editorRowInsertChar(&E->row[p], at, c)` -/
def editorRowInsertChar (fuel : Nat) (E : editorConfig) (p : Nat) (at_ : Int) (c : Char) :
    Option editorConfig :=
  match E.row[p]? with
  | none => none
  | some row =>
    let at1 : Int := if at_ < 0 ∨ at_ > row.size then row.size else at_
    let row1 : erow :=
      { row with chars := row.chars.take at1.toNat ++ c :: row.chars.drop at1.toNat }
    match editorUpdateRow fuel { E with row := E.row.set p row1 } p with
    | none => none
    | some E1 => some { E1 with dirty := E1.dirty + 1 }

/-- `editorRowAppendString(&E->row[p], s, len)` -/
def editorRowAppendString (fuel : Nat) (E : editorConfig) (p : Nat) (s : List Char) :
    Option editorConfig :=
  match E.row[p]? with
  | none => none
  | some row =>
    match editorUpdateRow fuel
        { E with row := E.row.set p { row with chars := row.chars ++ s } } p with
    | none => none
    | some E1 => some { E1 with dirty := E1.dirty + 1 }

/-- `editorRowDelChar(&E->row[p], at)` -/
def editorRowDelChar (fuel : Nat) (E : editorConfig) (p : Nat) (at_ : Int) :
    Option editorConfig :=
  match E.row[p]? with
  | none => none
  | some row =>
    if at_ < 0 ∨ at_ ≥ row.size then some E
    else
      let row1 : erow :=
        { row with chars := row.chars.take at_.toNat ++ row.chars.drop (at_.toNat + 1) }
      match editorUpdateRow fuel { E with row := E.row.set p row1 } p with
      | none => none
      | some E1 => some { E1 with dirty := E1.dirty + 1 }

/-- `editorJoinLines()` -/
def editorJoinLines (fuel : Nat) (E : editorConfig) : Option editorConfig :=
  if E.cy = E.numrows - 1 then some E
  else if E.cy < 0 then none
  else
    match editorRowAppendString fuel E E.cy.toNat [' '] with
    | none => none
    | some E1 =>
      match E1.row[E1.cy.toNat + 1]? with
      | none => none
      | some rowBelow =>
        match editorRowAppendString fuel E1 E1.cy.toNat rowBelow.chars with
        | none => none
        | some E2 => some (editorDelRow E2 (E2.cy + 1))

/-- `editorInsertNewline()`.  In the second branch the suffix `&row->chars[cx]`
of length `row->size - cx` is only defined for `0 <= cx <= size`. -/
def editorInsertNewline (fuel : Nat) (E : editorConfig) : Option editorConfig :=
  if E.cx = 0 then
    match editorInsertRow fuel E E.cy [] with
    | none => none
    | some E1 => some { E1 with cy := E1.cy + 1, cx := 0 }
  else
    match rowAt E E.cy with
    | none => none
    | some row =>
      if E.cx < 0 ∨ E.cx > row.size then none
      else
        match editorInsertRow fuel E (E.cy + 1) (row.chars.drop E.cx.toNat) with
        | none => none
        | some E1 =>
          match E1.row[E1.cy.toNat]? with
          | none => none
          | some row1 =>
            match editorUpdateRow fuel
                { E1 with
                  row := E1.row.set E1.cy.toNat
                    ({ row1 with chars := row1.chars.take E1.cx.toNat }) } E1.cy.toNat with
            | none => none
            | some E2 => some { E2 with cy := E2.cy + 1, cx := 0 }

/-- `editorDelChar()` -/
def editorDelChar (fuel : Nat) (E : editorConfig) : Option editorConfig :=
  if E.cy = E.numrows then some E
  else if E.cx = 0 ∧ E.cy = 0 then some E
  else if E.cy < 0 then none
  else if E.cx > 0 then
    match editorRowDelChar fuel E E.cy.toNat (E.cx - 1) with
    | none => none
    | some E1 => some { E1 with cx := E1.cx - 1 }
  else
    match rowAt E (E.cy - 1), E.row[E.cy.toNat]? with
    | some rowAbove, some row =>
      match editorRowAppendString fuel { E with cx := rowAbove.size } (E.cy - 1).toNat
          row.chars with
      | none => none
      | some E1 => some { (editorDelRow E1 E1.cy) with cy := E1.cy - 1 }
    | _, _ => none

/-- `editorRowsToString(&buflen)`: the buffer and the length stored in `buflen`. -/
def editorRowsToString (E : editorConfig) : List Char × Int :=
  let rows := E.row.take E.numrows.toNat
  (rows.foldl (fun buf r => buf ++ r.chars ++ ['\n']) [],
   rows.foldl (fun totlen r => totlen + r.size + 1) 0)

/-- `initEditor`, for a window of the given size. -/
def initEditor (screenrows screencols : Int) : editorConfig :=
  { cx := 0, cy := 0, rx := 0, rowoff := 0, coloff := 0,
    screenrows := screenrows - 2, screencols := screencols,
    numrows := 0, row := [], dirty := 0, filename := none, statusmsg := "",
    syntax_ := none, mode := editorMode.MODE_NORMAL }

/-! ## The built-in syntax definitions -/

/-- `C_HL_keywords` -/
def C_HL_keywords : List (List Char) :=
  ["switch", "if", "while", "for", "break", "continue",
   "return", "else", "struct", "union", "typedef", "static",
   "enum", "class", "case", "#define", "#include", "int|",
   "long|", "double|", "float|", "char|", "unsigned|", "signed|",
   "void|"].map String.toList

/-- `BC_HL_keywords` -/
def BC_HL_keywords : List (List Char) :=
  ["switch", "if", "while", "for", "break", "continue",
   "return", "else", "struct", "union", "typedef", "static",
   "enum", "class", "case", "#define", "#include", "int|",
   "long|", "double|", "float|", "char|", "unsigned|", "signed|",
   "void|", "string|"].map String.toList

/-- `Go_HL_keywords` -/
def Go_HL_keywords : List (List Char) :=
  ["const", "var", "func", "type", "import", "package",
   "chan", "interface", "map", "struct",
   "break", "case", "continue", "default", "else", "fallthrough", "for",
   "goto", "if", "range", "return", "select", "switch",
   "defer", "go"].map String.toList

/-- `HLDB` -/
def HLDB : List editorSyntax :=
  [ { filetype := "c", filematch := [".c", ".h", ".cpp", ".hpp"], keywords := C_HL_keywords,
      singleline_comment_start := "//".toList, multiline_comment_start := "/*".toList,
      multiline_comment_end := "*/".toList,
      flags := HL_HIGHLIGHT_NUMBERS ||| HL_HIGHLIGHT_STRINGS },
    { filetype := "ben-c", filematch := [".bc", ".bh"], keywords := BC_HL_keywords,
      singleline_comment_start := "//".toList, multiline_comment_start := "/*".toList,
      multiline_comment_end := "*/".toList,
      flags := HL_HIGHLIGHT_NUMBERS ||| HL_HIGHLIGHT_STRINGS },
    { filetype := "go", filematch := [".go"], keywords := Go_HL_keywords,
      singleline_comment_start := "//".toList, multiline_comment_start := "/*".toList,
      multiline_comment_end := "*/".toList,
      flags := HL_HIGHLIGHT_NUMBERS ||| HL_HIGHLIGHT_STRINGS } ]

/-! ## Keys and cursor motions -/

/-- The key code of a character, as `editorReadKey` returns it. -/
def keyOf (c : Char) : Int := (c.toNat : Int)

/-- `CTRL_KEY(k)`: `(k) & 0x1F` -/
def CTRL_KEY (k : Char) : Int := ((k.toNat &&& 0x1F : Nat) : Int)

/-- `SPACE` of `enum editorKey` -/
abbrev SPACE : Int := 32

/-- `BACKSPACE` of `enum editorKey` -/
abbrev BACKSPACE : Int := 127

/-- `ARROW_LEFT` of `enum editorKey` -/
abbrev ARROW_LEFT : Int := 1000

/-- `ARROW_RIGHT` of `enum editorKey` -/
abbrev ARROW_RIGHT : Int := 1001

/-- `ARROW_UP` of `enum editorKey` -/
abbrev ARROW_UP : Int := 1002

/-- `ARROW_DOWN` of `enum editorKey` -/
abbrev ARROW_DOWN : Int := 1003

/-- `DEL_KEY` of `enum editorKey` -/
abbrev DEL_KEY : Int := 1004

/-- `HOME_KEY` of `enum editorKey` -/
abbrev HOME_KEY : Int := 1005

/-- `END_KEY` of `enum editorKey` -/
abbrev END_KEY : Int := 1006

/-- `PAGE_UP` of `enum editorKey` -/
abbrev PAGE_UP : Int := 1007

/-- `PAGE_DOWN` of `enum editorKey` -/
abbrev PAGE_DOWN : Int := 1008

/-- `CHAR_ALPHANUM` of `enum charType` -/
abbrev CHAR_ALPHANUM : Int := 1

/-- `CHAR_SYMBOL` of `enum charType` -/
abbrev CHAR_SYMBOL : Int := 2

/-- `CHAR_SPACE` of `enum charType` -/
abbrev CHAR_SPACE : Int := 3

/-- `getCharType` -/
def getCharType (c : Char) : Int :=
  if isspace c = true then CHAR_SPACE
  else if is_separator c = true then CHAR_SYMBOL
  else CHAR_ALPHANUM

/-- The read `row->chars[cx]`: defined for `0 <= cx <= size`, where the read at
`size` yields the terminating NUL. -/
def charAt (row : erow) (cx : Int) : Option Char :=
  if cx < 0 ∨ cx > row.size then none else some (row.chars.getD cx.toNat '\x00')

/-- The last lines of `editorMoveCursor`: the column is limited to the length
of the row the cursor is on, 0 when it is on no row. -/
def editorMoveCursorSnap (E : editorConfig) : Option editorConfig :=
  if E.cy ≥ E.numrows then
    if E.cx > 0 then some { E with cx := 0 } else some E
  else
    match rowAt E E.cy with
    | none => none
    | some row => if E.cx > row.size then some { E with cx := row.size } else some E

/-- The `switch` of `editorMoveCursor`. -/
def editorMoveCursorSwitch (E : editorConfig) (key : Int) : Option editorConfig :=
  if key = keyOf 'h' ∨ key = CTRL_KEY 'b' ∨ key = ARROW_LEFT then
    if E.cx ≠ 0 then some { E with cx := E.cx - 1 }
    else if E.cy > 0 then
      match rowAt E (E.cy - 1) with
      | none => none
      | some above => some { E with cy := E.cy - 1, cx := above.size }
    else some E
  else if key = keyOf 'l' ∨ key = CTRL_KEY 'f' ∨ key = ARROW_RIGHT then
    if E.cy ≥ E.numrows then some E
    else
      match rowAt E E.cy with
      | none => none
      | some row =>
        if E.cx < row.size then some { E with cx := E.cx + 1 }
        else if E.cx = row.size then some { E with cy := E.cy + 1, cx := 0 }
        else some E
  else if key = keyOf 'k' ∨ key = CTRL_KEY 'p' ∨ key = ARROW_UP then
    if E.cy ≠ 0 then some { E with cy := E.cy - 1 } else some E
  else if key = keyOf 'j' ∨ key = CTRL_KEY 'n' ∨ key = ARROW_DOWN then
    if E.cy ≠ E.numrows - 1 then some { E with cy := E.cy + 1 } else some E
  else some E

/-- `editorMoveCursor(key)` -/
def editorMoveCursor (E : editorConfig) (key : Int) : Option editorConfig :=
  match editorMoveCursorSwitch E key with
  | none => none
  | some E1 => editorMoveCursorSnap E1

/-- The loop of `editorMoveCursorWordForward`; `previous_cursor` is the second
argument, the local `row` is always `&E->row[E->cy]`.  The first argument
bounds the number of rounds. -/
def wordForwardLoop : Nat → Int → editorConfig → Option editorConfig
  | 0, _, _ => none
  | fuel + 1, previous_cursor, E =>
    if E.cy < E.numrows then
      match rowAt E E.cy with
      | none => none
      | some row0 =>
        if E.cx ≥ row0.size ∧ E.cy = E.numrows - 1 then some { E with cx := row0.size }
        else
          let E1 : editorConfig :=
            if E.cx ≥ row0.size then { E with cy := E.cy + 1, cx := 0 } else E
          match rowAt E1 E1.cy with
          | none => none
          | some row =>
            match charAt row E1.cx with
            | none => none
            | some ch =>
              if getCharType ch ≠ CHAR_SPACE ∧ previous_cursor > 0
                  ∧ (previous_cursor ≠ getCharType ch ∨ E1.cx = 0) then some E1
              else wordForwardLoop fuel (getCharType ch) { E1 with cx := E1.cx + 1 }
    else some E

/-- `editorMoveCursorWordForward()` -/
def editorMoveCursorWordForward (fuel : Nat) (E : editorConfig) : Option editorConfig :=
  wordForwardLoop fuel (-1) E

/-- The local variables `lookbehind_type`, `num_type_changes` and
`was_on_first_letter` of `editorMoveCursorWordBackward`. -/
structure wordBackwardVars where
  lookbehind_type : Int
  num_type_changes : Int
  was_on_first_letter : Int

/-- The block `if (cursor_type != CHAR_SPACE) { ... }` of
`editorMoveCursorWordBackward` up to the test that leaves the loop: the new
values of the local variables, and whether the loop is left by `break`. -/
def wordBackwardVisit (row : erow) (cx : Int) (cursor_type : Int) (v : wordBackwardVars) :
    wordBackwardVars × Bool :=
  if cursor_type ≠ CHAR_SPACE then
    let lookbehind_type : Int :=
      if cx ≥ 1 then getCharType (row.chars.getD (cx - 1).toNat '\x00')
      else if cx = 0 then CHAR_SPACE
      else v.lookbehind_type
    let was_on_first_letter : Int :=
      if v.was_on_first_letter = -1 ∧ lookbehind_type ≥ 0 then
        (if cursor_type = lookbehind_type then 0 else 1)
      else v.was_on_first_letter
    let num_type_changes : Int :=
      if cursor_type ≠ lookbehind_type then v.num_type_changes + 1 else v.num_type_changes
    ({ lookbehind_type := lookbehind_type, num_type_changes := num_type_changes,
       was_on_first_letter := was_on_first_letter },
     decide ((was_on_first_letter = 0 ∧ num_type_changes = 1)
       ∨ (was_on_first_letter = 1 ∧ num_type_changes = 2)))
  else (v, false)

/-- The loop `while (E->cy >= 0)` of `editorMoveCursorWordBackward`.  The first
argument bounds the number of rounds. -/
def wordBackwardLoop : Nat → wordBackwardVars → editorConfig → Option editorConfig
  | 0, _, _ => none
  | fuel + 1, v, E =>
    if E.cy ≥ 0 then
      match rowAt E E.cy with
      | none => none
      | some row =>
        match charAt row E.cx with
        | none => none
        | some ch =>
          if (wordBackwardVisit row E.cx (getCharType ch) v).2 = true then some E
          else if E.cx - 1 < 0 then
            if E.cy > 0 then
              match rowAt E (E.cy - 1) with
              | none => none
              | some previous_row =>
                wordBackwardLoop fuel (wordBackwardVisit row E.cx (getCharType ch) v).1
                  { E with cy := E.cy - 1, cx := previous_row.size - 1 }
            else
              wordBackwardLoop fuel (wordBackwardVisit row E.cx (getCharType ch) v).1
                { E with cx := 0 }
          else
            wordBackwardLoop fuel (wordBackwardVisit row E.cx (getCharType ch) v).1
              { E with cx := E.cx - 1 }
    else some E

/-- `editorMoveCursorWordBackward()` -/
def editorMoveCursorWordBackward (fuel : Nat) (E : editorConfig) : Option editorConfig :=
  wordBackwardLoop fuel
    { lookbehind_type := -1, num_type_changes := 0, was_on_first_letter := -1 } E

/-! ## Search -/

/-- The content of the C string held in a buffer: the characters before the
first NUL. -/
def cstr (buf : List Char) : List Char :=
  buf.takeWhile (fun c => c != '\x00')

/-- The search of `strstr` from offset `off` of the haystack on: the offset of
the first position at which `needle` starts. -/
def strstrFrom (needle : List Char) : List Char → Nat → Option Nat
  | [], off => if needle.isPrefixOf [] then some off else none
  | c :: cs, off =>
    if needle.isPrefixOf (c :: cs) then some off else strstrFrom needle cs (off + 1)

/-- `strstr(haystack, needle)`, as the offset `match - haystack` of the first
occurrence; `none` for a `NULL` result. -/
def strstr (haystack needle : List Char) : Option Nat :=
  strstrFrom (cstr needle) (cstr haystack) 0

/-- The `static` variables of `editorFindCallback`. -/
structure findState where
  last_match : Int
  direction : Int
  saved_hl_line : Int
  saved_hl : Option (List editorHighlight)

/-- The initial values of the `static` variables of `editorFindCallback`. -/
def findStateInit : findState :=
  { last_match := -1, direction := 1, saved_hl_line := 0, saved_hl := none }

/-- The block `if (saved_hl) { memcpy(...); free(saved_hl); saved_hl = NULL; }`
of `editorFindCallback`, on the document: `rsize` entries of the saved
highlight array are copied back into the row `saved_hl_line`. -/
def findRestore (E : editorConfig) (fs : findState) : Option editorConfig :=
  match fs.saved_hl with
  | none => some E
  | some saved =>
    match rowAt E fs.saved_hl_line with
    | none => none
    | some row =>
      if saved.length < row.render.length ∨ row.hl.length < row.render.length then none
      else some { E with row := E.row.set fs.saved_hl_line.toNat { row with hl := saved.take row.render.length ++ row.hl.drop row.render.length } }

/-- The effect of a key other than Enter and Escape on `last_match` and
`direction`, up to the statement `if (last_match == -1) direction = 1;`. -/
def findKey (fs : findState) (key : Int) : findState :=
  let fs1 : findState :=
    if key = ARROW_RIGHT ∨ key = ARROW_DOWN then { fs with direction := 1 }
    else if key = ARROW_LEFT ∨ key = ARROW_UP then { fs with direction := -1 }
    else { fs with last_match := -1, direction := 1 }
  if fs1.last_match = -1 then { fs1 with direction := 1 } else fs1

/-- The statements `current += direction;` and the wrap around the file. -/
def findAdvance (numrows current direction : Int) : Int :=
  if current + direction = -1 then numrows - 1
  else if current + direction = numrows then 0
  else current + direction

/-- The loop `for (i = 0; i < E->numrows; i++)` of `editorFindCallback`; the
first argument is the number of rounds left, the second is `current`. -/
def findLoop (query : List Char) :
    Nat → Int → editorConfig → findState → Option (editorConfig × findState)
  | 0, _, E, fs => some (E, fs)
  | k + 1, current, E, fs =>
    match rowAt E (findAdvance E.numrows current fs.direction) with
    | none => none
    | some row =>
      match strstr row.render query with
      | some off =>
        if row.hl.length < row.render.length then none
        else
          some ({ E with
                  cy := findAdvance E.numrows current fs.direction,
                  cx := editorRowRxToCx row (off : Int),
                  rowoff := E.numrows,
                  row := E.row.set (findAdvance E.numrows current fs.direction).toNat { row with hl := memsetHl HL_MATCH (cstr query).length off row.hl } },
                { fs with
                  last_match := findAdvance E.numrows current fs.direction,
                  saved_hl_line := findAdvance E.numrows current fs.direction,
                  saved_hl := some (row.hl.take row.render.length) })
      | none => findLoop query k (findAdvance E.numrows current fs.direction) E fs

/-- `editorFindCallback(query, key)`, with the `static` variables passed in and
out. -/
def editorFindCallback (E : editorConfig) (fs : findState) (query : List Char) (key : Int) :
    Option (editorConfig × findState) :=
  match findRestore E fs with
  | none => none
  | some E1 =>
    if key = keyOf '\r' ∨ key = keyOf '\x1b' then
      some (E1, { fs with saved_hl := none, last_match := -1, direction := 1 })
    else
      findLoop query E1.numrows.toNat (findKey { fs with saved_hl := none } key).last_match E1
        (findKey { fs with saved_hl := none } key)

/-! ## Status message, viewport and key dispatch

The terminal output of `editorRefreshScreen` and the time stamp of the status
message are not part of the state modelled here.  The value that a call of
`editorReadKey` returns is an argument of the function that makes the call. -/

/-- The conversion of an `int` key code to a byte, as `%c` prints it and as the
assignment to a `char` stores it. -/
def toByteChar (c : Int) : Char := Char.ofNat (c % 256).toNat

/-- `message(fmt, ...)` for the formatted text `text`: `vsnprintf` stores at
most `cap - 1` characters of it, where `cap` is `sizeof(E->statusmsg)`. -/
def message (cap : Nat) (E : editorConfig) (text : List Char) : editorConfig :=
  if cap = 0 then E else { E with statusmsg := String.mk (text.take (cap - 1)) }

/-- `editorScroll()` -/
def editorScroll (E : editorConfig) : Option editorConfig :=
  let rx? : Option Int :=
    if E.cy < E.numrows then
      match rowAt E E.cy with
      | none => none
      | some row => some (editorRowCxToRx row E.cx)
    else some 0
  match rx? with
  | none => none
  | some rx =>
    let rowoff1 : Int := if E.cy < E.rowoff then E.cy else E.rowoff
    let rowoff2 : Int :=
      if E.cy ≥ rowoff1 + E.screenrows then E.cy - E.screenrows + 1 else rowoff1
    let coloff1 : Int := if rx < E.coloff then rx else E.coloff
    let coloff2 : Int :=
      if rx ≥ coloff1 + E.screencols then rx - E.screencols + 1 else coloff1
    some { E with rx := rx, rowoff := rowoff2, coloff := coloff2 }

/-- `editorRefreshScreen()`, on the editor state: the call of `editorScroll`. -/
def editorRefreshScreen (E : editorConfig) : Option editorConfig :=
  editorScroll E

/-- `editorInsertChar(c)` -/
def editorInsertChar (fuel : Nat) (E : editorConfig) (c : Int) : Option editorConfig :=
  match (if E.cy = E.numrows then editorInsertRow fuel E E.numrows [] else some E) with
  | none => none
  | some E1 =>
    if E1.cy < 0 then none
    else
      match editorRowInsertChar fuel E1 E1.cy.toNat E1.cx (toByteChar c) with
      | none => none
      | some E2 => some { E2 with cx := E2.cx + 1 }

/-- The functions that prompt on the terminal, write files or leave the
program, and those of the headers `history.h` and `point.h`: each is any map
from the editor state to the state it leaves, `none` when it does not
return. -/
structure externals where
  editorSave : editorConfig → Option editorConfig
  editorQuit : editorConfig → Option editorConfig
  editorColon : editorConfig → Option editorConfig
  editorFind : editorConfig → Option editorConfig
  point_W : editorConfig → Option (Int × Int)
  history_undo : editorConfig → Option editorConfig
  history_redo : editorConfig → Option editorConfig
  history_push : editorConfig → Option editorConfig

/-- The text of `message("%c is undefined", c)`. -/
def undefinedText (c : Int) : List Char :=
  toByteChar c :: " is undefined".toList

/-- `processKeyNormalMode_g()`; `c` is the key read. -/
def processKeyNormalMode_g (cap : Nat) (E : editorConfig) (c : Int) : Option editorConfig :=
  match editorRefreshScreen (message cap E "g...".toList) with
  | none => none
  | some E1 =>
    if c = keyOf 'g' then some (message cap { E1 with cx := 0, cy := 0 } [])
    else some (message cap E1 (undefinedText c))

/-- `processKeyNormalMode_d()`; `c` is the key read. -/
def processKeyNormalMode_d (cap : Nat) (E : editorConfig) (c : Int) : Option editorConfig :=
  match editorRefreshScreen (message cap E "d...".toList) with
  | none => none
  | some E1 =>
    if c = keyOf 'd' then some (message cap (editorDelRow E1 E1.cy) [])
    else some (message cap E1 (undefinedText c))

/-- `processKeyNormalMode_leader()`; `c` is the key read. -/
def processKeyNormalMode_leader (x : externals) (cap : Nat) (E : editorConfig) (c : Int) :
    Option editorConfig :=
  match editorRefreshScreen (message cap E "<leader>...".toList) with
  | none => none
  | some E1 =>
    if c = keyOf 'w' then x.editorSave E1
    else some (message cap E1 (undefinedText c))

/-- `processKeyInsertMode_j()`; `c` is the result of the timed read, `-1` when
it timed out. -/
def processKeyInsertMode_j (x : externals) (cap fuel : Nat) (E : editorConfig) (c : Int) :
    Option editorConfig :=
  match (if c = -1 then editorInsertChar fuel E (keyOf 'j') else some E) with
  | none => none
  | some E1 =>
    match editorRefreshScreen E1 with
    | none => none
    | some E2 =>
      if c = keyOf 'k' then some { E2 with mode := editorMode.MODE_NORMAL }
      else if c = keyOf 'j' then
        match x.editorSave E2 with
        | none => none
        | some E3 => some { E3 with mode := editorMode.MODE_NORMAL }
      else some (message cap E2 (undefinedText c))

/-- `processKey_Cx()`; `c` is the key read. -/
def processKey_Cx (x : externals) (cap : Nat) (E : editorConfig) (c : Int) :
    Option editorConfig :=
  match editorRefreshScreen (message cap E "C-x...".toList) with
  | none => none
  | some E1 =>
    if c = CTRL_KEY 'c' then x.editorQuit E1
    else if c = CTRL_KEY 's' then x.editorSave E1
    else some (message cap E1 (undefinedText c))

/-- The loop `while (times--) editorMoveCursor(key);`. -/
def moveCursorTimes (key : Int) : Nat → editorConfig → Option editorConfig
  | 0, E => some E
  | times + 1, E =>
    match editorMoveCursor E key with
    | none => none
    | some E1 => moveCursorTimes key times E1

/-- The statement `E->cx = E->row[E->cy].size;`. -/
def cursorToRowEnd (E : editorConfig) : Option editorConfig :=
  match rowAt E E.cy with
  | none => none
  | some row => some { E with cx := row.size }

/-- `editorProcessKeypressNormalMode()`; `c` is the key read, `c2` the key that
a chord handler reads after it. -/
def editorProcessKeypressNormalMode (x : externals) (cap fuel : Nat) (E : editorConfig)
    (c c2 : Int) : Option editorConfig :=
  if c = SPACE then processKeyNormalMode_leader x cap E c2
  else if c = keyOf 'g' then processKeyNormalMode_g cap E c2
  else if c = keyOf 'd' then processKeyNormalMode_d cap E c2
  else if c = CTRL_KEY 'x' then processKey_Cx x cap E c2
  else if c = keyOf 'i' then some { E with mode := editorMode.MODE_INSERT }
  else if c = keyOf 'a' then some { E with cx := E.cx + 1, mode := editorMode.MODE_INSERT }
  else if c = keyOf 'A' then
    match (if E.cy < E.numrows then cursorToRowEnd E else some E) with
    | none => none
    | some E1 => some { E1 with mode := editorMode.MODE_INSERT }
  else if c = keyOf 'I' then some { E with cx := 0, mode := editorMode.MODE_INSERT }
  else if c = keyOf 'o' then
    match cursorToRowEnd E with
    | none => none
    | some E1 =>
      match editorInsertNewline fuel E1 with
      | none => none
      | some E2 => some { E2 with mode := editorMode.MODE_INSERT }
  else if c = keyOf ':' ∨ c = keyOf ';' then x.editorColon E
  else if c = keyOf 'k' ∨ c = keyOf 'j' ∨ c = keyOf 'h' ∨ c = keyOf 'l' then
    editorMoveCursor E c
  else if c = keyOf 'w' then editorMoveCursorWordForward fuel E
  else if c = keyOf 'b' then editorMoveCursorWordBackward fuel E
  else if c = keyOf 'J' then editorJoinLines fuel E
  else if c = keyOf 'x' then
    match editorMoveCursor E ARROW_RIGHT with
    | none => none
    | some E1 => editorDelChar fuel E1
  else if c = keyOf '$' then
    if E.cy < E.numrows then cursorToRowEnd E else some E
  else if c = keyOf '^' then some { E with cx := 0 }
  else if c = keyOf '/' then x.editorFind E
  else if c = keyOf 'W' then
    match x.point_W E with
    | none => none
    | some p => some { E with cx := p.1, cy := p.2 }
  else if c = CTRL_KEY 'f' then
    if E.screenrows < 0 then none
    else
      moveCursorTimes ARROW_DOWN E.screenrows.toNat
        { E with cy := if E.rowoff + E.screenrows - 1 > E.numrows then E.numrows
                       else E.rowoff + E.screenrows - 1 }
  else if c = CTRL_KEY 'b' then
    if E.screenrows < 0 then none
    else moveCursorTimes ARROW_UP E.screenrows.toNat { E with cy := E.rowoff }
  else if c = keyOf 'G' then cursorToRowEnd { E with cy := E.numrows - 1 }
  else if c = keyOf 'u' then x.history_undo E
  else if c = CTRL_KEY 'r' then x.history_redo E
  else if c = keyOf 'H' then x.history_push E
  else some (message cap E (undefinedText c))

/-- `editorProcessKeypressInsertMode()`; `c` is the key read, `c2` the result
of the read that a chord handler makes after it. -/
def editorProcessKeypressInsertMode (x : externals) (cap fuel : Nat) (E : editorConfig)
    (c c2 : Int) : Option editorConfig :=
  if c = keyOf '\x1b' then some { E with mode := editorMode.MODE_NORMAL }
  else if c = keyOf 'j' then processKeyInsertMode_j x cap fuel E c2
  else if c = keyOf '\r' then editorInsertNewline fuel E
  else if c = CTRL_KEY 'x' then processKey_Cx x cap E c2
  else if c = CTRL_KEY 's' then x.editorFind E
  else if c = CTRL_KEY 'a' then some { E with cx := 0 }
  else if c = CTRL_KEY 'e' then
    if E.cy < E.numrows then cursorToRowEnd E else some E
  else if c = BACKSPACE then editorDelChar fuel E
  else if c = CTRL_KEY 'f' ∨ c = CTRL_KEY 'b' ∨ c = CTRL_KEY 'n' ∨ c = CTRL_KEY 'p'
      ∨ c = ARROW_UP ∨ c = ARROW_DOWN ∨ c = ARROW_LEFT ∨ c = ARROW_RIGHT then
    editorMoveCursor E c
  else editorInsertChar fuel E c

/-- One round of the loop of `main`: `editorRefreshScreen()`, then the key
handler of the current mode. -/
def mainLoopRound (x : externals) (cap fuel : Nat) (E : editorConfig) (c c2 : Int) :
    Option editorConfig :=
  match editorRefreshScreen E with
  | none => none
  | some E1 =>
    match E1.mode with
    | editorMode.MODE_NORMAL => editorProcessKeypressNormalMode x cap fuel E1 c c2
    | editorMode.MODE_INSERT => editorProcessKeypressInsertMode x cap fuel E1 c c2

/-! ## Predicates used to state the properties -/

/-- The quantity that every round of the scan loop decreases. -/
def scanMeasure (size : Nat) (st : scanState) : Nat :=
  2 * (size - st.i) + (if st.prev_sep = true then 1 else 0)

/-- The list holds `k, k+1, k+2, ...` in this order. -/
def countsFrom : Int → List Int → Bool
  | _, [] => true
  | k, x :: xs => decide (x = k) && countsFrom (k + 1) xs

/-- Every row carries its own position as `idx`. -/
def idxOk (rows : List erow) : Prop :=
  countsFrom 0 (rows.map (fun r => r.idx)) = true

instance (rows : List erow) : Decidable (idxOk rows) := by
  unfold idxOk; infer_instance

/-- The part of a row that the highlighter leaves alone. -/
def rowCore (r : erow) : Int × List Char × List Char := (r.idx, r.chars, r.render)

/-- A row at rest: the render buffer is at least as long as the raw buffer and
the highlight array has the length of the render buffer. -/
def rowOk (r : erow) : Prop :=
  r.chars.length ≤ r.render.length ∧ r.hl.length = r.render.length

instance (r : erow) : Decidable (rowOk r) := by
  unfold rowOk; infer_instance

/-- The document is at rest: `E->numrows` is the number of rows and every row
carries its position as `idx`. -/
def wellFormed (E : editorConfig) : Prop :=
  E.numrows = E.row.length ∧ idxOk E.row

instance (E : editorConfig) : Decidable (wellFormed E) := by
  unfold wellFormed; infer_instance

/-- The raw content of the document, row by row. -/
def docText (E : editorConfig) : List (List Char) :=
  E.row.map (fun r => r.chars)

/-- All rows are at rest. -/
def rowsOk (rows : List erow) : Prop := ∀ r ∈ rows, rowOk r

instance (rows : List erow) : Decidable (rowsOk rows) := by
  unfold rowsOk; infer_instance

/-- A row at rest without tabs and with an all-normal highlight array. -/
def plainRow (idx : Int) (s : String) : erow :=
  { idx := idx, chars := s.toList, render := s.toList,
    hl := List.replicate s.toList.length HL_NORMAL, hl_open_comment := false }

/-- A two-row document with the C syntax active, cursor at column 2 of row 0. -/
def sampleDoc : editorConfig :=
  { initEditor 24 80 with
    cx := 2, numrows := 2, row := [plainRow 0 "ab cd", plainRow 1 "ef"],
    syntax_ := HLDB[0]? }

/-- A document of one row `"a\t"` that has not been rendered yet. -/
def tabDoc : editorConfig :=
  { initEditor 24 80 with
    numrows := 1,
    row := [{ idx := 0, chars := ['a', '\t'], render := [], hl := [], hl_open_comment := false }] }

/-- The loop of `splitAtNewline`: `cur` is the piece read so far. -/
def splitAtNewlineLoop : List Char → List Char → List (List Char)
  | cur, [] => if cur = [] then [] else [cur]
  | cur, c :: cs =>
    if c = '\n' then cur :: splitAtNewlineLoop [] cs else splitAtNewlineLoop (cur ++ [c]) cs

/-- Splitting a buffer at `'\n'`: the pieces that end with a `'\n'`, without it,
in order (and a last piece that no `'\n'` ends, if it is not empty).  This is
how `getline` cuts a saved file into lines again. -/
def splitAtNewline (buf : List Char) : List (List Char) :=
  splitAtNewlineLoop [] buf

/-- A call of one of the edit operations.  The three operations that work at
the cursor carry the cursor position `(cx, cy)` they are called with. -/
inductive editOp where
  | insertRow (at_ : Int) (s : List Char)
  | delRow (at_ : Int)
  | rowInsertChar (p : Nat) (at_ : Int) (c : Char)
  | rowDelChar (p : Nat) (at_ : Int)
  | rowAppendString (p : Nat) (s : List Char)
  | insertNewline (cx cy : Int)
  | joinLines (cx cy : Int)
  | delChar (cx cy : Int)
/-- The call of an edit operation on the state `E`. -/
def applyOp (fuel : Nat) (E : editorConfig) : editOp → Option editorConfig
  | .insertRow at_ s => editorInsertRow fuel E at_ s
  | .delRow at_ => some (editorDelRow E at_)
  | .rowInsertChar p at_ c => editorRowInsertChar fuel E p at_ c
  | .rowDelChar p at_ => editorRowDelChar fuel E p at_
  | .rowAppendString p s => editorRowAppendString fuel E p s
  | .insertNewline cx cy => editorInsertNewline fuel { E with cx := cx, cy := cy }
  | .joinLines cx cy => editorJoinLines fuel { E with cx := cx, cy := cy }
  | .delChar cx cy => editorDelChar fuel { E with cx := cx, cy := cy }

/-- The cursor `(cx, cy)` is on a row: `0 <= cy < numrows` and `0 <= cx <= size`. -/
def cursorOnRow (E : editorConfig) (cx cy : Int) : Bool :=
  match rowAt E cy with
  | some row => decide (0 ≤ cx ∧ cx ≤ row.size)
  | none => false

/-- The call is in bounds: a row operation gets a row of the document (any
`at`), a cursor operation an in-bounds cursor; `editorInsertNewline` and
`editorDelChar` also take the cursor on the line after the last row. -/
def opInBounds (E : editorConfig) : editOp → Bool
  | .insertRow _ _ => true
  | .delRow _ => true
  | .rowInsertChar p _ _ => decide (p < E.row.length)
  | .rowDelChar p _ => decide (p < E.row.length)
  | .rowAppendString p _ => decide (p < E.row.length)
  | .insertNewline cx cy => cursorOnRow E cx cy || decide (cy = E.numrows ∧ cx = 0)
  | .joinLines cx cy => cursorOnRow E cx cy
  | .delChar cx cy => cursorOnRow E cx cy || decide (cy = E.numrows)

/-- A sequence of calls, one after the other. -/
def runOps (fuel : Nat) : List editOp → editorConfig → Option editorConfig
  | [], E => some E
  | op :: ops, E =>
    match applyOp fuel E op with
    | some E' => runOps fuel ops E'
    | none => none

/-- Every call of the sequence is in bounds in the state it is made in. -/
def opsInBounds (fuel : Nat) : List editOp → editorConfig → Bool
  | [], _ => true
  | op :: ops, E =>
    opInBounds E op &&
      match applyOp fuel E op with
      | some E' => opsInBounds fuel ops E'
      | none => true

/-- The empty document with the C syntax active. -/
def emptyDoc : editorConfig :=
  { initEditor 24 80 with syntax_ := HLDB[0]? }

/-- A sequence of in-bounds calls that uses every edit operation. -/
def sampleOps : List editOp :=
  [ .insertRow 0 "a\tb /* c".toList, .insertRow 1 "int x; */".toList,
    .rowInsertChar 0 1 'q', .insertNewline 2 0, .rowAppendString 1 "zz".toList,
    .joinLines 0 1, .delChar 0 1, .rowDelChar 0 0, .delRow 7, .delChar 3 0 ]

/-- The seed of the scan of row `p`: the open-comment flag of row `p - 1`,
clear for row 0. -/
def seedComment (E : editorConfig) (p : Nat) : Bool :=
  match p with
  | 0 => false
  | q + 1 =>
    match E.row[q]? with
    | some r => r.hl_open_comment
    | none => false

/-- `isalpha` of the C locale. -/
def isalpha (c : Char) : Bool :=
  (65 ≤ c.toNat && c.toNat ≤ 90) || (97 ≤ c.toNat && c.toNat ≤ 122)

/-- The loop of `editorOpen` over the lines `getline` delivers: trailing `\n`
and `\r` are stripped and the line is appended as the last row. -/
def editorOpenLoop (fuel : Nat) : List (List Char) → editorConfig → Option editorConfig
  | [], E => some E
  | line :: rest, E =>
    match editorInsertRow fuel E E.numrows
        (line.reverse.dropWhile (fun c => c = '\n' || c = '\r')).reverse with
    | none => none
    | some E' => editorOpenLoop fuel rest E'

/-- Three rows at rest, the first of which ends inside a multiline comment. -/
def commentDoc : editorConfig :=
  { emptyDoc with
    numrows := 3,
    row := [{ plainRow 0 "/* start" with hl_open_comment := true }, plainRow 1 "if x",
            plainRow 2 "end */"] }

/-- The second character of the keyword is neither a digit nor NUL, and the
keyword without its class mark has at least two characters. -/
def kwSecondIsLetter (kw : List Char) : Bool :=
  decide (2 ≤ (if kw.getLast? = some '|' then kw.length - 1 else kw.length)) &&
    !isdigit (kw.getD 1 '\x00') && decide (kw.getD 1 '\x00' ≠ '\x00')

/-- Two rows at rest under the C syntax: `12.5` and `a12`. -/
def numberDoc : editorConfig :=
  { emptyDoc with numrows := 2, row := [plainRow 0 "12.5", plainRow 1 "a12"] }

/-- Column `p` of a row is a token start: it holds a non-whitespace character
whose class differs from the class of the character at `p - 1`; column 0 is a
token start whenever its character is not whitespace. -/
def tokenStart (chars : List Char) (p : Nat) : Bool :=
  decide (p < chars.length) && decide (getCharType (chars.getD p '\x00') ≠ CHAR_SPACE)
    && (decide (p = 0)
        || decide (getCharType (chars.getD p '\x00') ≠ getCharType (chars.getD (p - 1) '\x00')))

/-- The greatest token start at or below column `j` (column 0 when there is
none). -/
def lastTokenStart (chars : List Char) : Nat → Nat
  | 0 => 0
  | j + 1 => if tokenStart chars (j + 1) = true then j + 1 else lastTokenStart chars j

/-- A document of the single row `s` with the cursor at column `cx`. -/
def oneRowDoc (s : String) (cx : Int) : editorConfig :=
  { emptyDoc with numrows := 1, row := [plainRow 0 s], cx := cx }

/-- Two rows at rest, of which only row 0 contains `foo`; the cursor is in
row 1. -/
def searchDoc : editorConfig :=
  { emptyDoc with numrows := 2, row := [plainRow 0 "a foo", plainRow 1 "bar"], cy := 1 }

/-- Externals that return at once and leave the editor state as it is. -/
def idleExternals : externals :=
  { editorSave := some, editorQuit := some, editorColon := some, editorFind := some,
    point_W := fun E => some (E.cx, E.cy), history_undo := some, history_redo := some,
    history_push := some }

/-- The two-row sample in Insert mode, cursor at column 2 of row 0. -/
def insertDoc : editorConfig :=
  { sampleDoc with mode := editorMode.MODE_INSERT }

/-- Row `p` carries the data that the scan of the row, seeded with the
open-comment flag of row `p - 1`, produces. -/
def rowConsistent (syn : editorSyntax) (E : editorConfig) (p : Nat) : Bool :=
  match E.row[p]? with
  | none => true
  | some row =>
    match scanRow syn row (seedComment E p) with
    | none => false
    | some st => decide (st.hl = row.hl ∧ st.in_comment = row.hl_open_comment)

/-- The document is highlight-consistent: a syntax is active and every row is
consistent. -/
def highlightConsistent (E : editorConfig) : Bool :=
  match E.syntax_ with
  | none => false
  | some syn => (List.range E.row.length).all (fun p => rowConsistent syn E p)

/-- Two rows at rest, the first of them empty; the cursor is at column 0 of
row 1. -/
def emptyFirstDoc : editorConfig :=
  { emptyDoc with numrows := 2, row := [plainRow 0 "", plainRow 1 "x"], cy := 1 }

/-- Two rows at rest under the C syntax, highlight-consistent: row 0 opens a
multiline comment that row 1 continues. -/
def openCommentDoc : editorConfig :=
  { emptyDoc with
    numrows := 2,
    row := [{ plainRow 0 "/* a" with hl := List.replicate 4 HL_MLCOMMENT, hl_open_comment := true }, { plainRow 1 "b" with hl := [HL_MLCOMMENT], hl_open_comment := true }] }

/-- The states in which the rounds of the scan loop `while (i < row->size)`
start, in order; the first argument bounds the number of rounds. -/
def scanTrace (syn : editorSyntax) (size : Nat) (render : List Char) :
    Nat → scanState → List scanState
  | 0, _ => []
  | fuel + 1, st =>
    if st.i < size then
      st :: (if (scanStep syn render st).2 = true then []
             else scanTrace syn size render fuel (scanStep syn render st).1)
    else []

/-- The round of the scan that starts in `st` classifies a keyword at `st.i`:
the keyword loop finds a keyword there and the outcome of the round is that of
the keyword rule. -/
def classifiesKeyword (syn : editorSyntax) (render : List Char) (st : scanState) : Prop :=
  ∃ klen kw2, keywordAt syn render st = some (klen, kw2) ∧
    scanStep syn render st =
      ({ st with hl := memsetHl (if kw2 then HL_KEYWORD2 else HL_KEYWORD1) klen st.i st.hl,
                 i := st.i + klen, prev_sep := false }, false)

/-- What the scan knows about the character before the scan position when it
is outside strings and comments with `prev_sep` set: the position is 0, or the
character is a separator, or it is a quote.  Inside a string `in_string` holds
a quote. -/
def scanSepInv (render : List Char) (st : scanState) : Prop :=
  (st.in_string = '\x00' ∨ st.in_string = '"' ∨ st.in_string = '\'') ∧
  (st.in_string = '\x00' → st.in_comment = false → st.prev_sep = true →
    st.i = 0 ∨ is_separator (render.getD (st.i - 1) '\x00') = true ∨
      render.getD (st.i - 1) '\x00' = '"' ∨ render.getD (st.i - 1) '\x00' = '\'')

/-- The row `"a"if` at rest: a string literal directly followed by a keyword. -/
def quoteKeywordRow : erow := plainRow 0 "\"a\"if"

/-- The length of row `y`, 0 when there is no such row. -/
def rowLen (rows : List erow) (y : Nat) : Nat :=
  match rows[y]? with
  | some r => r.chars.length
  | none => 0

/-- The class of the character at column `x` of row `y`; the column `size`
holds the terminating NUL. -/
def classAt (rows : List erow) (y x : Nat) : Int :=
  match rows[y]? with
  | some r => getCharType (r.chars.getD x '\x00')
  | none => CHAR_SPACE

/-- The position `(y, x)` is a stop of the forward word motion that started in
row `y0`: a column `x > 0` that holds a non-whitespace character whose class
differs from the class of the character at `x - 1`, or column 0 of a row after
`y0` that is empty or starts with a non-whitespace character. -/
def wordTarget (rows : List erow) (y0 y x : Nat) : Bool :=
  decide (y < rows.length) &&
    (if x = 0 then
      decide (y0 < y) && (decide (rowLen rows y = 0) || decide (classAt rows y 0 ≠ CHAR_SPACE))
     else
      decide (x < rowLen rows y) && decide (classAt rows y x ≠ CHAR_SPACE)
        && decide (classAt rows y x ≠ classAt rows y (x - 1)))

/-- Document order: `(y1, x1)` lies before `(y2, x2)`. -/
def posLt (y1 x1 y2 x2 : Nat) : Prop :=
  y1 < y2 ∨ (y1 = y2 ∧ x1 < x2)

/-- The number of characters from row `y` on, counting one more per row. -/
def restLen (rows : List erow) (y : Nat) : Nat :=
  ((rows.drop y).map (fun r => r.chars.length + 1)).sum

/-! # Theorems -/

/-! ## The scan loop and the re-derivation of a row -/

theorem memsetHl_length (v : editorHighlight) :
    ∀ (n i : Nat) (hl : List editorHighlight), (memsetHl v n i hl).length = hl.length := by
  intro n
  induction n with
  | zero => intro i hl; rfl
  | succ n ih => intro i hl; simp [memsetHl, ih]

theorem keywordAt_some (syn : editorSyntax) (render : List Char) (st : scanState)
    (r : Nat × Bool) (h : keywordAt syn render st = some r) : st.prev_sep = true := by
  unfold keywordAt at h
  by_contra hc
  rw [if_neg hc] at h
  cases h

/-- A round of the scan keeps the length of the highlight array, and unless it
leaves the loop it either advances `i` or, having matched a keyword, clears
`prev_sep`. -/
theorem scanStep_props (syn : editorSyntax) (render : List Char) (st : scanState) :
    (scanStep syn render st).1.hl.length = st.hl.length ∧
    ((scanStep syn render st).2 = false →
      st.i < (scanStep syn render st).1.i ∨
      (st.i ≤ (scanStep syn render st).1.i ∧ st.prev_sep = true ∧
        (scanStep syn render st).1.prev_sep = false)) := by
  unfold scanStep
  simp only []
  generalize hk : keywordAt syn render st = kw
  rcases kw with _ | ⟨klen, kw2⟩
  · split_ifs
    all_goals
      refine ⟨by simp only [memsetHl_length, List.length_set], fun hb => ?_⟩
      first
        | (simp at hb; done)
        | (left; dsimp only; (try casesm* _ ∧ _); omega)
  · have hps := keywordAt_some syn render st _ hk
    split_ifs
    all_goals
      refine ⟨by simp only [memsetHl_length, List.length_set], fun hb => ?_⟩
      first
        | (simp at hb; done)
        | (left; dsimp only; (try casesm* _ ∧ _); omega)
        | (right; exact ⟨Nat.le_add_right _ _, hps, rfl⟩)

theorem scanStep_measure (syn : editorSyntax) (size : Nat) (render : List Char) (st : scanState)
    (hi : st.i < size) (hb : (scanStep syn render st).2 = false) :
    scanMeasure size (scanStep syn render st).1 < scanMeasure size st := by
  have h := (scanStep_props syn render st).2 hb
  unfold scanMeasure
  rcases h with h | ⟨h1, h2, h3⟩
  · split_ifs <;> omega
  · rw [h2, h3]; simp; omega

theorem scanLoop_some (syn : editorSyntax) (size : Nat) (render : List Char) :
    ∀ (fuel : Nat) (st : scanState), scanMeasure size st < fuel →
      ∃ st', scanLoop syn size render fuel st = some st' ∧ st'.hl.length = st.hl.length := by
  intro fuel
  induction fuel with
  | zero => intro st h; omega
  | succ fuel ih =>
    intro st h
    unfold scanLoop
    by_cases hi : st.i < size
    · rw [if_pos hi]
      by_cases hb : (scanStep syn render st).2 = true
      · rw [if_pos hb]
        exact ⟨_, rfl, (scanStep_props syn render st).1⟩
      · rw [if_neg hb]
        have hb' : (scanStep syn render st).2 = false := by simpa using hb
        have hm := scanStep_measure syn size render st hi hb'
        obtain ⟨st', h1, h2⟩ := ih (scanStep syn render st).1 (by omega)
        exact ⟨st', h1, by rw [h2, (scanStep_props syn render st).1]⟩
    · rw [if_neg hi]
      exact ⟨st, rfl, rfl⟩

theorem scanRow_some (syn : editorSyntax) (row : erow) (in_comment : Bool) :
    ∃ st, scanRow syn row in_comment = some st ∧ st.hl.length = row.render.length := by
  unfold scanRow
  obtain ⟨st', h1, h2⟩ := scanLoop_some syn row.chars.length row.render
    (2 * row.chars.length + 2)
    { i := 0, prev_sep := true, in_string := '\x00', in_comment := in_comment,
      hl := List.replicate row.render.length HL_NORMAL } (by unfold scanMeasure; simp)
  exact ⟨st', h1, by rw [h2]; simp⟩

theorem countsFrom_get : ∀ (l : List Int) (k : Int), countsFrom k l = true →
    ∀ (i : Nat) (x : Int), l[i]? = some x → x = k + i := by
  intro l
  induction l with
  | nil => intro k _ i x h; simp at h
  | cons y ys ih =>
    intro k h i x hx
    simp only [countsFrom, Bool.and_eq_true, decide_eq_true_eq] at h
    cases i with
    | zero => simp at hx; omega
    | succ i =>
      simp at hx
      have := ih (k + 1) h.2 i x hx
      push_cast; omega

theorem idxOk_get (rows : List erow) (h : idxOk rows) (i : Nat) (r : erow)
    (hr : rows[i]? = some r) : r.idx = i := by
  have := countsFrom_get _ 0 h i r.idx (by simp [List.getElem?_map, hr])
  omega

theorem idxOk_of_core (rows rows' : List erow) (h : rows'.map rowCore = rows.map rowCore)
    (hok : idxOk rows) : idxOk rows' := by
  unfold idxOk at *
  have : rows'.map (fun r => r.idx) = rows.map (fun r => r.idx) := by
    have := congrArg (List.map Prod.fst) h
    simpa [List.map_map, Function.comp_def, rowCore] using this
  rw [this]; exact hok

theorem set_map_core (rows : List erow) (p : Nat) (row row' : erow)
    (hrow : rows[p]? = some row) (hc : rowCore row' = rowCore row) :
    (rows.set p row').map rowCore = rows.map rowCore := by
  rw [List.map_set, hc]
  apply List.ext_getElem?
  intro j
  rw [List.getElem?_set]
  split_ifs with h1 h2
  · subst h1; simp [List.getElem?_map, hrow]
  · subst h1; simp at h2; simp [List.getElem?_eq_none h2]
  · rfl

theorem getElem?_set_cases {α : Type} (rows : List α) (p : Nat) (x : α) (i : Nat) (r : α)
    (h : (rows.set p x)[i]? = some r) : (i = p ∧ r = x) ∨ (i ≠ p ∧ rows[i]? = some r) := by
  rw [List.getElem?_set] at h
  by_cases hip : p = i
  · rw [if_pos hip] at h
    by_cases hl : p < rows.length
    · rw [if_pos hl] at h
      left; exact ⟨hip.symm, (Option.some.inj h).symm⟩
    · rw [if_neg hl] at h; cases h
  · rw [if_neg hip] at h
    right; exact ⟨fun hh => hip hh.symm, h⟩

theorem editorUpdateSyntax_spec : ∀ (fuel : Nat) (E : editorConfig) (p : Nat),
    idxOk E.row → E.numrows ≤ E.row.length → p < E.row.length → 0 < fuel →
    E.numrows ≤ fuel + p →
    ∃ rows', editorUpdateSyntax fuel E p = some { E with row := rows' } ∧
      rows'.map rowCore = E.row.map rowCore ∧
      ∀ i r', rows'[i]? = some r' →
        r'.hl.length = r'.render.length ∨ (i ≠ p ∧ E.row[i]? = some r') := by
  intro fuel
  induction fuel with
  | zero => intro E p _ _ _ h; omega
  | succ fuel ih =>
    intro E p hidx hn hp _ hfuel
    have hrow : E.row[p]? = some E.row[p] := List.getElem?_eq_getElem hp
    have hpi : (E.row[p]).idx = p := idxOk_get _ hidx p _ hrow
    unfold editorUpdateSyntax
    simp only [hrow]
    cases hsyn : E.syntax_ with
    | none =>
      refine ⟨_, rfl, set_map_core _ _ _ _ hrow rfl, ?_⟩
      intro i r' hr'
      rcases getElem?_set_cases _ _ _ _ _ hr' with ⟨_, h⟩ | h
      · left; rw [h]; simp
      · right; exact h
    | some syn =>
      have hic : ∃ ic, (if (E.row[p]).idx > 0 then
          (rowAt E ((E.row[p]).idx - 1)).map (fun r => r.hl_open_comment) else some false)
          = some ic := by
        by_cases h0 : (E.row[p]).idx > 0
        · rw [if_pos h0]
          have hlt : ((E.row[p]).idx - 1).toNat < E.row.length := by omega
          refine ⟨(E.row[((E.row[p]).idx - 1).toNat]).hl_open_comment, ?_⟩
          unfold rowAt
          rw [if_neg (by omega), List.getElem?_eq_getElem hlt]
          rfl
        · rw [if_neg h0]; exact ⟨false, rfl⟩
      obtain ⟨ic, hic⟩ := hic
      obtain ⟨st, hst, hlen⟩ := scanRow_some syn (E.row[p]) ic
      simp only [hic, hst]
      have hcore : rowCore { E.row[p] with hl := st.hl, hl_open_comment := st.in_comment }
          = rowCore (E.row[p]) := rfl
      split_ifs with hch hneg
      · omega
      · have hnext : ((E.row[p]).idx + 1).toNat = p + 1 := by omega
        rw [hnext]
        have hlen1 : (E.row.set p
            { E.row[p] with hl := st.hl, hl_open_comment := st.in_comment }).length
            = E.row.length := List.length_set _ _ _
        obtain ⟨rows', h1, h2, h3⟩ := ih
          { E with
            row := E.row.set p { E.row[p] with hl := st.hl, hl_open_comment := st.in_comment },
            syntax_ := some syn }
          (p + 1)
          (idxOk_of_core _ _ (set_map_core _ _ _ _ hrow hcore) hidx)
          (by simp only [hlen1]; exact hn)
          (by simp only [hlen1]; omega)
          (by omega)
          (by simp only []; omega)
        refine ⟨rows', h1, ?_, ?_⟩
        · rw [h2]; exact set_map_core _ _ _ _ hrow hcore
        · intro i r' hr'
          rcases h3 i r' hr' with h | ⟨hne, h⟩
          · left; exact h
          · rcases getElem?_set_cases _ _ _ _ _ h with ⟨_, h⟩ | h
            · left; rw [h]; exact hlen
            · right; exact h
      · refine ⟨_, rfl, set_map_core _ _ _ _ hrow hcore, ?_⟩
        intro i r' hr'
        rcases getElem?_set_cases _ _ _ _ _ hr' with ⟨_, h⟩ | h
        · left; rw [h]; exact hlen
        · right; exact h

theorem tabPad_length (acc : List Char) :
    acc.length ≤ (tabPad BSE_TAB_STOP acc).length ∧
    (tabPad BSE_TAB_STOP acc).length ≤ acc.length + 3 ∧
    (tabPad BSE_TAB_STOP acc).length % 4 = 0 := by
  simp only [tabPad, BSE_TAB_STOP]
  split_ifs <;> simp only [List.length_append, List.length_singleton] at * <;> omega

theorem countTabs_foldl (cs : List Char) : ∀ n : Nat,
    cs.foldl (fun tabs c => if c = '\t' then tabs + 1 else tabs) n = n + countTabs cs := by
  induction cs with
  | nil => intro n; simp [countTabs]
  | cons c cs ih =>
    intro n
    unfold countTabs
    simp only [List.foldl_cons]
    rw [ih, ih (if c = '\t' then 0 + 1 else 0)]
    split_ifs <;> omega

theorem countTabs_cons (c : Char) (cs : List Char) :
    countTabs (c :: cs) = (if c = '\t' then 1 else 0) + countTabs cs := by
  unfold countTabs
  simp only [List.foldl_cons]
  rw [countTabs_foldl]
  unfold countTabs
  split_ifs <;> omega

theorem countTabs_eq_count (cs : List Char) : countTabs cs = cs.count '\t' := by
  induction cs with
  | nil => rfl
  | cons c cs ih =>
    rw [countTabs_cons, ih, List.count_cons]
    by_cases h : c = '\t'
    · simp [h]; omega
    · simp [h]

theorem renderLoop_length : ∀ (cs acc : List Char),
    acc.length + cs.length ≤ (renderLoop cs acc).length ∧
    (renderLoop cs acc).length ≤ acc.length + cs.length + 3 * countTabs cs := by
  intro cs
  induction cs with
  | nil => intro acc; simp [renderLoop, countTabs]
  | cons c cs ih =>
    intro acc
    rw [countTabs_cons]
    unfold renderLoop
    by_cases h : c = '\t'
    · rw [if_pos h, if_pos h]
      have h1 := ih (tabPad BSE_TAB_STOP (acc ++ [' ']))
      have h2 := tabPad_length (acc ++ [' '])
      simp only [List.length_append, List.length_singleton, List.length_cons, List.length_nil] at *
      omega
    · rw [if_neg h, if_neg h]
      have h1 := ih (acc ++ [c])
      simp only [List.length_append, List.length_singleton, List.length_cons, List.length_nil] at *
      omega

theorem map_getElem? {α β : Type} (f : α → β) (l l' : List α) (h : l'.map f = l.map f)
    (i : Nat) (r' : α) (hr : l'[i]? = some r') : ∃ r, l[i]? = some r ∧ f r' = f r := by
  have h1 : (l'.map f)[i]? = some (f r') := by simp [List.getElem?_map, hr]
  rw [h, List.getElem?_map] at h1
  cases hl : l[i]? with
  | none => rw [hl] at h1; cases h1
  | some r => rw [hl] at h1; exact ⟨r, rfl, (Option.some.inj h1).symm⟩

theorem editorUpdateRow_spec (fuel : Nat) (E : editorConfig) (p : Nat) (row : erow)
    (hrow : E.row[p]? = some row) (hidx : idxOk E.row) (hn : E.numrows ≤ E.row.length)
    (hf : 0 < fuel) (hfuel : E.numrows ≤ fuel + p) :
    ∃ rows', editorUpdateRow fuel E p = some { E with row := rows' } ∧
      rows'.map rowCore
        = (E.row.map rowCore).set p (row.idx, row.chars, renderLoop row.chars []) ∧
      ((∀ i r, E.row[i]? = some r → i ≠ p → rowOk r) → ∀ r' ∈ rows', rowOk r') := by
  have hp : p < E.row.length := by
    by_contra hc
    rw [List.getElem?_eq_none (by omega)] at hrow
    cases hrow
  unfold editorUpdateRow
  simp only [hrow]
  have hset : (E.row.set p { row with render := renderLoop row.chars [] }).map rowCore
      = (E.row.map rowCore).set p (row.idx, row.chars, renderLoop row.chars []) := by
    rw [List.map_set]; rfl
  have hidx1 : idxOk (E.row.set p { row with render := renderLoop row.chars [] }) := by
    unfold idxOk at *
    rw [List.map_set]
    have : (E.row.map (fun r => r.idx)).set p row.idx = E.row.map (fun r => r.idx) := by
      apply List.ext_getElem?
      intro j
      rw [List.getElem?_set]
      split_ifs with h1 h2
      · subst h1; simp [List.getElem?_map, hrow]
      · subst h1; simp at h2; omega
      · rfl
    simp only []
    rw [this]; exact hidx
  obtain ⟨rows', h1, h2, h3⟩ := editorUpdateSyntax_spec fuel
    { E with row := E.row.set p { row with render := renderLoop row.chars [] } } p
    hidx1 (by simp only [List.length_set]; exact hn) (by simp only [List.length_set]; exact hp)
    hf hfuel
  refine ⟨rows', h1, by rw [h2, hset], ?_⟩
  intro hok r' hr'
  obtain ⟨i, hi, hget⟩ := List.mem_iff_getElem.mp hr'
  have hget' : rows'[i]? = some r' := by rw [List.getElem?_eq_getElem hi, hget]
  obtain ⟨r1, hr1, hcore⟩ := map_getElem? rowCore _ _ h2 i r' hget'
  simp only [rowCore, Prod.mk.injEq] at hcore
  obtain ⟨_, hchars, hrender⟩ := hcore
  have hhl : r'.hl.length = r'.render.length ∨ r'.hl = r1.hl := by
    rcases h3 i r' hget' with h | ⟨_, h⟩
    · left; exact h
    · right; rw [hr1] at h; cases h; rfl
  rcases getElem?_set_cases _ _ _ _ _ hr1 with ⟨hip, hx⟩ | ⟨hip, hx⟩
  · have hl := (renderLoop_length row.chars []).1
    have hhl' : r'.hl.length = r'.render.length := by
      rcases h3 i r' hget' with h | ⟨hne, _⟩
      · exact h
      · exact absurd hip hne
    refine ⟨?_, hhl'⟩
    rw [hchars, hrender, hx]
    simpa using hl
  · have := hok i r1 hx hip
    unfold rowOk at *
    rw [hchars, hrender]
    refine ⟨this.1, ?_⟩
    rcases hhl with h | h
    · rw [← hrender]; exact h
    · rw [h]; exact this.2

/-! ## Coordinate mapper -/

theorem rxAdvance_gt (c : Char) (rx : Int) : rx < rxAdvance c rx := by
  unfold rxAdvance
  simp only [BSE_TAB_STOP]
  split_ifs <;> push_cast <;> omega

theorem cxToRx_zero (row : erow) : editorRowCxToRx row 0 = 0 := by
  simp [editorRowCxToRx]

theorem cxToRx_succ (row : erow) (n : Nat) :
    editorRowCxToRx row ((n : Int) + 1)
      = rxAdvance (row.chars.getD n '\x00') (editorRowCxToRx row n) := by
  unfold editorRowCxToRx
  have h1 : ((n : Int) + 1).toNat = n + 1 := by omega
  have h2 : (n : Int).toNat = n := by omega
  rw [h1, h2, List.range_succ, List.foldl_append]
  rfl

theorem cxToRx_strictMono (row : erow) :
    StrictMono (fun n : Nat => editorRowCxToRx row (n : Int)) := by
  apply strictMono_nat_of_lt_succ
  intro n
  show editorRowCxToRx row (n : Int) < editorRowCxToRx row ((n + 1 : Nat) : Int)
  push_cast
  rw [cxToRx_succ]
  exact rxAdvance_gt _ _

theorem cxToRx_lt_iff (row : erow) (a b : Nat) :
    editorRowCxToRx row (a : Int) < editorRowCxToRx row (b : Int) ↔ a < b :=
  (cxToRx_strictMono row).lt_iff_lt

/-- The loop of `editorRowRxToCx`, started at column `k` with the render column
of `k`, stops at the first column from `k` on whose end lies beyond `rx`. -/
theorem rxToCxLoop_spec (row : erow) (rx : Int) : ∀ (l : List Char) (k : Nat),
    row.chars.drop k = l → k ≤ row.chars.length →
    ∃ m : Nat, rxToCxLoop rx l (editorRowCxToRx row k) k = m ∧ k ≤ m ∧
      m ≤ row.chars.length ∧
      (m < row.chars.length → rx < editorRowCxToRx row ((m : Int) + 1)) ∧
      ∀ j : Nat, k ≤ j → j < m → editorRowCxToRx row ((j : Int) + 1) ≤ rx := by
  intro l
  induction l with
  | nil =>
    intro k hk hle
    have : row.chars.length ≤ k := by
      have := congrArg List.length hk
      simp at this; omega
    refine ⟨k, rfl, le_refl _, hle, fun h => by omega, fun j h1 h2 => by omega⟩
  | cons c cs ih =>
    intro k hk hle
    have hlt : k < row.chars.length := by
      have := congrArg List.length hk
      simp at this; omega
    rw [List.drop_eq_getElem_cons hlt] at hk
    have hc : row.chars[k] = c := (List.cons.inj hk).1
    have hcs : row.chars.drop (k + 1) = cs := (List.cons.inj hk).2
    have hsucc : rxAdvance c (editorRowCxToRx row k) = editorRowCxToRx row ((k : Int) + 1) := by
      rw [cxToRx_succ, List.getD_eq_getElem _ _ hlt, hc]
    unfold rxToCxLoop
    rw [hsucc]
    by_cases hgt : editorRowCxToRx row ((k : Int) + 1) > rx
    · rw [if_pos hgt]
      exact ⟨k, rfl, le_refl _, hle, fun _ => hgt, fun j h1 h2 => by omega⟩
    · rw [if_neg hgt]
      obtain ⟨m, h1, h2, h3, h4, h5⟩ := ih (k + 1) hcs hlt
      refine ⟨m, ?_, by omega, h3, h4, ?_⟩
      · rw [← h1]; push_cast; rfl
      · intro j hj1 hj2
        by_cases hjk : j = k
        · subst hjk; omega
        · exact h5 j (by omega) hj2

/-- `editorRowRxToCx` returns a column `m` of the row, the first whose end lies
beyond `rx`. -/
theorem editorRowRxToCx_spec (row : erow) (rx : Int) :
    ∃ m : Nat, editorRowRxToCx row rx = m ∧ m ≤ row.chars.length ∧
      (m < row.chars.length → rx < editorRowCxToRx row ((m : Int) + 1)) ∧
      ∀ j : Nat, j < m → editorRowCxToRx row ((j : Int) + 1) ≤ rx := by
  obtain ⟨m, h1, _, h3, h4, h5⟩ := rxToCxLoop_spec row rx row.chars 0 (by simp) (by omega)
  refine ⟨m, ?_, h3, h4, fun j hj => h5 j (by omega) hj⟩
  unfold editorRowRxToCx
  have : editorRowCxToRx row ((0 : Nat) : Int) = 0 := cxToRx_zero row
  rw [this] at h1
  exact h1

/-! ## Row store: frame lemmas -/

theorem set_getElem?_self {α : Type} (l : List α) (p : Nat) (x : α) (h : l[p]? = some x) :
    l.set p x = l := by
  apply List.ext_getElem?
  intro j
  rw [List.getElem?_set]
  by_cases hj : p = j
  · subst hj
    rw [if_pos rfl]
    by_cases hl : p < l.length
    · rw [if_pos hl, h]
    · rw [List.getElem?_eq_none (by omega)] at h; cases h
  · rw [if_neg hj]

theorem map_getElem?_some {α β : Type} (f : α → β) (l : List α) (i : Nat) (y : β)
    (h : (l.map f)[i]? = some y) : ∃ x, l[i]? = some x ∧ f x = y := by
  rw [List.getElem?_map] at h
  cases hl : l[i]? with
  | none => rw [hl] at h; cases h
  | some x => rw [hl] at h; exact ⟨x, rfl, Option.some.inj h⟩

theorem core_idx (rows : List erow) :
    rows.map (fun r => r.idx) = (rows.map rowCore).map (fun c => c.1) := by
  simp [List.map_map, Function.comp_def, rowCore]

theorem core_chars (rows : List erow) :
    rows.map (fun r => r.chars) = (rows.map rowCore).map (fun c => c.2.1) := by
  simp [List.map_map, Function.comp_def, rowCore]

/-- Re-deriving row `p`: the raw content and the indices of all rows stay, and
all rows are at rest afterwards if the other rows were. -/
theorem editorUpdateRow_text (fuel : Nat) (E : editorConfig) (p : Nat) (row : erow)
    (hrow : E.row[p]? = some row) (hidx : idxOk E.row) (hn : E.numrows ≤ E.row.length)
    (hf : 0 < fuel) (hfuel : E.numrows ≤ fuel + p) :
    ∃ rows', editorUpdateRow fuel E p = some { E with row := rows' } ∧
      rows'.map (fun r => r.chars) = E.row.map (fun r => r.chars) ∧
      rows'.map (fun r => r.idx) = E.row.map (fun r => r.idx) ∧
      (∃ r', rows'[p]? = some r' ∧ r'.chars = row.chars ∧
        r'.render = renderLoop row.chars []) ∧
      ((∀ i r, E.row[i]? = some r → i ≠ p → rowOk r) → ∀ r' ∈ rows', rowOk r') := by
  obtain ⟨rows', h1, h2, h3⟩ := editorUpdateRow_spec fuel E p row hrow hidx hn hf hfuel
  have hp : p < E.row.length := by
    by_contra hc
    rw [List.getElem?_eq_none (by omega)] at hrow
    cases hrow
  refine ⟨rows', h1, ?_, ?_, ?_, h3⟩
  · rw [core_chars rows', h2, List.map_set, ← core_chars]
    exact set_getElem?_self _ _ _ (by simp [List.getElem?_map, hrow])
  · rw [core_idx rows', h2, List.map_set, ← core_idx]
    exact set_getElem?_self _ _ _ (by simp [List.getElem?_map, hrow])
  · have : (rows'.map rowCore)[p]? = some (row.idx, row.chars, renderLoop row.chars []) := by
      rw [h2, List.getElem?_set, if_pos rfl, if_pos (by simpa using hp)]
    obtain ⟨r', hr', hc⟩ := map_getElem?_some rowCore rows' p _ this
    simp only [rowCore, Prod.mk.injEq] at hc
    exact ⟨r', hr', hc.2.1, hc.2.2⟩

/-- The raw buffer of row `p` is replaced and the row re-derived: what
`editorRowInsertChar`, `editorRowDelChar` and `editorRowAppendString` do. -/
theorem editorUpdateRow_setChars (fuel : Nat) (E : editorConfig) (p : Nat) (row : erow)
    (cs : List Char)
    (hrow : E.row[p]? = some row) (hidx : idxOk E.row) (hn : E.numrows ≤ E.row.length)
    (hf : 0 < fuel) (hfuel : E.numrows ≤ fuel + p) :
    ∃ rows', editorUpdateRow fuel
        { E with row := E.row.set p { row with chars := cs } } p = some { E with row := rows' } ∧
      rows'.map (fun r => r.chars) = (E.row.map (fun r => r.chars)).set p cs ∧
      rows'.map (fun r => r.idx) = E.row.map (fun r => r.idx) ∧
      ((∀ i r, E.row[i]? = some r → i ≠ p → rowOk r) → ∀ r' ∈ rows', rowOk r') := by
  have hp : p < E.row.length := by
    by_contra hc
    rw [List.getElem?_eq_none (by omega)] at hrow
    cases hrow
  have hidxeq : (E.row.set p { row with chars := cs }).map (fun r => r.idx)
      = E.row.map (fun r => r.idx) := by
    rw [List.map_set]
    exact set_getElem?_self _ _ _ (by simp [List.getElem?_map, hrow])
  have hidx1 : idxOk (E.row.set p { row with chars := cs }) := by
    unfold idxOk at *; rw [hidxeq]; exact hidx
  have hrow1 : (E.row.set p { row with chars := cs })[p]? = some { row with chars := cs } := by
    rw [List.getElem?_set, if_pos rfl, if_pos hp]
  obtain ⟨rows', h1, h2, h3, _, h5⟩ := editorUpdateRow_text fuel
    { E with row := E.row.set p { row with chars := cs } } p _ hrow1 hidx1
    (by simp only [List.length_set]; exact hn) hf hfuel
  refine ⟨rows', h1, ?_, ?_, ?_⟩
  · rw [h2, List.map_set]
  · rw [h3, hidxeq]
  · intro hok
    apply h5
    intro i r hr hne
    rcases getElem?_set_cases _ _ _ _ _ hr with ⟨h, _⟩ | ⟨_, h⟩
    · exact absurd h hne
    · exact hok i r h hne

theorem rowsOk_others (rows : List erow) (p : Nat) (h : rowsOk rows) :
    ∀ i r, rows[i]? = some r → i ≠ p → rowOk r :=
  fun _ r hr _ => h r (List.getElem?_mem hr)

theorem editorRowInsertChar_spec (fuel : Nat) (E : editorConfig) (p : Nat) (row : erow)
    (at_ : Int) (c : Char) (hrow : E.row[p]? = some row) (hwf : wellFormed E)
    (hfuel : E.numrows < fuel) :
    ∃ rows', editorRowInsertChar fuel E p at_ c
        = some { E with row := rows', dirty := E.dirty + 1 } ∧
      rows'.map (fun r => r.chars) = (E.row.map (fun r => r.chars)).set p
        (row.chars.take (if at_ < 0 ∨ at_ > row.size then row.size else at_).toNat ++
          c :: row.chars.drop (if at_ < 0 ∨ at_ > row.size then row.size else at_).toNat) ∧
      rows'.map (fun r => r.idx) = E.row.map (fun r => r.idx) ∧
      (rowsOk E.row → rowsOk rows') := by
  obtain ⟨hnum, hidx⟩ := hwf
  obtain ⟨rows', h1, h2, h3, h4⟩ := editorUpdateRow_setChars fuel E p row
    (row.chars.take (if at_ < 0 ∨ at_ > row.size then row.size else at_).toNat ++
      c :: row.chars.drop (if at_ < 0 ∨ at_ > row.size then row.size else at_).toNat)
    hrow hidx (by omega) (by omega) (by omega)
  refine ⟨rows', ?_, h2, h3, fun hok => h4 (rowsOk_others _ p hok)⟩
  unfold editorRowInsertChar
  simp only [hrow]
  rw [h1]

theorem editorRowAppendString_spec (fuel : Nat) (E : editorConfig) (p : Nat) (row : erow)
    (s : List Char) (hrow : E.row[p]? = some row) (hwf : wellFormed E)
    (hfuel : E.numrows < fuel) :
    ∃ rows', editorRowAppendString fuel E p s
        = some { E with row := rows', dirty := E.dirty + 1 } ∧
      rows'.map (fun r => r.chars) = (E.row.map (fun r => r.chars)).set p (row.chars ++ s) ∧
      rows'.map (fun r => r.idx) = E.row.map (fun r => r.idx) ∧
      (rowsOk E.row → rowsOk rows') := by
  obtain ⟨hnum, hidx⟩ := hwf
  obtain ⟨rows', h1, h2, h3, h4⟩ := editorUpdateRow_setChars fuel E p row (row.chars ++ s)
    hrow hidx (by omega) (by omega) (by omega)
  refine ⟨rows', ?_, h2, h3, fun hok => h4 (rowsOk_others _ p hok)⟩
  unfold editorRowAppendString
  simp only [hrow]
  rw [h1]

theorem editorRowDelChar_spec (fuel : Nat) (E : editorConfig) (p : Nat) (row : erow)
    (at_ : Int) (hrow : E.row[p]? = some row) (hwf : wellFormed E)
    (h0 : 0 ≤ at_) (h1 : at_ < row.size) (hfuel : E.numrows < fuel) :
    ∃ rows', editorRowDelChar fuel E p at_
        = some { E with row := rows', dirty := E.dirty + 1 } ∧
      rows'.map (fun r => r.chars) = (E.row.map (fun r => r.chars)).set p
        (row.chars.take at_.toNat ++ row.chars.drop (at_.toNat + 1)) ∧
      rows'.map (fun r => r.idx) = E.row.map (fun r => r.idx) ∧
      (rowsOk E.row → rowsOk rows') := by
  obtain ⟨hnum, hidx⟩ := hwf
  obtain ⟨rows', h1', h2, h3, h4⟩ := editorUpdateRow_setChars fuel E p row
    (row.chars.take at_.toNat ++ row.chars.drop (at_.toNat + 1))
    hrow hidx (by omega) (by omega) (by omega)
  refine ⟨rows', ?_, h2, h3, fun hok => h4 (rowsOk_others _ p hok)⟩
  unfold editorRowDelChar
  simp only [hrow]
  rw [if_neg (by omega)]
  rw [h1']

theorem editorRowDelChar_out_of_range (fuel : Nat) (E : editorConfig) (p : Nat) (row : erow)
    (at_ : Int) (hrow : E.row[p]? = some row) (h : at_ < 0 ∨ at_ ≥ row.size) :
    editorRowDelChar fuel E p at_ = some E := by
  unfold editorRowDelChar
  simp only [hrow]
  rw [if_pos h]

theorem wellFormed_of_idx (E : editorConfig) (rows' : List erow) (hwf : wellFormed E)
    (h : rows'.map (fun r => r.idx) = E.row.map (fun r => r.idx)) :
    rows'.length = E.row.length ∧ idxOk rows' := by
  refine ⟨?_, ?_⟩
  · have := congrArg List.length h
    simpa using this
  · unfold idxOk; rw [h]; exact hwf.2

theorem map_chars_getElem? (rows : List erow) (p : Nat) (cs : List Char)
    (h : (rows.map (fun r => r.chars))[p]? = some cs) :
    ∃ r, rows[p]? = some r ∧ r.chars = cs :=
  map_getElem?_some (fun r => r.chars) rows p cs h

theorem take_insert_drop (l : List Char) (a : Nat) (c : Char) (ha : a ≤ l.length) :
    (l.take a ++ c :: l.drop a).take a ++ (l.take a ++ c :: l.drop a).drop (a + 1) = l := by
  have h1 : (l.take a).length = a := List.length_take_of_le ha
  have e1 : (l.take a ++ c :: l.drop a).take a = l.take a := List.take_left' h1
  have e2 : (l.take a ++ c :: l.drop a).drop (a + 1) = l.drop a := by
    have : (l.take a ++ c :: l.drop a) = (l.take a ++ [c]) ++ l.drop a := by simp
    rw [this]
    exact List.drop_left' (by simp [h1])
  rw [e1, e2, List.take_append_drop]

theorem countsFrom_append : ∀ (l1 l2 : List Int) (k : Int),
    countsFrom k (l1 ++ l2) = (countsFrom k l1 && countsFrom (k + l1.length) l2) := by
  intro l1
  induction l1 with
  | nil => intro l2 k; simp [countsFrom]
  | cons x xs ih =>
    intro l2 k
    have e : k + 1 + (xs.length : Int) = k + ((xs.length + 1 : Nat) : Int) := by
      push_cast; ring
    show (decide (x = k) && countsFrom (k + 1) (xs ++ l2))
      = ((decide (x = k) && countsFrom (k + 1) xs)
          && countsFrom (k + ((xs.length + 1 : Nat) : Int)) l2)
    rw [ih, Bool.and_assoc, e]

theorem countsFrom_map_add : ∀ (l : List Int) (k d : Int),
    countsFrom k (l.map (fun x => x + d)) = countsFrom (k - d) l := by
  intro l
  induction l with
  | nil => intro k d; rfl
  | cons x xs ih =>
    intro k d
    simp only [List.map_cons, countsFrom, ih]
    congr 1
    · simp only [decide_eq_decide]; omega
    · congr 1; omega

theorem countsFrom_split (l : List Int) (a : Nat) (ha : a ≤ l.length)
    (h : countsFrom 0 l = true) :
    countsFrom 0 (l.take a) = true ∧ countsFrom a (l.drop a) = true := by
  have h' := h
  rw [← List.take_append_drop a l, countsFrom_append, List.length_take_of_le ha] at h'
  simpa using h'

theorem idxOk_insert (rows : List erow) (a : Nat) (newrow : erow) (ha : a ≤ rows.length)
    (hnew : newrow.idx = a) (h : idxOk rows) :
    idxOk (rows.take a ++ newrow ::
      (rows.drop a).map (fun r => { r with idx := r.idx + 1 })) := by
  unfold idxOk at *
  obtain ⟨h1, h2⟩ := countsFrom_split _ a (by simpa using ha) h
  have e : (rows.take a ++ newrow ::
      (rows.drop a).map (fun r : erow => { r with idx := r.idx + 1 })).map (fun r => r.idx)
      = (rows.map (fun r => r.idx)).take a ++ (a : Int) ::
        ((rows.map (fun r => r.idx)).drop a).map (fun x => x + 1) := by
    simp [List.map_take, List.map_drop, List.map_map, Function.comp_def, hnew]
  rw [e, countsFrom_append, h1, List.length_take_of_le (by simpa using ha)]
  simp only [countsFrom, Bool.true_and, zero_add, decide_True, countsFrom_map_add]
  rw [← h2]; congr 1; omega

theorem idxOk_delete (rows : List erow) (a : Nat) (ha : a < rows.length) (h : idxOk rows) :
    idxOk (rows.take a ++ (rows.drop (a + 1)).map (fun r => { r with idx := r.idx - 1 })) := by
  unfold idxOk at *
  obtain ⟨h1, h2⟩ := countsFrom_split _ a (by simp; omega) h
  rw [List.drop_eq_getElem_cons (by simpa using ha)] at h2
  simp only [countsFrom, Bool.and_eq_true, decide_eq_true_eq] at h2
  have e : (rows.take a ++ (rows.drop (a + 1)).map
      (fun r : erow => { r with idx := r.idx - 1 })).map (fun r : erow => r.idx)
      = (rows.map (fun r => r.idx)).take a ++
        ((rows.map (fun r => r.idx)).drop (a + 1)).map (fun x => x + (-1)) := by
    simp [List.map_take, List.map_drop, List.map_map, Function.comp_def, sub_eq_add_neg]
  rw [e, countsFrom_append, h1, List.length_take_of_le (by simp; omega)]
  simp only [Bool.true_and, zero_add, countsFrom_map_add]
  rw [← h2.2]; congr 1

theorem editorInsertRow_out_of_range (fuel : Nat) (E : editorConfig) (at_ : Int) (s : List Char)
    (h : at_ < 0 ∨ at_ > E.numrows) : editorInsertRow fuel E at_ s = some E := by
  unfold editorInsertRow
  rw [if_pos h]

/-- `editorInsertRow` with `at` in `[0, numrows]`: the new row holds `s` at
position `at`, the other rows keep their raw content and order, the indices are
contiguous again and all rows are at rest. -/
theorem editorInsertRow_spec (fuel : Nat) (E : editorConfig) (at_ : Int) (s : List Char)
    (hwf : wellFormed E) (h0 : 0 ≤ at_) (h1 : at_ ≤ E.numrows) (hfuel : E.numrows < fuel) :
    ∃ rows', editorInsertRow fuel E at_ s
        = some { E with row := rows', numrows := E.numrows + 1, dirty := E.dirty + 1 } ∧
      rows'.map (fun r => r.chars)
        = (E.row.map (fun r => r.chars)).take at_.toNat ++
            s :: (E.row.map (fun r => r.chars)).drop at_.toNat ∧
      rows'.length = E.row.length + 1 ∧
      idxOk rows' ∧ (rowsOk E.row → rowsOk rows') := by
  obtain ⟨hnum, hidx⟩ := hwf
  have ha : at_.toNat ≤ E.row.length := by omega
  have hlt : (E.row.take at_.toNat).length = at_.toNat := List.length_take_of_le ha
  have hidx1 := idxOk_insert E.row at_.toNat
    { idx := at_, chars := s, render := [], hl := [], hl_open_comment := false } ha
    (by simp only []; omega) hidx
  have hget : (E.row.take at_.toNat ++
      ({ idx := at_, chars := s, render := [], hl := [], hl_open_comment := false } : erow) ::
      (E.row.drop at_.toNat).map (fun r => { r with idx := r.idx + 1 }))[at_.toNat]?
      = some { idx := at_, chars := s, render := [], hl := [], hl_open_comment := false } := by
    rw [List.getElem?_append_right (by omega), hlt]
    simp
  have hlen1 : (E.row.take at_.toNat ++
      ({ idx := at_, chars := s, render := [], hl := [], hl_open_comment := false } : erow) ::
      (E.row.drop at_.toNat).map (fun r => { r with idx := r.idx + 1 })).length
      = E.row.length + 1 := by
    simp only [List.length_append, List.length_cons, List.length_map, List.length_drop, hlt]
    omega
  obtain ⟨rows', e1, t1, i1, _, ok1⟩ := editorUpdateRow_text fuel
    { E with row := E.row.take at_.toNat ++
      ({ idx := at_, chars := s, render := [], hl := [], hl_open_comment := false } : erow) ::
      (E.row.drop at_.toNat).map (fun r => { r with idx := r.idx + 1 }) } at_.toNat _ hget hidx1
    (by simp only [hlen1]; push_cast; omega) (by omega) (by simp only []; omega)
  refine ⟨rows', ?_, ?_, ?_, ?_, ?_⟩
  · unfold editorInsertRow
    rw [if_neg (by omega)]
    simp only []
    rw [e1]
  · rw [t1]
    simp [List.map_take, List.map_drop, List.map_map, Function.comp_def]
  · have := congrArg List.length t1
    simp only [List.length_map] at this
    rw [this, hlen1]
  · unfold idxOk at *
    rw [i1]; exact hidx1
  · intro hok
    apply ok1
    intro i r hr hne
    by_cases hi : i < at_.toNat
    · rw [List.getElem?_append_left (by omega)] at hr
      exact hok r (List.mem_of_mem_take (List.getElem?_mem hr))
    · rw [List.getElem?_append_right (by omega), hlt] at hr
      obtain ⟨j, hj⟩ : ∃ j, i - at_.toNat = j + 1 := ⟨i - at_.toNat - 1, by omega⟩
      rw [hj, List.getElem?_cons_succ] at hr
      have hmem := List.getElem?_mem hr
      rw [List.mem_map] at hmem
      obtain ⟨r0, hr0, rfl⟩ := hmem
      exact hok r0 (List.mem_of_mem_drop hr0)

theorem editorDelRow_out_of_range (E : editorConfig) (at_ : Int)
    (h : at_ < 0 ∨ at_ ≥ E.numrows) : editorDelRow E at_ = E := by
  unfold editorDelRow
  rw [if_pos h]

/-- `editorDelRow` with `at` in `[0, numrows)`: row `at` is gone, the other rows
keep their raw content and order, the indices are contiguous again. -/
theorem editorDelRow_spec (E : editorConfig) (at_ : Int) (hwf : wellFormed E)
    (h0 : 0 ≤ at_) (h1 : at_ < E.numrows) :
    ∃ rows', editorDelRow E at_
        = { E with row := rows', numrows := E.numrows - 1, dirty := E.dirty + 1 } ∧
      rows'.map (fun r => r.chars)
        = (E.row.map (fun r => r.chars)).take at_.toNat ++
            (E.row.map (fun r => r.chars)).drop (at_.toNat + 1) ∧
      (rows'.length : Int) = E.row.length - 1 ∧
      idxOk rows' ∧ (rowsOk E.row → rowsOk rows') := by
  obtain ⟨hnum, hidx⟩ := hwf
  have ha : at_.toNat < E.row.length := by omega
  refine ⟨_, ?_, ?_, ?_, idxOk_delete E.row at_.toNat ha hidx, ?_⟩
  · unfold editorDelRow
    rw [if_neg (by omega)]
  · simp [List.map_take, List.map_drop, List.map_map, Function.comp_def]
  · simp only [List.length_append, List.length_map, List.length_drop,
      List.length_take_of_le (le_of_lt ha)]
    omega
  · intro hok r hr
    rw [List.mem_append] at hr
    rcases hr with hr | hr
    · exact hok r (List.mem_of_mem_take hr)
    · rw [List.mem_map] at hr
      obtain ⟨r0, hr0, rfl⟩ := hr
      exact hok r0 (List.mem_of_mem_drop hr0)

theorem rowAt_some (E : editorConfig) (i : Int) (row : erow) (h : rowAt E i = some row) :
    0 ≤ i ∧ i.toNat < E.row.length ∧ E.row[i.toNat]? = some row := by
  unfold rowAt at h
  by_cases hi : i < 0
  · rw [if_pos hi] at h; cases h
  · rw [if_neg hi] at h
    refine ⟨by omega, ?_, h⟩
    by_contra hc
    rw [List.getElem?_eq_none (by omega)] at h
    cases h

theorem set_take_succ_append {α : Type} (T : List α) (n : Nat) (x y : α) (R : List α)
    (hn : n < T.length) : (T.take (n + 1) ++ x :: R).set n y = T.take n ++ y :: x :: R := by
  have hl : (T.take n).length = n := List.length_take_of_le (le_of_lt hn)
  have e : T.take (n + 1) ++ x :: R = T.take n ++ (T[n] :: x :: R) := by
    rw [List.take_succ, List.getElem?_eq_getElem hn]
    simp only [Option.toList, List.append_assoc, List.singleton_append]
  rw [e, List.set_append_right _ _ (by omega), hl]
  simp

theorem docText_getElem? (E : editorConfig) (p : Nat) (row : erow) (h : E.row[p]? = some row) :
    (docText E)[p]? = some row.chars := by
  simp [docText, List.getElem?_map, h]

/-- `editorInsertNewline` with the cursor on a row and `0 <= cx <= size`. -/
theorem editorInsertNewline_spec (fuel : Nat) (E : editorConfig) (row : erow)
    (hwf : wellFormed E) (hrow : rowAt E E.cy = some row) (hcx0 : 0 ≤ E.cx)
    (hcx1 : E.cx ≤ row.size) (hfuel : E.numrows < fuel) :
    ∃ rows', editorInsertNewline fuel E
        = some { E with row := rows', numrows := E.numrows + 1, dirty := E.dirty + 1,
                        cy := E.cy + 1, cx := 0 } ∧
      rows'.map (fun r => r.chars)
        = (docText E).take E.cy.toNat ++ row.chars.take E.cx.toNat ::
            row.chars.drop E.cx.toNat :: (docText E).drop (E.cy.toNat + 1) ∧
      rows'.length = E.row.length + 1 ∧
      idxOk rows' ∧ (rowsOk E.row → rowsOk rows') := by
  obtain ⟨hcy0, hcylt, hget⟩ := rowAt_some E E.cy row hrow
  have hnum := hwf.1
  have hT : (docText E).length = E.row.length := by simp [docText]
  have hdrop : (docText E).drop E.cy.toNat = row.chars :: (docText E).drop (E.cy.toNat + 1) := by
    rw [List.drop_eq_getElem_cons (by omega)]
    congr 1
    have := docText_getElem? E _ row hget
    rw [List.getElem?_eq_getElem (by omega)] at this
    exact Option.some.inj this
  unfold editorInsertNewline
  by_cases hz : E.cx = 0
  · rw [if_pos hz]
    obtain ⟨rows', e1, t1, l1, i1, ok1⟩ := editorInsertRow_spec fuel E E.cy [] hwf hcy0
      (by omega) hfuel
    refine ⟨rows', ?_, ?_, l1, i1, ok1⟩
    · rw [e1]
    · rw [t1, hz]
      show List.take E.cy.toNat (docText E) ++ [] :: List.drop E.cy.toNat (docText E) = _
      rw [hdrop]
      simp
  · rw [if_neg hz, hrow]
    simp only []
    rw [if_neg (by omega)]
    obtain ⟨rows1, e1, t1, l1, i1, ok1⟩ := editorInsertRow_spec fuel E (E.cy + 1)
      (row.chars.drop E.cx.toNat) hwf (by omega) (by omega) hfuel
    have hcy1 : (E.cy + 1).toNat = E.cy.toNat + 1 := by omega
    rw [hcy1] at t1
    rw [e1]
    simp only []
    have hget1 : (rows1.map (fun r => r.chars))[E.cy.toNat]? = some row.chars := by
      rw [t1, List.getElem?_append_left (by simp; omega), List.getElem?_take_of_lt (by omega)]
      exact docText_getElem? E _ row hget
    obtain ⟨row1, hrow1, hc1⟩ := map_chars_getElem? rows1 _ _ hget1
    rw [hrow1]
    simp only []
    obtain ⟨rows2, e2, t2, i2, ok2⟩ := editorUpdateRow_setChars fuel
      { E with row := rows1, numrows := E.numrows + 1, dirty := E.dirty + 1 } E.cy.toNat row1
      (row1.chars.take E.cx.toNat) hrow1 i1 (by simp only [l1]; push_cast; omega) (by omega)
      (by simp only []; omega)
    rw [e2]
    refine ⟨rows2, rfl, ?_, ?_, ?_, ?_⟩
    · rw [t2, t1, hc1]
      exact set_take_succ_append (docText E) _ _ _ _ (by omega)
    · have := congrArg List.length i2
      simp only [List.length_map] at this
      rw [this, l1]
    · unfold idxOk at *; rw [i2]; exact i1
    · intro hok
      exact ok2 (rowsOk_others _ _ (ok1 hok))

theorem take_drop_set {α : Type} (T : List α) (n : Nat) (X : α) (hn : n < T.length) :
    (T.set n X).take (n + 1) ++ (T.set n X).drop (n + 1 + 1) = T.take n ++ X :: T.drop (n + 2) := by
  have hl : (T.take n).length = n := List.length_take_of_le (le_of_lt hn)
  have e : T.set n X = (T.take n ++ [X]) ++ T.drop (n + 1) := by
    rw [List.set_eq_take_append_cons_drop, if_pos hn]
    simp
  have e1 : (T.set n X).take (n + 1) = T.take n ++ [X] := by
    rw [e]; exact List.take_left' (by simp [hl])
  have e2 : (T.set n X).drop (n + 1 + 1) = T.drop (n + 2) := by
    rw [List.drop_set_of_lt _ _ (by omega)]
  rw [e1, e2]
  simp

theorem wellFormed_step (E : editorConfig) (rows' : List erow) (d : Int) (hwf : wellFormed E)
    (h : rows'.map (fun r => r.idx) = E.row.map (fun r => r.idx)) :
    wellFormed { E with row := rows', dirty := d } := by
  obtain ⟨h1, h2⟩ := wellFormed_of_idx E rows' hwf h
  exact ⟨by simp only [h1]; exact hwf.1, h2⟩

/-- `editorJoinLines` on the last row changes nothing. -/
theorem editorJoinLines_last (fuel : Nat) (E : editorConfig) (h : E.cy = E.numrows - 1) :
    editorJoinLines fuel E = some E := by
  unfold editorJoinLines
  rw [if_pos h]

/-- `editorJoinLines` with a row below the cursor row. -/
theorem editorJoinLines_spec (fuel : Nat) (E : editorConfig) (row below : erow)
    (hwf : wellFormed E) (hrow : rowAt E E.cy = some row)
    (hbelow : E.row[E.cy.toNat + 1]? = some below) (hfuel : E.numrows < fuel) :
    ∃ rows', editorJoinLines fuel E
        = some { E with row := rows', numrows := E.numrows - 1,
                        dirty := E.dirty + 1 + 1 + 1 } ∧
      rows'.map (fun r => r.chars)
        = (docText E).take E.cy.toNat ++ (row.chars ++ [' '] ++ below.chars) ::
            (docText E).drop (E.cy.toNat + 2) ∧
      (rows'.length : Int) = E.row.length - 1 ∧
      idxOk rows' ∧ (rowsOk E.row → rowsOk rows') := by
  obtain ⟨hcy0, hcylt, hget⟩ := rowAt_some E E.cy row hrow
  have hnum := hwf.1
  have hblt : E.cy.toNat + 1 < E.row.length := by
    by_contra hc
    rw [List.getElem?_eq_none (by omega)] at hbelow
    cases hbelow
  have hT : (docText E).length = E.row.length := by simp [docText]
  unfold editorJoinLines
  rw [if_neg (by omega), if_neg (by omega)]
  obtain ⟨rows1, e1, t1, i1, ok1⟩ := editorRowAppendString_spec fuel E E.cy.toNat row [' ']
    hget hwf hfuel
  rw [e1]
  simp only []
  have hwf1 := wellFormed_step E rows1 (E.dirty + 1) hwf i1
  have hgb : (rows1.map (fun r => r.chars))[E.cy.toNat + 1]? = some below.chars := by
    rw [t1, List.getElem?_set, if_neg (by omega)]
    exact docText_getElem? E _ below hbelow
  obtain ⟨rb1, hrb1, hcb1⟩ := map_chars_getElem? rows1 _ _ hgb
  have hgr : (rows1.map (fun r => r.chars))[E.cy.toNat]? = some (row.chars ++ [' ']) := by
    rw [t1, List.getElem?_set, if_pos rfl, if_pos (by simp; omega)]
  obtain ⟨row1, hrow1, hc1⟩ := map_chars_getElem? rows1 _ _ hgr
  rw [hrb1]
  simp only []
  obtain ⟨rows2, e2, t2, i2, ok2⟩ := editorRowAppendString_spec fuel
    { E with row := rows1, dirty := E.dirty + 1 } E.cy.toNat row1 rb1.chars hrow1 hwf1 hfuel
  rw [e2]
  simp only []
  have hwf2 := wellFormed_step { E with row := rows1, dirty := E.dirty + 1 } rows2
    (E.dirty + 1 + 1) hwf1 i2
  have hl2 : rows2.length = E.row.length := by
    have a := congrArg List.length i2
    have b := congrArg List.length i1
    simp only [List.length_map] at a b
    omega
  obtain ⟨rows3, e3, t3, l3, i3, ok3⟩ := editorDelRow_spec
    { E with row := rows2, dirty := E.dirty + 1 + 1 } (E.cy + 1) hwf2 (by omega)
    (by simp only []; omega)
  refine ⟨rows3, ?_, ?_, ?_, i3, fun hok => ok3 (ok2 (ok1 hok))⟩
  · rw [e3]
  · have hcy1 : (E.cy + 1).toNat = E.cy.toNat + 1 := by omega
    rw [t3, hcy1]
    simp only []
    rw [t2, t1, List.set_set, hc1, hcb1]
    exact take_drop_set (docText E) E.cy.toNat _ (by omega)
  · rw [l3]; simp only [hl2]

/-- `editorDelChar` at `(0, 0)` or on the line after the last row changes nothing. -/
theorem editorDelChar_noop (fuel : Nat) (E : editorConfig)
    (h : E.cy = E.numrows ∨ (E.cx = 0 ∧ E.cy = 0)) : editorDelChar fuel E = some E := by
  unfold editorDelChar
  rcases h with h | h
  · rw [if_pos h]
  · by_cases h1 : E.cy = E.numrows
    · rw [if_pos h1]
    · rw [if_neg h1, if_pos h]

/-- `editorDelChar` with `cx > 0` on a row. -/
theorem editorDelChar_char_spec (fuel : Nat) (E : editorConfig) (row : erow)
    (hwf : wellFormed E) (hrow : rowAt E E.cy = some row) (hcx0 : 0 < E.cx)
    (hcx1 : E.cx ≤ row.size) (hfuel : E.numrows < fuel) :
    ∃ rows', editorDelChar fuel E
        = some { E with row := rows', dirty := E.dirty + 1, cx := E.cx - 1 } ∧
      rows'.map (fun r => r.chars) = (docText E).set E.cy.toNat
        (row.chars.take (E.cx - 1).toNat ++ row.chars.drop ((E.cx - 1).toNat + 1)) ∧
      rows'.map (fun r => r.idx) = E.row.map (fun r => r.idx) ∧
      (rowsOk E.row → rowsOk rows') := by
  obtain ⟨hcy0, hcylt, hget⟩ := rowAt_some E E.cy row hrow
  have hnum := hwf.1
  unfold editorDelChar
  rw [if_neg (by omega), if_neg (by omega), if_neg (by omega), if_pos hcx0]
  obtain ⟨rows', e1, t1, i1, ok1⟩ := editorRowDelChar_spec fuel E E.cy.toNat row (E.cx - 1)
    hget hwf (by omega) (by omega) hfuel
  rw [e1]
  exact ⟨rows', rfl, t1, i1, ok1⟩

/-- `editorDelChar` at column 0 of a row that has a row above it. -/
theorem editorDelChar_join_spec (fuel : Nat) (E : editorConfig) (row above : erow)
    (hwf : wellFormed E) (hrow : rowAt E E.cy = some row)
    (habove : rowAt E (E.cy - 1) = some above) (hcx : E.cx = 0) (hfuel : E.numrows < fuel) :
    ∃ rows', editorDelChar fuel E
        = some { E with row := rows', numrows := E.numrows - 1, dirty := E.dirty + 1 + 1,
                        cx := above.size, cy := E.cy - 1 } ∧
      rows'.map (fun r => r.chars)
        = (docText E).take (E.cy.toNat - 1) ++ (above.chars ++ row.chars) ::
            (docText E).drop (E.cy.toNat + 1) ∧
      (rows'.length : Int) = E.row.length - 1 ∧
      idxOk rows' ∧ (rowsOk E.row → rowsOk rows') := by
  obtain ⟨hcy0, hcylt, hget⟩ := rowAt_some E E.cy row hrow
  obtain ⟨hay0, haylt, hgeta⟩ := rowAt_some E (E.cy - 1) above habove
  have hnum := hwf.1
  have hT : (docText E).length = E.row.length := by simp [docText]
  have hcym : (E.cy - 1).toNat = E.cy.toNat - 1 := by omega
  unfold editorDelChar
  rw [if_neg (by omega), if_neg (by omega), if_neg (by omega), if_neg (by omega)]
  simp only [habove, hget]
  obtain ⟨rows1, e1, t1, i1, ok1⟩ := editorRowAppendString_spec fuel
    { E with cx := above.size } (E.cy - 1).toNat above row.chars hgeta hwf hfuel
  rw [e1]
  simp only []
  have hwf1 : wellFormed { E with cx := above.size, row := rows1, dirty := E.dirty + 1 } :=
    wellFormed_step { E with cx := above.size } rows1 (E.dirty + 1) hwf i1
  have hl1 : rows1.length = E.row.length := by
    have b := congrArg List.length i1
    simp only [List.length_map] at b
    omega
  obtain ⟨rows2, e2, t2, l2, i2, ok2⟩ := editorDelRow_spec
    { E with cx := above.size, row := rows1, dirty := E.dirty + 1 } E.cy hwf1 hcy0
    (by simp only []; omega)
  refine ⟨rows2, ?_, ?_, ?_, i2, fun hok => ok2 (ok1 hok)⟩
  · rw [e2]
  · rw [t2]
    simp only []
    rw [t1, hcym]
    have h1 : E.cy.toNat = E.cy.toNat - 1 + 1 := by omega
    have := take_drop_set (docText E) (E.cy.toNat - 1) (above.chars ++ row.chars) (by omega)
    rw [← h1] at this
    have h2 : E.cy.toNat - 1 + 2 = E.cy.toNat + 1 := by omega
    rw [h2] at this
    exact this
  · rw [l2]; simp only [hl1]

/-! ## Highlighter: the scan of a row -/

theorem editorUpdateSyntax_oob (fuel : Nat) (E : editorConfig) (p : Nat)
    (h : E.row[p]? = none) : editorUpdateSyntax fuel E p = none := by
  cases fuel with
  | zero => rfl
  | succ fuel => unfold editorUpdateSyntax; simp only [h]

/-- The recursion of `editorUpdateSyntax` leaves the rows before `p` alone. -/
theorem editorUpdateSyntax_before : ∀ (fuel : Nat) (E : editorConfig) (p : Nat),
    idxOk E.row → p < E.row.length →
    ∀ E', editorUpdateSyntax fuel E p = some E' → ∀ i, i < p → E'.row[i]? = E.row[i]? := by
  intro fuel
  induction fuel with
  | zero => intro E p _ _ E' h; simp [editorUpdateSyntax] at h
  | succ fuel ih =>
    intro E p hidx hp E' h i hi
    have hrow : E.row[p]? = some E.row[p] := List.getElem?_eq_getElem hp
    have hpi : (E.row[p]).idx = p := idxOk_get _ hidx p _ hrow
    unfold editorUpdateSyntax at h
    simp only [hrow] at h
    cases hsyn : E.syntax_ with
    | none =>
      simp only [hsyn] at h
      cases h
      simp only [List.getElem?_set, if_neg (show p ≠ i by omega)]
    | some syn =>
      simp only [hsyn] at h
      split at h
      · cases h
      · split at h
        · cases h
        · rename_i ic hic st hst
          have hcore : rowCore { E.row[p] with hl := st.hl, hl_open_comment := st.in_comment }
              = rowCore (E.row[p]) := rfl
          have hnn : ¬ ((E.row[p]).idx + 1 < 0) := by omega
          simp only [if_neg hnn] at h
          split_ifs at h with hch
          · have hnext : ((E.row[p]).idx + 1).toNat = p + 1 := by omega
            rw [hnext] at h
            by_cases hlen : p + 1 < E.row.length
            · have := ih _ (p + 1)
                (idxOk_of_core _ _ (set_map_core _ _ _ _ hrow hcore) hidx)
                (by simp only [List.length_set]; omega) E' h i (by omega)
              rw [this]
              simp only [List.getElem?_set, if_neg (show p ≠ i by omega)]
            · rw [editorUpdateSyntax_oob _ _ _
                (List.getElem?_eq_none (by simp only [List.length_set]; omega))] at h
              cases h
          · cases h
            simp only [List.getElem?_set, if_neg (show p ≠ i by omega)]

/-- The outcome of `editorUpdateSyntax` on row `p` itself, with a syntax
active: the row gets the highlight array and the flag of its scan, seeded with
the flag of the row before. -/
theorem editorUpdateSyntax_row (fuel : Nat) (E : editorConfig) (p : Nat) (row : erow)
    (syn : editorSyntax) (hidx : idxOk E.row) (hrow : E.row[p]? = some row)
    (hsyn : E.syntax_ = some syn) (E' : editorConfig)
    (h : editorUpdateSyntax fuel E p = some E') :
    ∃ st, scanRow syn row (seedComment E p) = some st ∧
      E'.row[p]? = some { row with hl := st.hl, hl_open_comment := st.in_comment } := by
  have hp : p < E.row.length := by
    by_contra hc
    rw [List.getElem?_eq_none (by omega)] at hrow
    cases hrow
  have hpi : row.idx = p := idxOk_get _ hidx p _ hrow
  cases fuel with
  | zero => simp [editorUpdateSyntax] at h
  | succ fuel =>
    unfold editorUpdateSyntax at h
    simp only [hrow, hsyn] at h
    have hseed : (if row.idx > 0 then
        (rowAt E (row.idx - 1)).map (fun r => r.hl_open_comment) else some false)
        = some (seedComment E p) := by
      cases p with
      | zero => rw [if_neg (by omega)]; rfl
      | succ q =>
        rw [if_pos (by omega)]
        have hq : (row.idx - 1).toNat = q := by omega
        unfold rowAt seedComment
        have hg : E.row[q]? = some E.row[q] := List.getElem?_eq_getElem (by omega)
        rw [if_neg (by omega), hq]
        simp only [hg, Option.map]
    rw [hseed] at h
    simp only [] at h
    obtain ⟨st, hst, _⟩ := scanRow_some syn row (seedComment E p)
    rw [hst] at h
    simp only [] at h
    refine ⟨st, hst, ?_⟩
    have hset : (E.row.set p { row with hl := st.hl, hl_open_comment := st.in_comment })[p]?
        = some { row with hl := st.hl, hl_open_comment := st.in_comment } := by
      rw [List.getElem?_set, if_pos rfl, if_pos hp]
    have hcore : rowCore { row with hl := st.hl, hl_open_comment := st.in_comment }
        = rowCore row := rfl
    have hnn : ¬ (row.idx + 1 < 0) := by omega
    simp only [if_neg hnn] at h
    split_ifs at h with hch
    · have hnext : (row.idx + 1).toNat = p + 1 := by omega
      rw [hnext] at h
      by_cases hlen : p + 1 < E.row.length
      · have := editorUpdateSyntax_before fuel _ (p + 1)
          (idxOk_of_core _ _ (set_map_core _ _ _ _ hrow hcore) hidx)
          (by simp only [List.length_set]; omega) E' h p (by omega)
        rw [this]
        exact hset
      · rw [editorUpdateSyntax_oob _ _ _
          (List.getElem?_eq_none (by simp only [List.length_set]; omega))] at h
        cases h
    · cases h
      exact hset

theorem seedComment_set (E : editorConfig) (p : Nat) (r : erow) :
    seedComment { E with row := E.row.set p r } p = seedComment E p := by
  cases p with
  | zero => rfl
  | succ q =>
    unfold seedComment
    simp only [List.getElem?_set, if_neg (show q + 1 ≠ q by omega)]

/-- Re-deriving row `p` with a syntax active: the row gets its render buffer,
and the highlight array and flag of the scan of that buffer. -/
theorem editorUpdateRow_scan (fuel : Nat) (E : editorConfig) (p : Nat) (row : erow)
    (syn : editorSyntax) (hwf : wellFormed E) (hrow : E.row[p]? = some row)
    (hsyn : E.syntax_ = some syn) (hfuel : E.numrows < fuel) :
    ∃ E' st, editorUpdateRow fuel E p = some E' ∧
      scanRow syn { row with render := renderLoop row.chars [] } (seedComment E p) = some st ∧
      E'.row[p]? = some { row with render := renderLoop row.chars [], hl := st.hl,
                                   hl_open_comment := st.in_comment } := by
  obtain ⟨hnum, hidx⟩ := hwf
  have hp : p < E.row.length := by
    by_contra hc
    rw [List.getElem?_eq_none (by omega)] at hrow
    cases hrow
  obtain ⟨rows', e, _⟩ := editorUpdateRow_spec fuel E p row hrow hidx (by omega) (by omega)
    (by omega)
  have e' := e
  unfold editorUpdateRow at e'
  simp only [hrow] at e'
  have hcore : (E.row.set p { row with render := renderLoop row.chars [] }).map (fun r => r.idx)
      = E.row.map (fun r => r.idx) := by
    rw [List.map_set]
    exact set_getElem?_self _ _ _ (by simp [List.getElem?_map, hrow])
  have hidx1 : idxOk (E.row.set p { row with render := renderLoop row.chars [] }) := by
    unfold idxOk at *; rw [hcore]; exact hidx
  obtain ⟨st, hst, hr⟩ := editorUpdateSyntax_row fuel
    { E with row := E.row.set p { row with render := renderLoop row.chars [] } } p
    { row with render := renderLoop row.chars [] } syn hidx1
    (by rw [List.getElem?_set, if_pos rfl, if_pos hp]) hsyn _ e'
  rw [seedComment_set] at hst
  exact ⟨_, st, e, hst, hr⟩

theorem renderLoop_noTabs : ∀ (cs acc : List Char), '\t' ∉ cs → renderLoop cs acc = acc ++ cs := by
  intro cs
  induction cs with
  | nil => intro acc _; simp [renderLoop]
  | cons c cs ih =>
    intro acc h
    have hc : c ≠ '\t' := fun e => h (by simp [e])
    have hcs : '\t' ∉ cs := fun e => h (by simp [e])
    unfold renderLoop
    rw [if_neg hc, ih _ hcs]
    simp

/-- A scan loop whose rounds never leave by `break` and keep `P` ends in a
state with `P` and `i >= size`. -/
theorem scanLoop_invariant (syn : editorSyntax) (size : Nat) (render : List Char)
    (P : scanState → Prop)
    (hstep : ∀ st, P st → st.i < size →
      (scanStep syn render st).2 = false ∧ P (scanStep syn render st).1) :
    ∀ (fuel : Nat) (st : scanState), P st →
      ∀ st', scanLoop syn size render fuel st = some st' → P st' ∧ size ≤ st'.i := by
  intro fuel
  induction fuel with
  | zero =>
    intro st hP st' h
    unfold scanLoop at h
    by_cases hi : st.i < size
    · rw [if_pos hi] at h; cases h
    · rw [if_neg hi] at h; cases h; exact ⟨hP, by omega⟩
  | succ fuel ih =>
    intro st hP st' h
    unfold scanLoop at h
    by_cases hi : st.i < size
    · rw [if_pos hi] at h
      obtain ⟨hb, hP'⟩ := hstep st hP hi
      rw [if_neg (by rw [hb]; decide)] at h
      exact ih _ hP' st' h
    · rw [if_neg hi] at h; cases h; exact ⟨hP, by omega⟩

theorem strncmpEq_head_ne (buf : List Char) (i : Nat) (s : List Char) (n : Nat)
    (h : buf.getD i '\x00' ≠ s.headD '\x00') : strncmpEq buf i s (n + 1) = false := by
  unfold strncmpEq
  rw [if_pos h]

/-- `strncmp` finds a token without NUL at `i` only if the token stands in the
buffer there. -/
theorem strncmpEq_starts : ∀ (s buf : List Char) (i : Nat), (∀ c ∈ s, c ≠ '\x00') →
    strncmpEq buf i s s.length = true → s <+: buf.drop i := by
  intro s
  induction s with
  | nil => intro buf i _ _; exact List.nil_prefix
  | cons c cs ih =>
    intro buf i hs h
    have hc : c ≠ '\x00' := hs c (by simp)
    simp only [List.length_cons] at h
    unfold strncmpEq at h
    by_cases h1 : buf.getD i '\x00' ≠ (c :: cs).headD '\x00'
    · rw [if_pos h1] at h; cases h
    · rw [if_neg h1] at h
      have h1' : buf.getD i '\x00' = c := by simpa using h1
      rw [if_neg (by rw [h1']; exact hc)] at h
      have hi : i < buf.length := by
        by_contra hlt
        rw [List.getD_eq_default _ _ (by omega)] at h1'
        exact hc h1'.symm
      rw [List.getD_eq_getElem _ _ hi] at h1'
      have := ih buf (i + 1) (fun c' hc' => hs c' (by simp [hc'])) h
      rw [List.drop_eq_getElem_cons hi, h1']
      exact (List.cons_prefix_cons).2 ⟨rfl, this⟩

theorem strncmpEq_occurs (s buf : List Char) (i : Nat) (hs : ∀ c ∈ s, c ≠ '\x00')
    (h : strncmpEq buf i s s.length = true) : s <:+: buf :=
  (strncmpEq_starts s buf i hs h).isInfix.trans (List.drop_suffix i buf).isInfix

/-- A round of the scan inside an open multiline comment, away from the end
token: the position is classified as multiline comment. -/
theorem scanStep_in_comment (syn : editorSyntax) (render : List Char) (st : scanState)
    (hmcs : syn.multiline_comment_start.length ≠ 0)
    (hmce : syn.multiline_comment_end.length ≠ 0)
    (hs : st.in_string = '\x00') (hc : st.in_comment = true)
    (hcmp : strncmpEq render st.i syn.multiline_comment_end syn.multiline_comment_end.length
      = false) :
    scanStep syn render st
      = ({ st with hl := st.hl.set st.i HL_MLCOMMENT, i := st.i + 1 }, false) := by
  unfold scanStep
  simp only []
  rw [if_neg (by rw [hc]; simp), if_pos ⟨hmcs, hmce, hs, hc⟩, if_neg (by rw [hcmp]; simp)]

theorem replicate_set {α : Type} (a b : α) (i m : Nat) :
    (List.replicate i a ++ List.replicate (m + 1) b).set i a
      = List.replicate (i + 1) a ++ List.replicate m b := by
  rw [List.set_append_right _ _ (by simp), List.replicate_succ' i]
  simp [List.replicate_succ]

/-- The scan of a row that starts inside a multiline comment and does not hold
the end token: every position is classified as multiline comment and the row
ends inside the comment. -/
theorem scanRow_in_comment (syn : editorSyntax) (row : erow) (st : scanState)
    (hmcs : syn.multiline_comment_start.length ≠ 0)
    (hmce : syn.multiline_comment_end.length ≠ 0)
    (hnul : ∀ c ∈ syn.multiline_comment_end, c ≠ '\x00')
    (hlen : row.render.length = row.chars.length)
    (hno : ¬ syn.multiline_comment_end <:+: row.render)
    (h : scanRow syn row true = some st) :
    st.hl = List.replicate row.render.length HL_MLCOMMENT ∧ st.in_comment = true := by
  unfold scanRow at h
  have key := scanLoop_invariant syn row.chars.length row.render
    (fun s => s.in_string = '\x00' ∧ s.in_comment = true ∧ s.i ≤ row.render.length ∧
      s.hl = List.replicate s.i HL_MLCOMMENT ++
        List.replicate (row.render.length - s.i) HL_NORMAL)
    (by
      intro s ⟨h1, h2, h3, h4⟩ hi
      have hcmp : strncmpEq row.render s.i syn.multiline_comment_end
          syn.multiline_comment_end.length = false := by
        by_contra hc
        exact hno (strncmpEq_occurs _ _ _ hnul (by simpa using hc))
      rw [scanStep_in_comment syn row.render s hmcs hmce h1 h2 hcmp]
      refine ⟨rfl, h1, h2, by simp only []; omega, ?_⟩
      simp only []
      obtain ⟨m, hm⟩ : ∃ m, row.render.length - s.i = m + 1 := ⟨row.render.length - s.i - 1, by omega⟩
      rw [h4, hm, replicate_set]
      congr 2
      omega)
    _ _ ⟨rfl, rfl, Nat.zero_le _, by simp⟩ st h
  obtain ⟨⟨_, h2, h3, h4⟩, h5⟩ := key
  have : st.i = row.render.length := by omega
  rw [this] at h4
  exact ⟨by simpa using h4, h2⟩

theorem HLDB_tokens (syn : editorSyntax) (h : syn ∈ HLDB) :
    syn.singleline_comment_start = ['/', '/'] ∧ syn.multiline_comment_start = ['/', '*'] ∧
    syn.multiline_comment_end = ['*', '/'] ∧ syn.flags = 3 ∧
    syn.keywords.all kwSecondIsLetter = true := by
  simp only [HLDB, List.mem_cons, List.mem_singleton, List.not_mem_nil, or_false] at h
  rcases h with rfl | rfl | rfl <;> decide

/-- A round of the scan under a built-in syntax, outside strings and comments,
on a character that is neither `/` nor a quote: only the number rule and the
keyword rule are left. -/
theorem scanStep_plain (syn : editorSyntax) (render : List Char) (st : scanState)
    (hsyn : syn ∈ HLDB) (hs : st.in_string = '\x00') (hc : st.in_comment = false)
    (h1 : render.getD st.i '\x00' ≠ '/') (h2 : render.getD st.i '\x00' ≠ '"')
    (h3 : render.getD st.i '\x00' ≠ '\'') :
    scanStep syn render st =
      if (isdigit (render.getD st.i '\x00') = true ∧
            (st.prev_sep = true ∨ prevHl st = HL_NUMBER))
          ∨ (render.getD st.i '\x00' = '.' ∧ prevHl st = HL_NUMBER) then
        ({ st with hl := st.hl.set st.i HL_NUMBER, i := st.i + 1, prev_sep := false }, false)
      else
        match keywordAt syn render st with
        | some (klen, kw2) =>
          ({ st with hl := memsetHl (if kw2 then HL_KEYWORD2 else HL_KEYWORD1) klen st.i st.hl,
                     i := st.i + klen, prev_sep := false }, false)
        | none => ({ st with prev_sep := is_separator (render.getD st.i '\x00'),
                             i := st.i + 1 }, false) := by
  obtain ⟨t1, t2, t3, t4, _⟩ := HLDB_tokens syn hsyn
  have hA : strncmpEq render st.i ['/', '/'] 2 = false :=
    strncmpEq_head_ne _ _ _ _ (by simpa using h1)
  have hB : strncmpEq render st.i ['/', '*'] 2 = false :=
    strncmpEq_head_ne _ _ _ _ (by simpa using h1)
  unfold scanStep
  simp only [t1, t2, t3, t4, hs, hc, hA, hB, List.length_cons, List.length_nil]
  generalize render.getD st.i '\x00' = c at h2 h3 ⊢
  simp [h2, h3]

theorem isdigit_ne (c : Char) (h : isdigit c = true) :
    c ≠ '/' ∧ c ≠ '"' ∧ c ≠ '\'' ∧ c ≠ '.' ∧ is_separator c = false ∧ isalpha c = false := by
  have hn : 48 ≤ c.toNat ∧ c.toNat ≤ 57 := by simpa [isdigit] using h
  have e : ",.()+-/*=~%<>[];".toList
      = [',', '.', '(', ')', '+', '-', '/', '*', '=', '~', '%', '<', '>', '[', ']', ';'] := rfl
  refine ⟨?_, ?_, ?_, ?_, ?_, ?_⟩
  · rintro rfl; revert h; decide
  · rintro rfl; revert h; decide
  · rintro rfl; revert h; decide
  · rintro rfl; revert h; decide
  · unfold is_separator isspace
    rw [e]
    simp only [Bool.or_eq_false_iff, Bool.and_eq_false_iff, decide_eq_false_iff_not,
      List.mem_cons, List.mem_singleton, List.not_mem_nil, or_false, not_or]
    refine ⟨⟨⟨by omega, by omega⟩, ?_⟩, ?_⟩
    · rintro rfl; revert h; decide
    · refine ⟨?_, ?_, ?_, ?_, ?_, ?_, ?_, ?_, ?_, ?_, ?_, ?_, ?_, ?_, ?_, ?_⟩ <;>
        (rintro rfl; revert h; decide)
  · unfold isalpha
    simp only [Bool.or_eq_false_iff, Bool.and_eq_false_iff, decide_eq_false_iff_not]
    omega

theorem isalpha_ne (c : Char) (h : isalpha c = true) :
    c ≠ '/' ∧ c ≠ '"' ∧ c ≠ '\'' ∧ c ≠ '.' ∧ c ≠ '\x00' ∧ is_separator c = false ∧
      isdigit c = false := by
  have hn : (65 ≤ c.toNat ∧ c.toNat ≤ 90) ∨ (97 ≤ c.toNat ∧ c.toNat ≤ 122) := by
    simpa [isalpha] using h
  have e : ",.()+-/*=~%<>[];".toList
      = [',', '.', '(', ')', '+', '-', '/', '*', '=', '~', '%', '<', '>', '[', ']', ';'] := rfl
  refine ⟨?_, ?_, ?_, ?_, ?_, ?_, ?_⟩
  · rintro rfl; revert h; decide
  · rintro rfl; revert h; decide
  · rintro rfl; revert h; decide
  · rintro rfl; revert h; decide
  · rintro rfl; revert h; decide
  · unfold is_separator isspace
    rw [e]
    simp only [Bool.or_eq_false_iff, Bool.and_eq_false_iff, decide_eq_false_iff_not,
      List.mem_cons, List.mem_singleton, List.not_mem_nil, or_false, not_or]
    refine ⟨⟨⟨by omega, by omega⟩, ?_⟩, ?_⟩
    · rintro rfl; revert h; decide
    · refine ⟨?_, ?_, ?_, ?_, ?_, ?_, ?_, ?_, ?_, ?_, ?_, ?_, ?_, ?_, ?_, ?_⟩ <;>
        (rintro rfl; revert h; decide)
  · unfold isdigit
    simp only [Bool.and_eq_false_iff, decide_eq_false_iff_not]
    omega

theorem keywordLoop_none (render : List Char) : ∀ (kws : List (List Char)),
    kws.all kwSecondIsLetter = true → render.getD 0 '\x00' ≠ '\x00' →
    (isdigit (render.getD 1 '\x00') = true ∨ render.getD 1 '\x00' = '\x00') →
    keywordLoop render 0 kws = none := by
  intro kws
  induction kws with
  | nil => intro _ _ _; rfl
  | cons kw rest ih =>
    intro hall h0 h1
    simp only [List.all_cons, Bool.and_eq_true] at hall
    obtain ⟨hkw, hrest⟩ := hall
    simp only [kwSecondIsLetter, Bool.and_eq_true, decide_eq_true_eq, Bool.not_eq_true'] at hkw
    obtain ⟨⟨hlen, hnd⟩, hnn⟩ := hkw
    unfold keywordLoop
    simp only []
    obtain ⟨m, hm⟩ : ∃ m, (if decide (kw.getLast? = some '|') = true then kw.length - 1
        else kw.length) = m + 2 := by
      refine ⟨(if kw.getLast? = some '|' then kw.length - 1 else kw.length) - 2, ?_⟩
      simp only [decide_eq_true_eq]
      omega
    have hcmp : strncmpEq render 0 kw (m + 2) = false := by
      unfold strncmpEq
      by_cases ha : render.getD 0 '\x00' ≠ kw.headD '\x00'
      · rw [if_pos ha]
      · rw [if_neg ha, if_neg h0]
        apply strncmpEq_head_ne
        have : kw.tail.headD '\x00' = kw.getD 1 '\x00' := by
          cases kw with
          | nil => rfl
          | cons a as => cases as <;> rfl
        rw [this]
        rcases h1 with h1 | h1
        · intro e; rw [e] at h1; rw [h1] at hnd; cases hnd
        · intro e; rw [e] at h1; exact hnn h1
    rw [hm, hcmp]
    simp only [Bool.false_and, Bool.false_eq_true, if_false]
    exact ih hrest h0 h1

theorem replicate_getD_self {α : Type} (a : α) (n k : Nat) :
    (List.replicate n a).getD k a = a := by
  by_cases h : k < n
  · rw [List.getD_eq_getElem _ _ (by simpa using h)]; simp
  · rw [List.getD_eq_default _ _ (by simp; omega)]

theorem replicate_getD_prev (i m : Nat) (hi : 0 < i) :
    (List.replicate i HL_NUMBER ++ List.replicate m HL_NORMAL).getD (i - 1) HL_NORMAL
      = HL_NUMBER := by
  rw [List.getD_eq_getElem _ _ (by simp; omega)]
  rw [List.getElem_append_left (by simp; omega)]
  simp

/-- The scan of a row of digits and points that starts with a digit, outside a
comment, under a built-in syntax: every position is classified as number. -/
theorem scanRow_number (syn : editorSyntax) (row : erow) (st : scanState) (hsyn : syn ∈ HLDB)
    (hlen : row.render.length = row.chars.length)
    (hall : ∀ c ∈ row.render, isdigit c = true ∨ c = '.')
    (hfirst : ∀ c, row.render.head? = some c → isdigit c = true)
    (h : scanRow syn row false = some st) :
    st.hl = List.replicate row.render.length HL_NUMBER := by
  unfold scanRow at h
  have key := scanLoop_invariant syn row.chars.length row.render
    (fun s => s.in_string = '\x00' ∧ s.in_comment = false ∧ s.i ≤ row.render.length ∧
      s.hl = List.replicate s.i HL_NUMBER ++
        List.replicate (row.render.length - s.i) HL_NORMAL ∧
      (s.i = 0 → s.prev_sep = true))
    (by
      intro s ⟨h1, h2, h3, h4, h5⟩ hi
      have hi' : s.i < row.render.length := by omega
      have hget : row.render.getD s.i '\x00' = row.render[s.i] := List.getD_eq_getElem _ _ hi'
      have hmem : row.render[s.i] ∈ row.render := List.getElem_mem _
      have hc := hall _ hmem
      have hne : row.render[s.i] ≠ '/' ∧ row.render[s.i] ≠ '"' ∧ row.render[s.i] ≠ '\'' := by
        rcases hc with hc | hc
        · have := isdigit_ne _ hc; exact ⟨this.1, this.2.1, this.2.2.1⟩
        · rw [hc]; decide
      have hcond : (isdigit (row.render.getD s.i '\x00') = true ∧
            (s.prev_sep = true ∨ prevHl s = HL_NUMBER))
          ∨ (row.render.getD s.i '\x00' = '.' ∧ prevHl s = HL_NUMBER) := by
        rw [hget]
        by_cases hz : s.i = 0
        · left
          refine ⟨hfirst _ ?_, Or.inl (h5 hz)⟩
          rw [List.head?_eq_getElem?, List.getElem?_eq_getElem (by omega)]
          congr 2
          exact hz.symm
        · have hp : prevHl s = HL_NUMBER := by
            unfold prevHl
            rw [if_pos (by omega), h4]
            exact replicate_getD_prev _ _ (by omega)
          rcases hc with hc | hc
          · left; exact ⟨hc, Or.inr hp⟩
          · right; exact ⟨hc, hp⟩
      rw [scanStep_plain syn row.render s hsyn h1 h2 (by rw [hget]; exact hne.1)
        (by rw [hget]; exact hne.2.1) (by rw [hget]; exact hne.2.2), if_pos hcond]
      refine ⟨rfl, h1, h2, by simp only []; omega, ?_, fun hh => by simp only [] at hh; omega⟩
      simp only []
      obtain ⟨m, hm⟩ : ∃ m, row.render.length - s.i = m + 1 :=
        ⟨row.render.length - s.i - 1, by omega⟩
      rw [h4, hm, replicate_set]
      congr 2
      omega)
    _ _ ⟨rfl, rfl, Nat.zero_le _, by simp, fun _ => rfl⟩ st h
  obtain ⟨⟨_, _, h3, h4, _⟩, h5⟩ := key
  have : st.i = row.render.length := by omega
  rw [this] at h4
  simpa using h4

/-- The scan of a row made of one letter and digits after it, outside a
comment, under a built-in syntax: the highlight array stays all normal. -/
theorem scanRow_letter_digits (syn : editorSyntax) (row : erow) (st : scanState)
    (hsyn : syn ∈ HLDB) (hlen : row.render.length = row.chars.length)
    (a : Char) (ds : List Char) (hr : row.render = a :: ds)
    (ha : isalpha a = true) (hds : ∀ c ∈ ds, isdigit c = true)
    (h : scanRow syn row false = some st) :
    st.hl = List.replicate row.render.length HL_NORMAL := by
  unfold scanRow at h
  have hkw := (HLDB_tokens syn hsyn).2.2.2.2
  have key := scanLoop_invariant syn row.chars.length row.render
    (fun s => s.in_string = '\x00' ∧ s.in_comment = false ∧
      s.hl = List.replicate row.render.length HL_NORMAL ∧
      (s.i = 0 → s.prev_sep = true) ∧ (0 < s.i → s.prev_sep = false))
    (by
      intro s ⟨h1, h2, h4, h5, h6⟩ hi
      have hprev : prevHl s ≠ HL_NUMBER := by
        unfold prevHl
        split_ifs
        · rw [h4, replicate_getD_self]; decide
        · decide
      by_cases hz : s.i = 0
      · have hget : row.render.getD s.i '\x00' = a := by rw [hz, hr]; rfl
        have hn := isalpha_ne a ha
        have hcond : ¬ ((isdigit (row.render.getD s.i '\x00') = true ∧
              (s.prev_sep = true ∨ prevHl s = HL_NUMBER))
            ∨ (row.render.getD s.i '\x00' = '.' ∧ prevHl s = HL_NUMBER)) := by
          rw [hget]
          rintro (⟨hd, _⟩ | ⟨hd, _⟩)
          · rw [hn.2.2.2.2.2.2] at hd; cases hd
          · exact hn.2.2.2.1 hd
        have hk : keywordAt syn row.render s = none := by
          unfold keywordAt
          rw [if_pos (h5 hz), hz]
          apply keywordLoop_none _ _ hkw
          · rw [hr]; exact hn.2.2.2.2.1
          · rw [hr]
            cases ds with
            | nil => right; rfl
            | cons d ds' => left; exact hds d (by simp)
        rw [scanStep_plain syn row.render s hsyn h1 h2 (by rw [hget]; exact hn.1)
          (by rw [hget]; exact hn.2.1) (by rw [hget]; exact hn.2.2.1), if_neg hcond, hk]
        refine ⟨rfl, h1, h2, h4, fun hh => by simp only [] at hh; omega, fun _ => ?_⟩
        simp only [hget]
        exact hn.2.2.2.2.2.1
      · have hcd : isdigit (row.render.getD s.i '\x00') = true := by
          obtain ⟨j, hj⟩ : ∃ j, s.i = j + 1 := ⟨s.i - 1, by omega⟩
          rw [hr, hj]
          by_cases hjl : j < ds.length
          · rw [List.getD_eq_getElem _ _ (by simpa using hjl)]
            simp only [List.getElem_cons_succ]
            exact hds _ (List.getElem_mem _)
          · have : row.render.length = ds.length + 1 := by rw [hr]; rfl
            omega
        have hn := isdigit_ne _ hcd
        have hcond : ¬ ((isdigit (row.render.getD s.i '\x00') = true ∧
              (s.prev_sep = true ∨ prevHl s = HL_NUMBER))
            ∨ (row.render.getD s.i '\x00' = '.' ∧ prevHl s = HL_NUMBER)) := by
          rintro (⟨_, hp | hp⟩ | ⟨hd, _⟩)
          · rw [h6 (by omega)] at hp; cases hp
          · exact hprev hp
          · exact hn.2.2.2.1 hd
        have hk : keywordAt syn row.render s = none := by
          unfold keywordAt
          rw [if_neg (by rw [h6 (by omega)]; decide)]
        rw [scanStep_plain syn row.render s hsyn h1 h2 hn.1 hn.2.1 hn.2.2.1, if_neg hcond, hk]
        exact ⟨rfl, h1, h2, h4, fun hh => by simp only [] at hh; omega, fun _ => hn.2.2.2.2.1⟩)
    _ _ ⟨rfl, rfl, rfl, fun _ => rfl, fun hh => by simp only [] at hh; omega⟩ st h
  exact key.1.2.2.1

/-! ## /-! ## Search -/ -/

theorem memsetHl_getElem? (v : editorHighlight) :
    ∀ (n i : Nat) (hl : List editorHighlight) (j : Nat),
      (memsetHl v n i hl)[j]? =
        if i ≤ j ∧ j < i + n ∧ j < hl.length then some v else hl[j]? := by
  intro n
  induction n with
  | zero =>
    intro i hl j
    simp only [memsetHl]
    rw [if_neg (by omega)]
  | succ n ih =>
    intro i hl j
    simp only [memsetHl]
    rw [ih, List.length_set, List.getElem?_set]
    by_cases hij : i = j
    · subst hij
      by_cases hlt : i < hl.length
      · rw [if_neg (by omega), if_pos rfl, if_pos hlt, if_pos (by omega)]
      · rw [if_neg (by omega), if_pos rfl, if_neg hlt, if_neg (by omega)]
        exact (List.getElem?_eq_none (by omega)).symm
    · rw [if_neg hij]
      by_cases h : i + 1 ≤ j ∧ j < i + 1 + n ∧ j < hl.length
      · rw [if_pos h, if_pos (by omega)]
      · rw [if_neg h, if_neg (by omega)]

theorem strstrFrom_some (needle : List Char) :
    ∀ (h : List Char) (off0 r : Nat), strstrFrom needle h off0 = some r →
      ∃ i, r = off0 + i ∧ i + needle.length ≤ h.length ∧ needle <+: h.drop i ∧
        ∀ j, j < i → ¬ needle <+: h.drop j := by
  intro h
  induction h with
  | nil =>
    intro off0 r hr
    simp only [strstrFrom] at hr
    split_ifs at hr with hp
    have hp' := List.isPrefixOf_iff_prefix.1 hp
    have hnil : needle = [] := List.prefix_nil.1 hp'
    refine ⟨0, by simpa using (Option.some.inj hr).symm, by simp [hnil], by simpa using hp', ?_⟩
    intro j hj
    omega
  | cons c cs ih =>
    intro off0 r hr
    simp only [strstrFrom] at hr
    split_ifs at hr with hp
    · have hp' := List.isPrefixOf_iff_prefix.1 hp
      refine ⟨0, by simpa using (Option.some.inj hr).symm, ?_, by simpa using hp', ?_⟩
      · have := hp'.length_le
        omega
      · intro j hj
        omega
    · obtain ⟨i, h1, h2, h3, h4⟩ := ih (off0 + 1) r hr
      refine ⟨i + 1, by omega, by simp only [List.length_cons]; omega, by simpa using h3, ?_⟩
      intro j hj
      rcases Nat.eq_zero_or_pos j with h0 | hpos
      · subst h0
        intro hpre
        exact hp (List.isPrefixOf_iff_prefix.2 (by simpa using hpre))
      · obtain ⟨j', rfl⟩ : ∃ j', j = j' + 1 := ⟨j - 1, by omega⟩
        simpa using h4 j' (by omega)

theorem strstrFrom_none (needle : List Char) :
    ∀ (h : List Char) (off0 : Nat), ¬ needle <:+: h → strstrFrom needle h off0 = none := by
  intro h
  induction h with
  | nil =>
    intro off0 hn
    simp only [strstrFrom]
    rw [if_neg]
    intro hp
    exact hn (List.isPrefixOf_iff_prefix.1 hp).isInfix
  | cons c cs ih =>
    intro off0 hn
    simp only [strstrFrom]
    rw [if_neg]
    · apply ih
      intro hi
      exact hn (hi.trans (List.suffix_cons c cs).isInfix)
    · intro hp
      exact hn (List.isPrefixOf_iff_prefix.1 hp).isInfix

/-- The first occurrence found by `strstr`. -/
theorem strstr_some (h q : List Char) (off : Nat) (hs : strstr h q = some off) :
    off + (cstr q).length ≤ h.length ∧ cstr q <+: (cstr h).drop off ∧
      ∀ j, j < off → ¬ cstr q <+: (cstr h).drop j := by
  obtain ⟨i, h1, h2, h3, h4⟩ := strstrFrom_some (cstr q) (cstr h) 0 off hs
  have hi : off = i := by omega
  subst hi
  have hle : (cstr h).length ≤ h.length := (List.takeWhile_prefix _).length_le
  exact ⟨by omega, h3, h4⟩

/-- A query that occurs nowhere in the buffer is not found. -/
theorem strstr_none (h q : List Char) (hq : '\x00' ∉ q) (hn : ¬ q <:+: h) :
    strstr h q = none := by
  have hcq : cstr q = q := by
    unfold cstr
    rw [List.takeWhile_eq_self_iff]
    intro c hc
    have : c ≠ '\x00' := fun h0 => hq (h0 ▸ hc)
    simpa using this
  unfold strstr
  rw [hcq]
  apply strstrFrom_none
  intro hi
  exact hn (hi.trans (List.takeWhile_prefix _).isInfix)

theorem findKey_saved (fs : findState) (key : Int) :
    findKey { fs with saved_hl := none } key = { findKey fs key with saved_hl := none } := by
  unfold findKey
  dsimp only
  split_ifs <;> rfl

theorem findKey_direction (fs : findState) (key : Int) :
    ((findKey fs key).direction = 1 ∨ (findKey fs key).direction = -1) ∧
      ((findKey fs key).last_match = -1 → (findKey fs key).direction = 1) ∧
      ((findKey fs key).last_match = -1 ∨ (findKey fs key).last_match = fs.last_match) := by
  unfold findKey
  dsimp only
  split_ifs <;> simp_all

/-- The step of the row index is the step modulo the number of rows. -/
theorem findAdvance_emod (n cur d : Int) (hn : 1 ≤ n) (hd : d = 1 ∨ d = -1)
    (hcur : (cur = -1 ∧ d = 1) ∨ (0 ≤ cur ∧ cur < n)) :
    findAdvance n cur d = (cur + d) % n ∧ 0 ≤ findAdvance n cur d ∧ findAdvance n cur d < n := by
  have hrange : -1 ≤ cur + d ∧ cur + d ≤ n := by
    rcases hcur with ⟨h1, h2⟩ | ⟨h1, h2⟩ <;> rcases hd with hd | hd <;> omega
  unfold findAdvance
  split_ifs with h1 h2
  · rw [h1]
    refine ⟨?_, by omega, by omega⟩
    rw [← Int.add_emod_self]
    exact (Int.emod_eq_of_lt (by omega) (by omega)).trans (by ring) |>.symm
  · rw [h2]
    exact ⟨by simp, by omega, by omega⟩
  · have h3 : 0 ≤ cur + d := by omega
    have h4 : cur + d < n := by omega
    exact ⟨(Int.emod_eq_of_lt h3 h4).symm, h3, h4⟩

/-- A search round over rows none of which holds the query changes nothing. -/
theorem findLoop_nomatch (q : List Char) (E : editorConfig) (fs : findState)
    (hnum : E.numrows = (E.row.length : Int))
    (hd : fs.direction = 1 ∨ fs.direction = -1)
    (hno : ∀ r ∈ E.row, strstr r.render q = none) :
    ∀ (k : Nat) (cur : Int), k ≤ E.row.length →
      ((cur = -1 ∧ fs.direction = 1) ∨ (0 ≤ cur ∧ cur < E.numrows)) →
      findLoop q k cur E fs = some (E, fs) := by
  intro k
  induction k with
  | zero => intro cur _ _; rfl
  | succ k ih =>
    intro cur hk hcur
    have hn : (1 : Int) ≤ E.numrows := by omega
    obtain ⟨_, h0, h1⟩ := findAdvance_emod E.numrows cur fs.direction hn hd hcur
    have hlt : (findAdvance E.numrows cur fs.direction).toNat < E.row.length := by omega
    have hr : rowAt E (findAdvance E.numrows cur fs.direction)
        = some (E.row[(findAdvance E.numrows cur fs.direction).toNat]) := by
      unfold rowAt
      rw [if_neg (by omega), List.getElem?_eq_getElem hlt]
    unfold findLoop
    rw [hr]
    dsimp only
    rw [hno _ (List.getElem_mem _)]
    exact ih _ (by omega) (Or.inr ⟨h0, h1⟩)

/-- The search loop examines the rows `cur + d`, `cur + 2d`, ... modulo the
number of rows and stops at the first one that holds the query. -/
theorem findLoop_match (q : List Char) (E : editorConfig) (fs : findState) (n : Nat)
    (hnum : E.numrows = (n : Int)) (hlen : E.row.length = n)
    (hd : fs.direction = 1 ∨ fs.direction = -1) (row : erow) (off : Nat)
    (hoff : strstr row.render q = some off) (hhl : row.render.length ≤ row.hl.length) :
    ∀ (fuel k : Nat) (cur : Int), 1 ≤ k → k ≤ fuel →
      ((cur = -1 ∧ fs.direction = 1) ∨ (0 ≤ cur ∧ cur < n)) →
      (∀ (j : Nat) (r : erow), 1 ≤ j → j < k →
        rowAt E ((cur + j * fs.direction) % n) = some r → strstr r.render q = none) →
      rowAt E ((cur + k * fs.direction) % n) = some row →
      findLoop q fuel cur E fs =
        some ({ E with
                cy := (cur + k * fs.direction) % n,
                cx := editorRowRxToCx row (off : Int),
                rowoff := E.numrows,
                row := E.row.set ((cur + k * fs.direction) % n).toNat { row with hl := memsetHl HL_MATCH (cstr q).length off row.hl } },
              { fs with
                last_match := (cur + k * fs.direction) % n,
                saved_hl_line := (cur + k * fs.direction) % n,
                saved_hl := some (row.hl.take row.render.length) }) := by
  intro fuel
  induction fuel with
  | zero => intro k cur h1 h2; omega
  | succ fuel ih =>
    intro k cur hk1 hk2 hcur hbefore hrow
    have hpos : 0 < E.row.length := by
      unfold rowAt at hrow
      split_ifs at hrow
      have := (List.getElem?_eq_some_iff.1 hrow).1
      omega
    have hn : (1 : Int) ≤ E.numrows := by omega
    have hcur' : (cur = -1 ∧ fs.direction = 1) ∨ (0 ≤ cur ∧ cur < E.numrows) := by
      rw [hnum]; exact hcur
    obtain ⟨he0, h0, h10⟩ := findAdvance_emod E.numrows cur fs.direction hn hd hcur'
    have he : findAdvance E.numrows cur fs.direction = (cur + fs.direction) % (n : Int) := by
      rw [← hnum]; exact he0
    have h1 : findAdvance E.numrows cur fs.direction < (n : Int) := by omega
    have hlt : (findAdvance E.numrows cur fs.direction).toNat < E.row.length := by omega
    have hr : rowAt E (findAdvance E.numrows cur fs.direction)
        = some (E.row[(findAdvance E.numrows cur fs.direction).toNat]) := by
      unfold rowAt
      rw [if_neg (by omega), List.getElem?_eq_getElem hlt]
    rcases Nat.eq_or_lt_of_le hk1 with hk | hk
    · subst hk
      have hc : (cur + ((1 : Nat) : Int) * fs.direction) % (n : Int)
          = findAdvance E.numrows cur fs.direction := by
        rw [he]; congr 1; push_cast; ring
      rw [hc] at hrow ⊢
      unfold findLoop
      rw [hrow]
      dsimp only
      rw [hoff]
      dsimp only
      rw [if_neg (by omega)]
    · have hnone := hbefore 1 _ (le_refl _) hk (by
        have hc : (cur + ((1 : Nat) : Int) * fs.direction) % (n : Int)
            = findAdvance E.numrows cur fs.direction := by
          rw [he]; congr 1; push_cast; ring
        rw [hc]; exact hr)
      have hshift : ∀ j : Nat, (findAdvance E.numrows cur fs.direction + (j : Int) * fs.direction)
          % (n : Int) = (cur + ((j + 1 : Nat) : Int) * fs.direction) % (n : Int) := by
        intro j
        rw [he, Int.emod_add_emod]
        congr 1; push_cast; ring
      have := ih (k - 1) (findAdvance E.numrows cur fs.direction) (by omega) (by omega)
        (Or.inr ⟨h0, h1⟩)
        (by
          intro j r hj1 hj2 hjr
          rw [hshift] at hjr
          exact hbefore (j + 1) r (by omega) (by omega) hjr)
        (by
          rw [hshift]
          have : k - 1 + 1 = k := by omega
          rw [this]; exact hrow)
      rw [hshift] at this
      have hk' : k - 1 + 1 = k := by omega
      rw [hk'] at this
      unfold findLoop
      rw [hr]
      dsimp only
      rw [hnone]
      exact this

/-! ## /-! ## Key dispatch -/ -/

/-- With the cursor row inside the array, `editorScroll` returns and changes
`rx`, `rowoff` and `coloff` only. -/
theorem editorScroll_spec (E : editorConfig) (hnum : E.numrows ≤ (E.row.length : Int))
    (hcy : 0 ≤ E.cy) :
    ∃ rx ro co, editorScroll E = some { E with rx := rx, rowoff := ro, coloff := co } := by
  unfold editorScroll
  by_cases h : E.cy < E.numrows
  · have hlt : E.cy.toNat < E.row.length := by omega
    have hr : rowAt E E.cy = some (E.row[E.cy.toNat]) := by
      unfold rowAt
      rw [if_neg (by omega), List.getElem?_eq_getElem hlt]
    rw [if_pos h, hr]
    exact ⟨_, _, _, rfl⟩
  · rw [if_neg h]
    exact ⟨_, _, _, rfl⟩

theorem toByteChar_keyOf (c : Char) (h : c.toNat < 256) : toByteChar (keyOf c) = c := by
  unfold toByteChar keyOf
  have h1 : ((c.toNat : Int) % 256).toNat = c.toNat := by omega
  rw [h1]
  exact Char.ofNat_toNat c

/-- `editorInsertChar` with the cursor on a row. -/
theorem editorInsertChar_row (fuel : Nat) (E : editorConfig) (row : erow) (c : Int)
    (hwf : wellFormed E) (hrow : rowAt E E.cy = some row) (hfuel : E.numrows < fuel) :
    ∃ rows', editorInsertChar fuel E c
        = some { E with row := rows', dirty := E.dirty + 1, cx := E.cx + 1 } ∧
      rows'.map (fun r => r.chars) = (docText E).set E.cy.toNat
        (row.chars.take (if E.cx < 0 ∨ E.cx > row.size then row.size else E.cx).toNat ++
          toByteChar c ::
            row.chars.drop (if E.cx < 0 ∨ E.cx > row.size then row.size else E.cx).toNat) ∧
      rows'.map (fun r => r.idx) = E.row.map (fun r => r.idx) := by
  obtain ⟨h0, hlt, hget⟩ := rowAt_some E E.cy row hrow
  obtain ⟨rows', h1, h2, h3, _⟩ :=
    editorRowInsertChar_spec fuel E E.cy.toNat row E.cx (toByteChar c) hget hwf hfuel
  refine ⟨rows', ?_, h2, h3⟩
  unfold editorInsertChar
  have hne : ¬ E.cy = E.numrows := by
    have := hwf.1
    omega
  rw [if_neg hne]
  dsimp only
  rw [if_neg (by omega), h1]

/-- `editorInsertChar` with the cursor on the line after the last row. -/
theorem editorInsertChar_end (fuel : Nat) (E : editorConfig) (c : Int)
    (hwf : wellFormed E) (hcy : E.cy = E.numrows) (hfuel : E.numrows + 1 < fuel) :
    ∃ rows', editorInsertChar fuel E c
        = some { E with row := rows', numrows := E.numrows + 1, dirty := E.dirty + 1 + 1,
                        cx := E.cx + 1 } ∧
      rows'.map (fun r => r.chars) = docText E ++ [[toByteChar c]] ∧
      rows'.length = E.row.length + 1 ∧ idxOk rows' := by
  have hnum := hwf.1
  obtain ⟨rows1, h1, h2, h3, h4, _⟩ :=
    editorInsertRow_spec fuel E E.numrows [] hwf (by omega) (le_refl _) (by omega)
  have hn : E.numrows.toNat = E.row.length := by omega
  have hc1 : (rows1.map (fun r => r.chars))[E.row.length]? = some [] := by
    have hl : (List.map (fun r => r.chars) E.row).length = E.row.length := by simp
    rw [h2, hn, List.take_of_length_le (by omega), List.drop_of_length_le (by omega),
      List.getElem?_append_right (by omega), hl]
    simp
  obtain ⟨r1, hr1, hr1c⟩ := map_chars_getElem? rows1 E.row.length [] hc1
  generalize hE1 : ({ E with row := rows1, numrows := E.numrows + 1, dirty := E.dirty + 1 } : editorConfig) = E1 at h1
  have e1 : E1.row = rows1 := by rw [← hE1]
  have e2 : E1.numrows = E.numrows + 1 := by rw [← hE1]
  have e3 : E1.cy = E.cy := by rw [← hE1]
  have e4 : E1.cx = E.cx := by rw [← hE1]
  have hwf1 : wellFormed E1 := ⟨by rw [e1, e2, h3]; push_cast; omega, by rw [e1]; exact h4⟩
  obtain ⟨rows', g1, g2, g3, _⟩ :=
    editorRowInsertChar_spec fuel E1 E.row.length r1 E.cx (toByteChar c) (by rw [e1]; exact hr1)
      hwf1 (by omega)
  obtain ⟨g4, g5⟩ := wellFormed_of_idx _ rows' hwf1 g3
  refine ⟨rows', ?_, ?_, by rw [e1] at g4; omega, g5⟩
  · unfold editorInsertChar
    rw [if_pos hcy, h1]
    dsimp only
    have hcyn : E1.cy.toNat = E.row.length := by omega
    rw [if_neg (by omega), hcyn, e4, g1, ← hE1]
  · rw [g2, e1]
    rw [h2, hn, hr1c]
    have hl : (List.map (fun r => r.chars) E.row).length = E.row.length := by simp
    simp only [List.take_nil, List.drop_nil, List.nil_append]
    rw [List.take_of_length_le (by omega), List.drop_of_length_le (by omega),
      List.set_append_right _ _ (by omega), hl]
    simp [docText]

/-! ## Recursion of the highlighter over the rows -/

/-- One call of `editorUpdateSyntax` on row `p` of a document whose rows carry
their positions: the row gets the outcome of its scan, and the only further
call is the one on row `p + 1`, made when the open-comment flag changed and
`p + 1 < numrows`. -/
theorem editorUpdateSyntax_unfold (fuel : Nat) (E : editorConfig) (p : Nat) (row : erow)
    (syn : editorSyntax) (hidx : idxOk E.row) (hrow : E.row[p]? = some row)
    (hsyn : E.syntax_ = some syn) :
    ∃ st, scanRow syn row (seedComment E p) = some st ∧
      editorUpdateSyntax (fuel + 1) E p =
        if (row.hl_open_comment != st.in_comment) = true ∧ (p : Int) + 1 < E.numrows then
          editorUpdateSyntax fuel { E with row := E.row.set p { row with hl := st.hl, hl_open_comment := st.in_comment } } (p + 1)
        else some { E with row := E.row.set p { row with hl := st.hl, hl_open_comment := st.in_comment } } := by
  have hp : p < E.row.length := by
    by_contra hc
    rw [List.getElem?_eq_none (by omega)] at hrow
    cases hrow
  have hpi : row.idx = p := idxOk_get _ hidx p _ hrow
  have hseed : (if row.idx > 0 then
      (rowAt E (row.idx - 1)).map (fun r => r.hl_open_comment) else some false)
      = some (seedComment E p) := by
    cases p with
    | zero => rw [if_neg (by omega)]; rfl
    | succ q =>
      rw [if_pos (by omega)]
      have hq : (row.idx - 1).toNat = q := by omega
      unfold rowAt seedComment
      have hg : E.row[q]? = some E.row[q] := List.getElem?_eq_getElem (by omega)
      rw [if_neg (by omega), hq]
      simp only [hg, Option.map]
  obtain ⟨st, hst, _⟩ := scanRow_some syn row (seedComment E p)
  refine ⟨st, hst, ?_⟩
  rw [editorUpdateSyntax]
  simp only [hrow, hsyn]
  rw [hseed]
  simp only []
  rw [hst]
  simp only []
  have h1 : ¬ ((p : Int) + 1 < 0) := by omega
  have h2 : ((p : Int) + 1).toNat = p + 1 := by omega
  simp only [hpi, if_neg h1, h2]

theorem keywordLoop_some (render : List Char) (i klen : Nat) (kw2 : Bool) :
    ∀ kws : List (List Char), keywordLoop render i kws = some (klen, kw2) →
      ∃ kw ∈ kws, klen = (if kw.getLast? = some '|' then kw.length - 1 else kw.length) := by
  intro kws
  induction kws with
  | nil => intro h; simp [keywordLoop] at h
  | cons kw rest ih =>
    intro h
    unfold keywordLoop at h
    simp only [] at h
    by_cases hm : (strncmpEq render i kw
        (if decide (kw.getLast? = some '|') = true then kw.length - 1 else kw.length) &&
        is_separator (render.getD (i + (if decide (kw.getLast? = some '|') = true
          then kw.length - 1 else kw.length)) '\x00')) = true
    · rw [if_pos hm] at h
      refine ⟨kw, List.mem_cons_self _ _, ?_⟩
      simp only [Option.some.injEq, Prod.mk.injEq] at h
      rw [← h.1]
      by_cases h2 : kw.getLast? = some '|'
      · simp [h2]
      · simp [h2]
    · rw [if_neg hm] at h
      obtain ⟨k, hk, e⟩ := ih h
      exact ⟨k, List.mem_cons_of_mem _ hk, e⟩

/-- Under a built-in syntax a keyword match spans at least two characters. -/
theorem keywordAt_klen (syn : editorSyntax) (hsyn : syn ∈ HLDB) (render : List Char)
    (st : scanState) (klen : Nat) (kw2 : Bool)
    (h : keywordAt syn render st = some (klen, kw2)) : 2 ≤ klen := by
  obtain ⟨_, _, _, _, hk⟩ := HLDB_tokens syn hsyn
  unfold keywordAt at h
  split_ifs at h
  obtain ⟨kw, hmem, e⟩ := keywordLoop_some render st.i klen kw2 _ h
  have := List.all_eq_true.1 hk kw hmem
  unfold kwSecondIsLetter at this
  simp only [Bool.and_eq_true, decide_eq_true_eq] at this
  rw [e]
  exact this.1.1

/-- Under a built-in syntax every round of the scan that does not leave the
loop advances the scan position. -/
theorem scanStep_advance (syn : editorSyntax) (hsyn : syn ∈ HLDB) (render : List Char)
    (st : scanState) (hb : (scanStep syn render st).2 = false) :
    st.i + 1 ≤ (scanStep syn render st).1.i := by
  revert hb
  unfold scanStep
  simp only []
  generalize hk : keywordAt syn render st = kw
  rcases kw with _ | ⟨klen, kw2⟩
  · split_ifs
    all_goals
      intro hb
      first
        | (simp at hb; done)
        | (dsimp only; (try casesm* _ ∧ _); omega)
  · have hklen := keywordAt_klen syn hsyn render st klen kw2 hk
    split_ifs
    all_goals
      intro hb
      first
        | (simp at hb; done)
        | (dsimp only; (try casesm* _ ∧ _); omega)

/-- When every round advances the scan position, `size - i` rounds are
enough for the scan loop. -/
theorem scanLoop_rounds (syn : editorSyntax) (hsyn : syn ∈ HLDB) (size : Nat)
    (render : List Char) :
    ∀ (fuel : Nat) (st : scanState), size - st.i ≤ fuel →
      ∃ st', scanLoop syn size render fuel st = some st' := by
  intro fuel
  induction fuel with
  | zero =>
    intro st h
    unfold scanLoop
    rw [if_neg (by omega)]
    exact ⟨_, rfl⟩
  | succ fuel ih =>
    intro st h
    unfold scanLoop
    by_cases hi : st.i < size
    · rw [if_pos hi]
      by_cases hb : (scanStep syn render st).2 = true
      · rw [if_pos hb]
        exact ⟨_, rfl⟩
      · rw [if_neg hb]
        have := scanStep_advance syn hsyn render st (by simpa using hb)
        exact ih _ (by omega)
    · rw [if_neg hi]
      exact ⟨_, rfl⟩

/-- More rounds than needed do not change the outcome of the scan loop. -/
theorem scanLoop_mono (syn : editorSyntax) (size : Nat) (render : List Char) :
    ∀ (fuel : Nat) (st st' : scanState), scanLoop syn size render fuel st = some st' →
      ∀ k, scanLoop syn size render (fuel + k) st = some st' := by
  intro fuel
  induction fuel with
  | zero =>
    intro st st' h k
    unfold scanLoop at h
    split_ifs at h with hi
    cases k with
    | zero => unfold scanLoop; rw [if_neg hi]; exact h
    | succ k => rw [Nat.zero_add]; unfold scanLoop; rw [if_neg hi]; exact h
  | succ fuel ih =>
    intro st st' h k
    have e : fuel + 1 + k = (fuel + k) + 1 := by omega
    rw [e]
    unfold scanLoop at h ⊢
    by_cases hi : st.i < size
    · rw [if_pos hi] at h ⊢
      by_cases hb : (scanStep syn render st).2 = true
      · rw [if_pos hb] at h ⊢
        exact h
      · rw [if_neg hb] at h ⊢
        exact ih _ _ h k
    · rw [if_neg hi] at h ⊢
      exact h

theorem seedComment_congr (E1 E2 : editorConfig) (q : Nat)
    (h : ∀ k, q = k + 1 →
      (E1.row[k]?).map (fun r => r.hl_open_comment)
        = (E2.row[k]?).map (fun r => r.hl_open_comment)) :
    seedComment E1 q = seedComment E2 q := by
  cases q with
  | zero => rfl
  | succ k =>
    have := h k rfl
    unfold seedComment
    dsimp only
    revert this
    generalize E1.row[k]? = a
    generalize E2.row[k]? = b
    intro this
    rcases a with _ | r1 <;> rcases b with _ | r2
    · rfl
    · cases this
    · cases this
    · exact Option.some.inj this

theorem rowConsistent_congr (syn : editorSyntax) (E1 E2 : editorConfig) (q : Nat)
    (hrow : E1.row[q]? = E2.row[q]?) (hseed : seedComment E1 q = seedComment E2 q) :
    rowConsistent syn E1 q = rowConsistent syn E2 q := by
  unfold rowConsistent
  rw [hrow, hseed]

theorem highlightConsistent_iff (E : editorConfig) (syn : editorSyntax)
    (hsyn : E.syntax_ = some syn) :
    highlightConsistent E = true ↔ ∀ q, rowConsistent syn E q = true := by
  unfold highlightConsistent
  rw [hsyn]
  simp only [List.all_eq_true, List.mem_range]
  constructor
  · intro h q
    by_cases hq : q < E.row.length
    · exact h q hq
    · unfold rowConsistent
      rw [List.getElem?_eq_none (by omega)]
  · intro h q _
    exact h q

/-- The re-highlight of row `p` of a document in which every other row is
consistent returns a document in which every row is consistent; the raw
content, the render buffers and the indices stay. -/
theorem editorUpdateSyntax_consistent (syn : editorSyntax) :
    ∀ (fuel : Nat) (E : editorConfig) (p : Nat), idxOk E.row →
      E.numrows = (E.row.length : Int) → E.syntax_ = some syn → p < E.row.length →
      E.numrows ≤ fuel + p → 0 < fuel →
      (∀ q, q ≠ p → rowConsistent syn E q = true) →
      ∃ rows', editorUpdateSyntax fuel E p = some { E with row := rows' } ∧
        rows'.map rowCore = E.row.map rowCore ∧
        ∀ q, rowConsistent syn { E with row := rows' } q = true := by
  intro fuel
  induction fuel with
  | zero => intro E p _ _ _ _ _ h0; omega
  | succ fuel ih =>
    intro E p hidx hnum hsyn hp hfuel _ hcons
    have hrow : E.row[p]? = some E.row[p] := List.getElem?_eq_getElem hp
    obtain ⟨st, hst, hun⟩ := editorUpdateSyntax_unfold fuel E p _ syn hidx hrow hsyn
    rw [hun]
    generalize hR : ({ E.row[p] with hl := st.hl, hl_open_comment := st.in_comment } : erow)
      = R at *
    have hRcore : rowCore R = rowCore (E.row[p]) := by rw [← hR]; rfl
    have hRflag : R.hl_open_comment = st.in_comment := by rw [← hR]
    have hRhl : R.hl = st.hl := by rw [← hR]
    have hRscan : ∀ s, scanRow syn R s = scanRow syn (E.row[p]) s := by
      intro s; rw [← hR]; rfl
    have hcore1 : (E.row.set p R).map rowCore = E.row.map rowCore :=
      set_map_core _ _ _ _ hrow hRcore
    have hgetp : (E.row.set p R)[p]? = some R := by
      rw [List.getElem?_set, if_pos rfl, if_pos hp]
    have hgetq : ∀ q, q ≠ p → (E.row.set p R)[q]? = E.row[q]? := by
      intro q hq
      rw [List.getElem?_set, if_neg (by omega)]
    -- row p is consistent after its scan
    have hp1 : rowConsistent syn { E with row := E.row.set p R } p = true := by
      unfold rowConsistent
      simp only [hgetp]
      rw [seedComment_set, hRscan, hst]
      simp only [hRhl, hRflag, and_self, decide_True]
    -- rows other than p and p + 1 keep their row and their seed
    have hother : ∀ q, q ≠ p → q ≠ p + 1 →
        rowConsistent syn { E with row := E.row.set p R } q = true := by
      intro q hq1 hq2
      rw [rowConsistent_congr syn _ E q (hgetq q hq1)
        (seedComment_congr _ _ q (by
          intro k hk
          simp only []
          rw [hgetq k (by omega)]))]
      exact hcons q hq1
    by_cases hch : (E.row[p].hl_open_comment != st.in_comment) = true ∧ (p : Int) + 1 < E.numrows
    · rw [if_pos hch]
      have hp1' : p + 1 < E.row.length := by omega
      obtain ⟨rows', h1, h2, h3⟩ := ih { E with row := E.row.set p R } (p + 1)
        (idxOk_of_core _ _ hcore1 hidx)
        (by simp only [List.length_set]; exact hnum) hsyn
        (by simp only [List.length_set]; exact hp1')
        (by simp only []; push_cast; push_cast at hfuel; omega)
        (by omega)
        (by
          intro q hq
          by_cases hqp : q = p
          · rw [hqp]; exact hp1
          · exact hother q hqp hq)
      exact ⟨rows', h1, h2.trans hcore1, h3⟩
    · rw [if_neg hch]
      refine ⟨E.row.set p R, rfl, hcore1, ?_⟩
      intro q
      by_cases hqp : q = p
      · rw [hqp]; exact hp1
      · by_cases hq2 : q = p + 1
        · by_cases hlen : p + 1 < E.row.length
          · -- the flag of row p did not change
            have hsame : st.in_comment = E.row[p].hl_open_comment := by
              by_contra hne
              apply hch
              refine ⟨?_, by omega⟩
              simp only [bne_iff_ne, ne_eq]
              exact fun h => hne h.symm
            rw [hq2]
            rw [rowConsistent_congr syn _ E (p + 1) (hgetq (p + 1) (by omega))
              (seedComment_congr _ _ (p + 1) (by
                intro k hk
                have hkp : k = p := by omega
                subst hkp
                simp only []
                rw [hgetp, hrow]
                simp only [Option.map, hRflag, hsame]))]
            exact hcons (p + 1) (by omega)
          · unfold rowConsistent
            simp only []
            rw [hq2, List.getElem?_eq_none (by simp only [List.length_set]; omega)]
        · exact hother q hqp hq2

/-! ## Keyword rounds of the scan -/

theorem strncmpEq_two (buf : List Char) (i : Nat) (a b : Char) (ha : a ≠ '\x00')
    (h : strncmpEq buf i [a, b] 2 = true) : buf.getD (i + 1) '\x00' = b := by
  unfold strncmpEq at h
  simp only [List.headD_cons, List.tail_cons] at h
  split_ifs at h with h1 h2
  · rw [h2] at h1
    exact absurd (not_not.1 h1).symm ha
  · unfold strncmpEq at h
    simp only [List.headD_cons] at h
    split_ifs at h with h3
    · exact not_not.1 h3
    · exact not_not.1 h3

theorem scanStep_sepInv (syn : editorSyntax) (hsyn : syn ∈ HLDB) (render : List Char)
    (st : scanState) (hinv : scanSepInv render st)
    (hb : (scanStep syn render st).2 = false) :
    scanSepInv render (scanStep syn render st).1 := by
  obtain ⟨t1, t2, t3, t4, _⟩ := HLDB_tokens syn hsyn
  obtain ⟨hJ, hI⟩ := hinv
  revert hb
  unfold scanStep
  simp only [t1, t2, t3, t4, List.length_cons, List.length_nil]
  generalize hk : keywordAt syn render st = kw
  generalize hc : render.getD st.i '\x00' = c
  split_ifs with h1 h2 h3 h4 h5 h6 h7 h8 h9
  · intro hb; cases hb
  · intro _
    refine ⟨Or.inl h2.2.2.1, fun _ _ _ => Or.inr (Or.inl ?_)⟩
    have := strncmpEq_two render st.i '*' '/' (by decide) h3
    have e : st.i + (0 + 1 + 1) - 1 = st.i + 1 := by omega
    show is_separator (render.getD (st.i + (0 + 1 + 1) - 1) '\x00') = true
    rw [e, this]
    decide
  · intro _
    refine ⟨hJ, fun _ hcm => ?_⟩
    rw [h2.2.2.2] at hcm
    cases hcm
  · intro _
    refine ⟨hJ, fun _ hcm => ?_⟩
    cases hcm
  · intro _
    exact ⟨hJ, fun h0 => absurd h0 h5.2⟩
  · intro _
    refine ⟨Or.inl rfl, fun _ _ _ => Or.inr (Or.inr ?_)⟩
    show render.getD (st.i + 1 - 1) '\x00' = '"' ∨ render.getD (st.i + 1 - 1) '\x00' = '\''
    rw [Nat.add_sub_cancel, hc, h7]
    rcases hJ with h | h | h
    · exact absurd h h5.2
    · exact Or.inl h
    · exact Or.inr h
  · intro _
    exact ⟨hJ, fun h0 => absurd h0 h5.2⟩
  · intro _
    refine ⟨Or.inr h8.2, fun h0 => ?_⟩
    rcases h8.2 with h | h
    · have h0' : c = '\x00' := h0
      rw [h] at h0'
      exact absurd h0' (by decide)
    · have h0' : c = '\x00' := h0
      rw [h] at h0'
      exact absurd h0' (by decide)
  · intro _
    refine ⟨hJ, fun _ _ hp => ?_⟩
    cases hp
  · rcases kw with _ | ⟨klen, kw2⟩
    · intro _
      refine ⟨hJ, fun _ _ hp => Or.inr (Or.inl ?_)⟩
      show is_separator (render.getD (st.i + 1 - 1) '\x00') = true
      rw [Nat.add_sub_cancel, hc]
      exact hp
    · intro _
      refine ⟨hJ, fun _ _ hp => ?_⟩
      cases hp

/-- Every round of the scan of a row under a built-in syntax starts in a state
that satisfies `scanSepInv`. -/
theorem scanTrace_sepInv (syn : editorSyntax) (hsyn : syn ∈ HLDB) (size : Nat)
    (render : List Char) :
    ∀ (fuel : Nat) (st0 : scanState), scanSepInv render st0 →
      ∀ st ∈ scanTrace syn size render fuel st0, scanSepInv render st := by
  intro fuel
  induction fuel with
  | zero => intro st0 _ st h; simp [scanTrace] at h
  | succ fuel ih =>
    intro st0 h0 st h
    unfold scanTrace at h
    split_ifs at h with hi hb
    · rcases List.mem_cons.1 h with h | h
      · rw [h]; exact h0
      · cases h
    · rcases List.mem_cons.1 h with h | h
      · rw [h]; exact h0
      · exact ih _ (scanStep_sepInv syn hsyn render st0 h0 (by simpa using hb)) st h
    · cases h

/-- A round that classifies a keyword starts outside strings and comments
with `prev_sep` set. -/
theorem classifiesKeyword_state (syn : editorSyntax) (hsyn : syn ∈ HLDB) (render : List Char)
    (st : scanState) (h : classifiesKeyword syn render st) :
    st.in_string = '\x00' ∧ st.in_comment = false ∧ st.prev_sep = true := by
  obtain ⟨t1, t2, t3, t4, _⟩ := HLDB_tokens syn hsyn
  obtain ⟨klen, kw2, hk, hs⟩ := h
  have hps := keywordAt_some syn render st _ hk
  have hklen := keywordAt_klen syn hsyn render st klen kw2 hk
  have h1 := congrArg (fun r => r.1.prev_sep) hs
  have h2 := congrArg (fun r => r.1.in_comment) hs
  have h3 := congrArg (fun r => r.1.i) hs
  have h4 := congrArg (fun r => r.2) hs
  simp only [] at h1 h2 h3 h4
  revert h1 h2 h3 h4
  unfold scanStep
  simp only [t1, t2, t3, t4, hk, List.length_cons, List.length_nil]
  split_ifs with c1 c2 c3 c4 c5 c6 c7 c8 c9
  all_goals
    intro h1 h2 h3 h4
    try dsimp only at h1 h2 h3 h4
    first
      | (exfalso; rw [hps] at h1; cases h1)
      | (exfalso; cases h1; done)
      | (exfalso; cases h4; done)
      | (exfalso; omega)
      | skip
  all_goals
    refine ⟨?_, ?_, hps⟩
    · by_contra h
      exact c5 ⟨by decide, h⟩
    · by_contra h
      have hs0 : st.in_string = '\x00' := by
        by_contra h'
        exact c5 ⟨by decide, h'⟩
      exact c2 ⟨by decide, by decide, hs0, by simpa using h⟩

/-! ## Forward word motion -/

/-- A round of the forward loop inside a row: the character at the cursor is
examined. -/
theorem wordForwardLoop_inRow (E : editorConfig) (hnum : E.numrows = (E.row.length : Int))
    (y x : Nat) (row : erow) (hrow : E.row[y]? = some row) (hx : x < row.chars.length)
    (prev : Int) (f : Nat) :
    wordForwardLoop (f + 1) prev { E with cy := (y : Int), cx := (x : Int) } =
      if getCharType (row.chars.getD x '\x00') ≠ CHAR_SPACE ∧ prev > 0
          ∧ (prev ≠ getCharType (row.chars.getD x '\x00') ∨ x = 0)
      then some { E with cy := (y : Int), cx := (x : Int) }
      else wordForwardLoop f (getCharType (row.chars.getD x '\x00'))
        { E with cy := (y : Int), cx := ((x + 1 : Nat) : Int) } := by
  have hy : y < E.row.length := by
    by_contra hc
    rw [List.getElem?_eq_none (by omega)] at hrow
    cases hrow
  have hr : ∀ a b : Int, rowAt { E with cy := a, cx := b } (y : Int) = some row := by
    intro a b
    unfold rowAt
    rw [if_neg (by omega)]
    simpa using hrow
  have hc : charAt row (x : Int) = some (row.chars.getD x '\x00') := by
    unfold charAt
    rw [if_neg (by simp only [erow.size]; omega)]
    rfl
  rw [wordForwardLoop]
  dsimp only
  rw [if_pos (by omega), hr]
  dsimp only
  rw [if_neg (by simp only [erow.size]; omega), if_neg (by simp only [erow.size]; omega), hr]
  dsimp only
  rw [hc]
  dsimp only
  rw [Nat.cast_add, Nat.cast_one]
  by_cases h : getCharType (row.chars.getD x '\x00') ≠ CHAR_SPACE ∧ prev > 0
      ∧ (prev ≠ getCharType (row.chars.getD x '\x00') ∨ x = 0)
  · rw [if_pos h, if_pos ⟨h.1, h.2.1, h.2.2.imp id (fun h0 => by omega)⟩]
  · rw [if_neg h, if_neg (fun h' => h ⟨h'.1, h'.2.1, h'.2.2.imp id (fun h0 => by omega)⟩)]

/-- A round of the forward loop at the end of the last row. -/
theorem wordForwardLoop_lastRow (E : editorConfig) (hnum : E.numrows = (E.row.length : Int))
    (y x : Nat) (row : erow) (hrow : E.row[y]? = some row) (hx : row.chars.length ≤ x)
    (hlast : y + 1 = E.row.length) (prev : Int) (f : Nat) :
    wordForwardLoop (f + 1) prev { E with cy := (y : Int), cx := (x : Int) } =
      some { E with cy := (y : Int), cx := (row.chars.length : Int) } := by
  have hr : ∀ a b : Int, rowAt { E with cy := a, cx := b } (y : Int) = some row := by
    intro a b
    unfold rowAt
    rw [if_neg (by omega)]
    simpa using hrow
  rw [wordForwardLoop]
  dsimp only
  rw [if_pos (by omega), hr]
  dsimp only
  rw [if_pos (by simp only [erow.size]; constructor <;> omega)]

/-- A round of the forward loop at the end of a row that is not the last one:
the cursor moves to column 0 of the next row and the character there is
examined. -/
theorem wordForwardLoop_nextRow (E : editorConfig) (hnum : E.numrows = (E.row.length : Int))
    (y x : Nat) (row next : erow) (hrow : E.row[y]? = some row)
    (hnext : E.row[y + 1]? = some next) (hx : row.chars.length ≤ x) (prev : Int) (f : Nat) :
    wordForwardLoop (f + 1) prev { E with cy := (y : Int), cx := (x : Int) } =
      if getCharType (next.chars.getD 0 '\x00') ≠ CHAR_SPACE ∧ prev > 0
      then some { E with cy := ((y + 1 : Nat) : Int), cx := ((0 : Nat) : Int) }
      else wordForwardLoop f (getCharType (next.chars.getD 0 '\x00'))
        { E with cy := ((y + 1 : Nat) : Int), cx := ((1 : Nat) : Int) } := by
  have hy : y + 1 < E.row.length := by
    by_contra hc
    rw [List.getElem?_eq_none (by omega)] at hnext
    cases hnext
  have hr : ∀ a b : Int, rowAt { E with cy := a, cx := b } (y : Int) = some row := by
    intro a b
    unfold rowAt
    rw [if_neg (by omega)]
    simpa using hrow
  have hr2 : ∀ a b : Int, rowAt { E with cy := a, cx := b } ((y : Int) + 1) = some next := by
    intro a b
    unfold rowAt
    rw [if_neg (by omega)]
    have : ((y : Int) + 1).toNat = y + 1 := by omega
    rw [this]
    exact hnext
  have hc : charAt next 0 = some (next.chars.getD 0 '\x00') := by
    unfold charAt
    rw [if_neg (by simp only [erow.size]; omega)]
    rfl
  rw [wordForwardLoop]
  dsimp only
  rw [if_pos (by omega), hr]
  dsimp only
  rw [if_neg (by simp only [erow.size]; omega), if_pos (by simp only [erow.size]; omega)]
  dsimp only
  rw [hr2]
  dsimp only
  rw [hc]
  dsimp only
  rw [Nat.cast_add, Nat.cast_one, Nat.cast_zero]
  by_cases h : getCharType (next.chars.getD 0 '\x00') ≠ CHAR_SPACE ∧ prev > 0
  · rw [if_pos h, if_pos ⟨h.1, h.2, Or.inr rfl⟩]
  · rw [if_neg h, if_neg (fun h' => h ⟨h'.1, h'.2.1⟩)]
    rfl

theorem getCharType_pos (c : Char) : getCharType c > 0 := by
  unfold getCharType
  split_ifs <;> decide

theorem restLen_some (rows : List erow) (y : Nat) (row : erow) (h : rows[y]? = some row) :
    restLen rows y = row.chars.length + 1 + restLen rows (y + 1) := by
  have hy : y < rows.length := by
    by_contra hc
    rw [List.getElem?_eq_none (by omega)] at h
    cases h
  have hg : rows[y] = row := by
    rw [List.getElem?_eq_getElem hy] at h
    exact Option.some.inj h
  unfold restLen
  rw [List.drop_eq_getElem_cons hy, hg]
  simp

theorem wordTarget_outside (rows : List erow) (y0 a b : Nat) (h : rows.length ≤ a) :
    wordTarget rows y0 a b = false := by
  unfold wordTarget
  have : decide (a < rows.length) = false := by simp; omega
  rw [this]
  rfl

theorem wordTarget_beyond (rows : List erow) (y0 y b : Nat) (row : erow)
    (h : rows[y]? = some row) (h1 : 1 ≤ b) (h2 : row.chars.length ≤ b) :
    wordTarget rows y0 y b = false := by
  unfold wordTarget rowLen
  rw [h, if_neg (by omega)]
  have : decide (b < row.chars.length) = false := by simp; omega
  simp [this]

theorem wordTarget_inRow (rows : List erow) (y0 y x : Nat) (row : erow)
    (h : rows[y]? = some row) (h1 : 1 ≤ x) (h2 : x < row.chars.length) :
    wordTarget rows y0 y x = true ↔
      getCharType (row.chars.getD x '\x00') ≠ CHAR_SPACE ∧
        getCharType (row.chars.getD (x - 1) '\x00') ≠ getCharType (row.chars.getD x '\x00') := by
  have hy : y < rows.length := by
    by_contra hc
    rw [List.getElem?_eq_none (by omega)] at h
    cases h
  unfold wordTarget rowLen classAt
  rw [h, if_neg (by omega)]
  dsimp only
  generalize getCharType (row.chars.getD x '\x00') = t
  generalize getCharType (row.chars.getD (x - 1) '\x00') = u
  simp only [hy, h2, decide_True, Bool.true_and, Bool.and_eq_true, decide_eq_true_eq]
  constructor
  · intro ⟨a, b⟩; exact ⟨a, fun e => b e.symm⟩
  · intro ⟨a, b⟩; exact ⟨a, fun e => b e.symm⟩

theorem wordTarget_col0 (rows : List erow) (y0 y : Nat) (row : erow)
    (h : rows[y]? = some row) :
    wordTarget rows y0 y 0 = true ↔
      y0 < y ∧ (row.chars.length = 0 ∨ getCharType (row.chars.getD 0 '\x00') ≠ CHAR_SPACE) := by
  have hy : y < rows.length := by
    by_contra hc
    rw [List.getElem?_eq_none (by omega)] at h
    cases h
  unfold wordTarget rowLen classAt
  rw [h, if_pos rfl]
  dsimp only
  generalize getCharType (row.chars.getD 0 '\x00') = t
  simp only [hy, decide_True, Bool.true_and, Bool.and_eq_true, Bool.or_eq_true,
    decide_eq_true_eq]

theorem rowLen_some (rows : List erow) (y : Nat) (row : erow) (h : rows[y]? = some row) :
    rowLen rows y = row.chars.length := by
  unfold rowLen
  rw [h]

theorem restLen_succ_le (rows : List erow) (y : Nat) : restLen rows (y + 1) ≤ restLen rows y := by
  by_cases hy : y < rows.length
  · rw [restLen_some rows y _ (List.getElem?_eq_getElem hy)]
    omega
  · unfold restLen
    rw [List.drop_eq_nil_of_le (by omega), List.drop_eq_nil_of_le (by omega)]

theorem restLen_le (rows : List erow) (y : Nat) : restLen rows y ≤ restLen rows 0 := by
  induction y with
  | zero => exact le_refl _
  | succ y ih => exact le_trans (restLen_succ_le rows y) ih

/-- The forward loop from column `x >= 1` of row `y`, with `previous_cursor`
the class of the character before the cursor: it returns on the first stop at
or after `(y, x)`, or at the end of the last row when there is none. -/
theorem wordForwardLoop_spec (E : editorConfig) (hnum : E.numrows = (E.row.length : Int))
    (y0 : Nat) :
    ∀ (fuel y x : Nat) (row : erow), E.row[y]? = some row → y0 ≤ y → 1 ≤ x →
      x ≤ row.chars.length → restLen E.row y ≤ fuel + x →
      ∃ y' x' : Nat,
        wordForwardLoop fuel (getCharType (row.chars.getD (x - 1) '\x00'))
            { E with cy := (y : Int), cx := (x : Int) }
          = some { E with cy := (y' : Int), cx := (x' : Int) } ∧
        y' < E.row.length ∧ x' ≤ rowLen E.row y' ∧
        ((wordTarget E.row y0 y' x' = true ∧ ¬ posLt y' x' y x ∧
            ∀ a b, ¬ posLt a b y x → posLt a b y' x' → wordTarget E.row y0 a b = false) ∨
         ((∀ a b, ¬ posLt a b y x → wordTarget E.row y0 a b = false) ∧
            y' + 1 = E.row.length ∧ x' = rowLen E.row y')) := by
  intro fuel
  induction fuel with
  | zero =>
    intro y x row hrow _ _ hx hf
    rw [restLen_some _ _ _ hrow] at hf
    omega
  | succ f ih =>
    intro y x row hrow hy0 hx1 hx hf
    have hy : y < E.row.length := by
      by_contra hc
      rw [List.getElem?_eq_none (by omega)] at hrow
      cases hrow
    have hrl := restLen_some _ _ _ hrow
    have hprev := getCharType_pos (row.chars.getD (x - 1) '\x00')
    by_cases hxl : x < row.chars.length
    · rw [wordForwardLoop_inRow E hnum y x row hrow hxl]
      by_cases hb : getCharType (row.chars.getD x '\x00') ≠ CHAR_SPACE ∧
          getCharType (row.chars.getD (x - 1) '\x00') > 0 ∧
          (getCharType (row.chars.getD (x - 1) '\x00') ≠ getCharType (row.chars.getD x '\x00')
            ∨ x = 0)
      · rw [if_pos hb]
        refine ⟨y, x, rfl, hy, by rw [rowLen_some _ _ _ hrow]; omega, Or.inl ⟨?_, ?_, ?_⟩⟩
        · refine (wordTarget_inRow _ y0 y x row hrow hx1 hxl).2 ⟨hb.1, ?_⟩
          rcases hb.2.2 with h | h
          · exact h
          · omega
        · unfold posLt; omega
        · intro a b h1 h2
          unfold posLt at h1 h2
          omega
      · rw [if_neg hb]
        have hnt : wordTarget E.row y0 y x = false := by
          by_contra hc
          have := (wordTarget_inRow _ y0 y x row hrow hx1 hxl).1 (by simpa using hc)
          exact hb ⟨this.1, hprev, Or.inl this.2⟩
        obtain ⟨y', x', h1, h2, h3, h4⟩ := ih y (x + 1) row hrow hy0 (by omega) (by omega)
          (by omega)
        rw [Nat.add_sub_cancel] at h1
        refine ⟨y', x', h1, h2, h3, ?_⟩
        rcases h4 with ⟨ht, hnl, hbt⟩ | ⟨hnone, hl, hx'⟩
        · refine Or.inl ⟨ht, ?_, ?_⟩
          · unfold posLt at hnl ⊢; omega
          · intro a b g1 g2
            by_cases hab : a = y ∧ b = x
            · rw [hab.1, hab.2]; exact hnt
            · exact hbt a b (by unfold posLt at g1 ⊢; omega) g2
        · refine Or.inr ⟨?_, hl, hx'⟩
          intro a b g1
          by_cases hab : a = y ∧ b = x
          · rw [hab.1, hab.2]; exact hnt
          · exact hnone a b (by unfold posLt at g1 ⊢; omega)
    · have hxe : x = row.chars.length := by omega
      have hbeyond : ∀ a b, ¬ posLt a b y x → a = y → wordTarget E.row y0 a b = false := by
        intro a b g1 g2
        rw [g2]
        exact wordTarget_beyond _ y0 y b row hrow (by unfold posLt at g1; omega)
          (by unfold posLt at g1; omega)
      by_cases hlast : y + 1 = E.row.length
      · rw [wordForwardLoop_lastRow E hnum y x row hrow (by omega) hlast]
        refine ⟨y, row.chars.length, rfl, hy, by rw [rowLen_some _ _ _ hrow], Or.inr ⟨?_, hlast,
          by rw [rowLen_some _ _ _ hrow]⟩⟩
        intro a b g1
        by_cases ha : a = y
        · exact hbeyond a b g1 ha
        · exact wordTarget_outside _ _ _ _ (by unfold posLt at g1; omega)
      · have hy1 : y + 1 < E.row.length := by omega
        have hnext : E.row[y + 1]? = some E.row[y + 1] := List.getElem?_eq_getElem hy1
        rw [wordForwardLoop_nextRow E hnum y x row _ hrow hnext (by omega)]
        by_cases hb : getCharType ((E.row[y + 1]).chars.getD 0 '\x00') ≠ CHAR_SPACE ∧
            getCharType (row.chars.getD (x - 1) '\x00') > 0
        · rw [if_pos hb]
          refine ⟨y + 1, 0, rfl, hy1, Nat.zero_le _, Or.inl ⟨?_, ?_, ?_⟩⟩
          · exact (wordTarget_col0 _ y0 (y + 1) _ hnext).2 ⟨by omega, Or.inr hb.1⟩
          · unfold posLt; omega
          · intro a b g1 g2
            exact hbeyond a b g1 (by unfold posLt at g1 g2; omega)
        · rw [if_neg hb]
          have ht : getCharType ((E.row[y + 1]).chars.getD 0 '\x00') = CHAR_SPACE := by
            by_contra hc
            exact hb ⟨hc, hprev⟩
          have hlen1 : 1 ≤ (E.row[y + 1]).chars.length := by
            by_contra hc
            have h0 : (E.row[y + 1]).chars = [] := List.eq_nil_of_length_eq_zero (by omega)
            rw [h0] at ht
            revert ht
            decide
          have hnt : wordTarget E.row y0 (y + 1) 0 = false := by
            by_contra hc
            have := (wordTarget_col0 _ y0 (y + 1) _ hnext).1 (by simpa using hc)
            rcases this.2 with h | h
            · omega
            · exact h ht
          obtain ⟨y', x', h1, h2, h3, h4⟩ := ih (y + 1) 1 _ hnext (by omega) (le_refl _) hlen1
            (by rw [hrl] at hf; omega)
          refine ⟨y', x', h1, h2, h3, ?_⟩
          rcases h4 with ⟨ht', hnl, hbt⟩ | ⟨hnone, hl, hx'⟩
          · refine Or.inl ⟨ht', ?_, ?_⟩
            · unfold posLt at hnl ⊢; omega
            · intro a b g1 g2
              by_cases ha : a = y
              · exact hbeyond a b g1 ha
              · by_cases hab : a = y + 1 ∧ b = 0
                · rw [hab.1, hab.2]; exact hnt
                · exact hbt a b (by unfold posLt at g1 ⊢; omega) g2
          · refine Or.inr ⟨?_, hl, hx'⟩
            intro a b g1
            by_cases ha : a = y
            · exact hbeyond a b g1 ha
            · by_cases hab : a = y + 1 ∧ b = 0
              · rw [hab.1, hab.2]; exact hnt
              · exact hnone a b (by unfold posLt at g1 ⊢; omega)

/-! ## Claims on the coordinate mapper -/

/-- C6: for every row, tabs or not, and every raw column `cx` with
`0 <= cx <= row.size`, `editorRowRxToCx(row, editorRowCxToRx(row, cx)) == cx`. -/
theorem C6_rxToCx_cxToRx_roundtrip (row : erow) (cx : Int) (h0 : 0 ≤ cx) (h1 : cx ≤ row.size) :
    editorRowRxToCx row (editorRowCxToRx row cx) = cx := by
  obtain ⟨n, rfl⟩ : ∃ n : Nat, cx = n := ⟨cx.toNat, by omega⟩
  obtain ⟨m, hm, hle, hlt, hmin⟩ := editorRowRxToCx_spec row (editorRowCxToRx row n)
  rw [hm]
  have hn : n ≤ row.chars.length := by simpa [erow.size] using h1
  have hmn : m ≤ n := by
    by_contra hc
    have := hmin n (by omega)
    have h2 := (cxToRx_lt_iff row n (n + 1)).2 (by omega)
    push_cast at h2
    omega
  have hnm : n ≤ m := by
    by_contra hc
    have h2 := hlt (by omega)
    have h3 : editorRowCxToRx row ((n : Nat) : Int) < editorRowCxToRx row ((m + 1 : Nat) : Int) := by
      push_cast; exact h2
    have := (cxToRx_lt_iff row n (m + 1)).1 h3
    omega
  have : m = n := by omega
  rw [this]

/-- C6 on the row `a\tb` at the column after the tab. -/
theorem C6_rxToCx_cxToRx_roundtrip_witness :
    (0 : Int) ≤ 2 ∧ (2 : Int) ≤ (erow.mk 0 ['a', '\t', 'b'] [] [] false).size ∧
    editorRowRxToCx (erow.mk 0 ['a', '\t', 'b'] [] [] false)
      (editorRowCxToRx (erow.mk 0 ['a', '\t', 'b'] [] [] false) 2) = 2 :=
  ⟨by decide, by decide,
   C6_rxToCx_cxToRx_roundtrip (erow.mk 0 ['a', '\t', 'b'] [] [] false) 2 (by decide) (by decide)⟩

/-- C7: for every row and render column `rx >= 0`, `editorRowRxToCx(row, rx)` is
the smallest raw column `cx < size` with `editorRowCxToRx(row, cx + 1) > rx`, and
is `size` when there is no such column; for `rx` below the render width of the
row the result `cx` satisfies
`editorRowCxToRx(row, cx) <= rx < editorRowCxToRx(row, cx + 1)`. -/
theorem C7_rxToCx_first_column_beyond (row : erow) (rx : Int) (hrx : 0 ≤ rx) :
    0 ≤ editorRowRxToCx row rx ∧ editorRowRxToCx row rx ≤ row.size ∧
    (editorRowRxToCx row rx < row.size →
      rx < editorRowCxToRx row (editorRowRxToCx row rx + 1)) ∧
    (∀ cx : Int, 0 ≤ cx → cx < row.size → rx < editorRowCxToRx row (cx + 1) →
      editorRowRxToCx row rx ≤ cx) ∧
    ((¬ ∃ cx : Int, 0 ≤ cx ∧ cx < row.size ∧ rx < editorRowCxToRx row (cx + 1)) →
      editorRowRxToCx row rx = row.size) ∧
    (rx < editorRowCxToRx row row.size →
      editorRowCxToRx row (editorRowRxToCx row rx) ≤ rx ∧
      rx < editorRowCxToRx row (editorRowRxToCx row rx + 1)) := by
  obtain ⟨m, hm, hle, hlt, hmin⟩ := editorRowRxToCx_spec row rx
  rw [hm]
  simp only [erow.size]
  have hlt' : (m : Int) < (row.chars.length : Int) → rx < editorRowCxToRx row ((m : Int) + 1) :=
    fun h => hlt (by omega)
  have hlow : editorRowCxToRx row (m : Int) ≤ rx := by
    cases m with
    | zero => simpa [cxToRx_zero] using hrx
    | succ k => push_cast; exact hmin k (by omega)
  refine ⟨by omega, by omega, hlt', ?_, ?_, ?_⟩
  · intro cx h0 h1 h2
    obtain ⟨j, rfl⟩ : ∃ j : Nat, cx = j := ⟨cx.toNat, by omega⟩
    by_contra hc
    have := hmin j (by omega)
    omega
  · intro hno
    by_contra hc
    have hmlt : (m : Int) < (row.chars.length : Int) := by omega
    exact hno ⟨m, by omega, hmlt, hlt' hmlt⟩
  · intro hw
    refine ⟨hlow, ?_⟩
    by_cases hmlt : m < row.chars.length
    · exact hlt hmlt
    · have : m = row.chars.length := by omega
      rw [this] at hlow
      omega

/-- C7 on the row `a\tb`: render column 2 lies inside the tab at raw column 1. -/
theorem C7_rxToCx_first_column_beyond_witness :
    (0 : Int) ≤ 2 ∧ editorRowRxToCx (erow.mk 0 ['a', '\t', 'b'] [] [] false) 2 = 1 ∧
    editorRowCxToRx (erow.mk 0 ['a', '\t', 'b'] [] [] false) 1 ≤ 2 ∧
    (2 : Int) < editorRowCxToRx (erow.mk 0 ['a', '\t', 'b'] [] [] false) (1 + 1) := by
  have h := C7_rxToCx_first_column_beyond (erow.mk 0 ['a', '\t', 'b'] [] [] false) 2 (by decide)
  have hr : editorRowRxToCx (erow.mk 0 ['a', '\t', 'b'] [] [] false) 2 = 1 := by decide
  have hw := h.2.2.2.2.2 (by decide)
  rw [hr] at hw
  exact ⟨by decide, hr, hw.1, hw.2⟩

/-! ## Claims on the edit operations -/

/-- C1: for every row of a document at rest and every position `at` with
`0 <= at <= row.size`, `editorRowInsertChar(row, at, c)` followed by
`editorRowDelChar(row, at)` returns, and leaves the raw content of the row
(`chars` and `size`) equal to the original one; the raw content of the other
rows stays as well. -/
theorem C1_insert_then_delete_restores (fuel : Nat) (E : editorConfig) (p : Nat) (row : erow)
    (at_ : Int) (c : Char) (hwf : wellFormed E) (hrow : E.row[p]? = some row)
    (h0 : 0 ≤ at_) (h1 : at_ ≤ row.size) (hfuel : E.numrows < fuel) :
    ∃ E1 E2 row2, editorRowInsertChar fuel E p at_ c = some E1 ∧
      editorRowDelChar fuel E1 p at_ = some E2 ∧
      E2.row[p]? = some row2 ∧ row2.chars = row.chars ∧ row2.size = row.size ∧
      docText E2 = docText E := by
  have hp : p < E.row.length := by
    by_contra hc
    rw [List.getElem?_eq_none (by omega)] at hrow
    cases hrow
  obtain ⟨rows1, e1, t1, i1, _⟩ := editorRowInsertChar_spec fuel E p row at_ c hrow hwf hfuel
  rw [if_neg (by omega)] at t1
  have hwf1 := wellFormed_of_idx E rows1 hwf i1
  have hget1 : (rows1.map (fun r => r.chars))[p]?
      = some (row.chars.take at_.toNat ++ c :: row.chars.drop at_.toNat) := by
    rw [t1, List.getElem?_set, if_pos rfl, if_pos (by simpa using hp)]
  obtain ⟨row1, hrow1, hc1⟩ := map_chars_getElem? rows1 p _ hget1
  have hat : at_.toNat ≤ row.chars.length := by
    have : at_ ≤ (row.chars.length : Int) := h1
    omega
  have hlen1 : row1.size = row.size + 1 := by
    simp only [erow.size, hc1, List.length_append, List.length_take, List.length_cons,
      List.length_drop]
    omega
  obtain ⟨rows2, e2, t2, i2, _⟩ := editorRowDelChar_spec fuel
    { E with row := rows1, dirty := E.dirty + 1 } p row1 at_ hrow1
    ⟨by simp only [hwf1.1]; exact hwf.1, hwf1.2⟩ h0 (by omega) hfuel
  simp only [] at t2
  rw [hc1, take_insert_drop _ _ _ hat, t1, List.set_set] at t2
  have hself : (E.row.map (fun r => r.chars)).set p row.chars = E.row.map (fun r => r.chars) :=
    set_getElem?_self _ _ _ (by simp [List.getElem?_map, hrow])
  rw [hself] at t2
  have hget2 : (rows2.map (fun r => r.chars))[p]? = some row.chars := by
    rw [t2]; simp [List.getElem?_map, hrow]
  obtain ⟨row2, hrow2, hc2⟩ := map_chars_getElem? rows2 p _ hget2
  exact ⟨_, _, row2, e1, e2, hrow2, hc2, by simp only [erow.size, hc2], t2⟩

/-- C1 on the sample document: insert `x` at column 2 of row 0, delete it again. -/
theorem C1_insert_then_delete_restores_witness :
    wellFormed sampleDoc ∧ sampleDoc.row[0]? = some (plainRow 0 "ab cd") ∧
    ∃ E1 E2 row2, editorRowInsertChar 3 sampleDoc 0 2 'x' = some E1 ∧
      editorRowDelChar 3 E1 0 2 = some E2 ∧
      E2.row[0]? = some row2 ∧ row2.chars = (plainRow 0 "ab cd").chars ∧
      row2.size = (plainRow 0 "ab cd").size ∧ docText E2 = docText sampleDoc :=
  ⟨by decide, rfl,
   C1_insert_then_delete_restores 3 sampleDoc 0 (plainRow 0 "ab cd") 2 'x'
     (by decide) rfl (by decide) (by decide) (by decide)⟩

/-- C2: for a document at rest and a cursor with `0 <= cy < numrows` (the cursor
row `row` exists) and `0 <= cx <= row.size`, `editorInsertNewline` returns; the
row count grows by exactly 1, row `cy` holds `chars[:cx]`, the new row `cy+1`
holds `chars[cx:]` (for `cx == 0` an empty row above the original content), the
other rows keep their content and order, and the cursor ends at column 0 of row
`cy+1`. -/
theorem C2_insertNewline_splits_row (fuel : Nat) (E : editorConfig) (row : erow)
    (hwf : wellFormed E) (hrow : rowAt E E.cy = some row) (hcx0 : 0 ≤ E.cx)
    (hcx1 : E.cx ≤ row.size) (hfuel : E.numrows < fuel) :
    ∃ E', editorInsertNewline fuel E = some E' ∧
      E'.numrows = E.numrows + 1 ∧ E'.row.length = E.row.length + 1 ∧
      docText E' = (docText E).take E.cy.toNat ++ row.chars.take E.cx.toNat ::
        row.chars.drop E.cx.toNat :: (docText E).drop (E.cy.toNat + 1) ∧
      (E.cx = 0 → docText E' = (docText E).take E.cy.toNat ++ [] ::
        row.chars :: (docText E).drop (E.cy.toNat + 1)) ∧
      E'.cy = E.cy + 1 ∧ E'.cx = 0 := by
  obtain ⟨rows', e, t, l, _, _⟩ := editorInsertNewline_spec fuel E row hwf hrow hcx0 hcx1 hfuel
  refine ⟨_, e, rfl, l, t, ?_, rfl, rfl⟩
  intro hz
  show rows'.map (fun r => r.chars) = _
  rw [t, hz]
  rfl

/-- C2 on the sample document: the cursor at column 2 of row 0 splits `ab cd`. -/
theorem C2_insertNewline_splits_row_witness :
    wellFormed sampleDoc ∧ rowAt sampleDoc sampleDoc.cy = some (plainRow 0 "ab cd") ∧
    ∃ E', editorInsertNewline 3 sampleDoc = some E' ∧
      E'.numrows = 3 ∧
      docText E' = ["ab".toList, " cd".toList, "ef".toList] ∧ E'.cy = 1 ∧ E'.cx = 0 := by
  obtain ⟨E', h1, h2, _, h4, _, h6, h7⟩ := C2_insertNewline_splits_row 3 sampleDoc
    (plainRow 0 "ab cd") (by decide) rfl (by decide) (by decide) (by decide)
  exact ⟨by decide, rfl, E', h1, h2, h4, h6, h7⟩

/-- C3: for a document at rest and a cursor row `cy` with `0 <= cy < numrows`
(the cursor row `row` exists): on the last row `editorJoinLines` changes
nothing; otherwise it returns, the row count drops by exactly 1, row `cy` holds
`row_cy ++ " " ++ row_(cy+1)` of length `len(cy) + 1 + len(cy+1)`, and the other
rows keep their content and order. -/
theorem C3_joinLines_joins_with_space (fuel : Nat) (E : editorConfig) (row : erow)
    (hwf : wellFormed E) (hrow : rowAt E E.cy = some row) (hfuel : E.numrows < fuel) :
    (E.cy = E.numrows - 1 → editorJoinLines fuel E = some E) ∧
    (E.cy ≠ E.numrows - 1 →
      ∃ E' below, E.row[E.cy.toNat + 1]? = some below ∧
        editorJoinLines fuel E = some E' ∧
        E'.numrows = E.numrows - 1 ∧ (E'.row.length : Int) = E.row.length - 1 ∧
        docText E' = (docText E).take E.cy.toNat ++ (row.chars ++ [' '] ++ below.chars) ::
          (docText E).drop (E.cy.toNat + 2) ∧
        (row.chars ++ [' '] ++ below.chars).length
          = row.chars.length + 1 + below.chars.length) := by
  refine ⟨editorJoinLines_last fuel E, ?_⟩
  intro hne
  obtain ⟨hcy0, hcylt, _⟩ := rowAt_some E E.cy row hrow
  have hnum := hwf.1
  have hblt : E.cy.toNat + 1 < E.row.length := by omega
  obtain ⟨rows', e, t, l, _, _⟩ := editorJoinLines_spec fuel E row (E.row[E.cy.toNat + 1]) hwf
    hrow (List.getElem?_eq_getElem hblt) hfuel
  exact ⟨_, _, List.getElem?_eq_getElem hblt, e, rfl, l, t, by simp; omega⟩

/-- C3 on the sample document: row 0 is joined with row 1. -/
theorem C3_joinLines_joins_with_space_witness :
    wellFormed sampleDoc ∧ rowAt sampleDoc sampleDoc.cy = some (plainRow 0 "ab cd") ∧
    ∃ E', editorJoinLines 3 sampleDoc = some E' ∧ E'.numrows = 1 ∧
      docText E' = ["ab cd ef".toList] := by
  obtain ⟨E', below, hb, h1, h2, _, h4, _⟩ := (C3_joinLines_joins_with_space 3 sampleDoc
    (plainRow 0 "ab cd") (by decide) rfl (by decide)).2 (by decide)
  have hb' : below = plainRow 1 "ef" := (Option.some.inj hb).symm
  subst hb'
  exact ⟨by decide, rfl, E', h1, h2, h4⟩

/-- C4: `editorDelChar` on a document at rest.  With `0 < cx <= size` on a row
it removes exactly the character at raw column `cx-1` of row `cy` and moves the
cursor to `cx-1`; with `cx == 0` on a row that has a row above it, row `cy-1`
becomes `row_(cy-1) ++ row_cy` without separator, row `cy` is removed (the row
count drops by 1) and the cursor goes to `(cy-1, old length of row cy-1)`; at
`(0, 0)` and on the position after the last row nothing changes. -/
theorem C4_delChar_backspace (fuel : Nat) (E : editorConfig) (hwf : wellFormed E)
    (hfuel : E.numrows < fuel) :
    (∀ row, rowAt E E.cy = some row → 0 < E.cx → E.cx ≤ row.size →
      ∃ E', editorDelChar fuel E = some E' ∧
        docText E' = (docText E).set E.cy.toNat
          (row.chars.take (E.cx - 1).toNat ++ row.chars.drop ((E.cx - 1).toNat + 1)) ∧
        E'.numrows = E.numrows ∧ E'.row.length = E.row.length ∧
        E'.cx = E.cx - 1 ∧ E'.cy = E.cy) ∧
    (∀ row above, rowAt E E.cy = some row → rowAt E (E.cy - 1) = some above → E.cx = 0 →
      ∃ E', editorDelChar fuel E = some E' ∧
        docText E' = (docText E).take (E.cy.toNat - 1) ++ (above.chars ++ row.chars) ::
          (docText E).drop (E.cy.toNat + 1) ∧
        E'.numrows = E.numrows - 1 ∧ (E'.row.length : Int) = E.row.length - 1 ∧
        E'.cy = E.cy - 1 ∧ E'.cx = above.size) ∧
    (((E.cx = 0 ∧ E.cy = 0) ∨ E.cy = E.numrows) → editorDelChar fuel E = some E) := by
  refine ⟨?_, ?_, ?_⟩
  · intro row hrow h0 h1
    obtain ⟨rows', e, t, i, _⟩ := editorDelChar_char_spec fuel E row hwf hrow h0 h1 hfuel
    exact ⟨_, e, t, rfl, (wellFormed_of_idx E rows' hwf i).1, rfl, rfl⟩
  · intro row above hrow habove hcx
    obtain ⟨rows', e, t, l, _, _⟩ := editorDelChar_join_spec fuel E row above hwf hrow habove
      hcx hfuel
    exact ⟨_, e, t, rfl, l, rfl, rfl⟩
  · intro h
    exact editorDelChar_noop fuel E (by tauto)

/-- C4 on the sample document: backspace at column 2 of row 0 removes `b`. -/
theorem C4_delChar_backspace_witness :
    wellFormed sampleDoc ∧
    ∃ E', editorDelChar 3 sampleDoc = some E' ∧
      docText E' = ["a cd".toList, "ef".toList] ∧ E'.cx = 1 ∧ E'.cy = 0 := by
  obtain ⟨E', h1, h2, _, _, h5, h6⟩ := (C4_delChar_backspace 3 sampleDoc (by decide)
    (by decide)).1 (plainRow 0 "ab cd") rfl (by decide) (by decide)
  exact ⟨by decide, E', h1, h2, h5, h6⟩

/-- C10: if `numrows` is the row count and every row `i` carries `idx == i`,
then `editorInsertRow(at, s)` returns and `editorDelRow(at)` yields, for any
`at`, a document in which again every row `i` carries `idx == i` (the indices
are exactly `0..numrows-1`). -/
theorem C10_row_indices_contiguous (fuel : Nat) (E : editorConfig) (at_ : Int) (s : List Char)
    (hwf : wellFormed E) (hfuel : E.numrows < fuel) :
    (∃ E', editorInsertRow fuel E at_ s = some E' ∧ E'.numrows = E'.row.length ∧
      ∀ (i : Nat) (r : erow), E'.row[i]? = some r → r.idx = i) ∧
    ((editorDelRow E at_).numrows = (editorDelRow E at_).row.length ∧
      ∀ (i : Nat) (r : erow), (editorDelRow E at_).row[i]? = some r → r.idx = i) := by
  refine ⟨?_, ?_⟩
  · by_cases h : at_ < 0 ∨ at_ > E.numrows
    · exact ⟨E, editorInsertRow_out_of_range fuel E at_ s h, hwf.1,
        fun i r hr => idxOk_get _ hwf.2 i r hr⟩
    · obtain ⟨rows', e, _, l, i1, _⟩ := editorInsertRow_spec fuel E at_ s hwf (by omega)
        (by omega) hfuel
      refine ⟨_, e, ?_, fun i r hr => idxOk_get _ i1 i r hr⟩
      simp only [l, hwf.1]; push_cast; rfl
  · by_cases h : at_ < 0 ∨ at_ ≥ E.numrows
    · rw [editorDelRow_out_of_range E at_ h]
      exact ⟨hwf.1, fun i r hr => idxOk_get _ hwf.2 i r hr⟩
    · obtain ⟨rows', e, _, l, i1, _⟩ := editorDelRow_spec E at_ hwf (by omega) (by omega)
      rw [e]
      refine ⟨?_, fun i r hr => idxOk_get _ i1 i r hr⟩
      simp only [l, hwf.1]

/-- C10 on the sample document, for `at = 1`. -/
theorem C10_row_indices_contiguous_witness :
    wellFormed sampleDoc ∧
    (∃ E', editorInsertRow 3 sampleDoc 1 ['x'] = some E' ∧ E'.numrows = E'.row.length ∧
      ∀ (i : Nat) (r : erow), E'.row[i]? = some r → r.idx = i) ∧
    ((editorDelRow sampleDoc 1).numrows = (editorDelRow sampleDoc 1).row.length ∧
      ∀ (i : Nat) (r : erow), (editorDelRow sampleDoc 1).row[i]? = some r → r.idx = i) :=
  ⟨by decide, C10_row_indices_contiguous 3 sampleDoc 1 ['x'] (by decide) (by decide)⟩

/-! ## Claims on the render buffer -/

theorem cxToRx_eq_foldl (row : erow) : ∀ n : Nat, n ≤ row.chars.length →
    editorRowCxToRx row (n : Int) = (row.chars.take n).foldl (fun rx c => rxAdvance c rx) 0 := by
  intro n
  induction n with
  | zero => intro _; simpa using cxToRx_zero row
  | succ n ih =>
    intro h
    have hn : n < row.chars.length := by omega
    push_cast
    rw [cxToRx_succ, ih (by omega), List.take_succ, List.getElem?_eq_getElem hn,
      List.foldl_append, List.getD_eq_getElem _ _ hn]
    rfl

theorem tabPad_length_eq (acc : List Char) :
    ((tabPad BSE_TAB_STOP (acc ++ [' '])).length : Int) = rxAdvance '\t' (acc.length : Int) := by
  have h := tabPad_length (acc ++ [' '])
  simp only [List.length_append, List.length_cons, List.length_nil] at h
  unfold rxAdvance
  simp only [BSE_TAB_STOP, if_true] at h ⊢
  push_cast
  omega

theorem renderLoop_length_eq : ∀ (cs acc : List Char),
    ((renderLoop cs acc).length : Int)
      = cs.foldl (fun rx c => rxAdvance c rx) (acc.length : Int) := by
  intro cs
  induction cs with
  | nil => intro acc; rfl
  | cons c cs ih =>
    intro acc
    unfold renderLoop
    simp only [List.foldl_cons]
    by_cases h : c = '\t'
    · rw [if_pos h, ih, tabPad_length_eq, h]
    · rw [if_neg h, ih]
      congr 1
      simp [rxAdvance, h]

/-- C8, as the code has it: after `editorUpdateRow` the render size lies between
`size` and `size + 3 * tabs`, and it is the render column
`editorRowCxToRx(row, size)` of the end of the row (a tab fills up to the next
multiple of `BSE_TAB_STOP`, which takes between one and four columns). -/
theorem C8_rsize_bounds (fuel : Nat) (E : editorConfig) (p : Nat) (row : erow)
    (hrow : E.row[p]? = some row) (hwf : wellFormed E) (hfuel : E.numrows < fuel) :
    ∃ E' r', editorUpdateRow fuel E p = some E' ∧ E'.row[p]? = some r' ∧
      r'.chars = row.chars ∧
      r'.size ≤ r'.rsize ∧ r'.rsize ≤ r'.size + 3 * (r'.chars.count '\t' : Int) ∧
      r'.rsize = editorRowCxToRx r' r'.size := by
  obtain ⟨hnum, hidx⟩ := hwf
  obtain ⟨rows', h1, _, _, ⟨r', hr', hc, hrend⟩, _⟩ := editorUpdateRow_text fuel E p row hrow hidx
    (by omega) (by omega) (by omega)
  refine ⟨_, r', h1, hr', hc, ?_, ?_, ?_⟩
  · have := (renderLoop_length row.chars []).1
    simp only [erow.size, erow.rsize, hc, hrend]
    simp only [List.length_nil] at this
    omega
  · have := (renderLoop_length row.chars []).2
    simp only [erow.size, erow.rsize, hc, hrend, ← countTabs_eq_count]
    simp only [List.length_nil] at this
    omega
  · simp only [erow.size, erow.rsize]
    rw [cxToRx_eq_foldl r' r'.chars.length (le_refl _), List.take_length, hrend,
      renderLoop_length_eq, hc]
    rfl

/-- C8, as the code has it, on the row `a\t`. -/
theorem C8_rsize_bounds_witness :
    wellFormed tabDoc ∧
    ∃ E' r', editorUpdateRow 2 tabDoc 0 = some E' ∧ E'.row[0]? = some r' ∧
      r'.chars = ['a', '\t'] ∧
      r'.size ≤ r'.rsize ∧ r'.rsize ≤ r'.size + 3 * (r'.chars.count '\t' : Int) ∧
      r'.rsize = editorRowCxToRx r' r'.size :=
  ⟨by decide, C8_rsize_bounds 2 tabDoc 0 _ rfl (by decide) (by decide)⟩

/-- C8 as stated fails: re-deriving the row `"a\t"` gives `rsize = 4`, while
`size + 3 * tabs = 2 + 3 * 1 = 5`. -/
theorem C8_rsize_counterexample :
    ∃ E' r', editorUpdateRow 2 tabDoc 0 = some E' ∧ E'.row[0]? = some r' ∧
      r'.size = 2 ∧ r'.chars.count '\t' = 1 ∧ r'.rsize = 4 ∧
      r'.rsize ≠ r'.size + 3 * (r'.chars.count '\t' : Int) :=
  ⟨{ tabDoc with
      row := [{ idx := 0, chars := ['a', '\t'], render := ['a', ' ', ' ', ' '],
                hl := [HL_NORMAL, HL_NORMAL, HL_NORMAL, HL_NORMAL],
                hl_open_comment := false }] },
   { idx := 0, chars := ['a', '\t'], render := ['a', ' ', ' ', ' '],
     hl := [HL_NORMAL, HL_NORMAL, HL_NORMAL, HL_NORMAL], hl_open_comment := false },
   by rfl, by rfl, by decide, by decide, by decide, by decide⟩

/-! ## Claims on the serialisation -/

theorem rowsToString_buf_foldl (rows : List erow) : ∀ acc : List Char,
    rows.foldl (fun buf r => buf ++ r.chars ++ ['\n']) acc
      = acc ++ (rows.map (fun r => r.chars ++ ['\n'])).flatten := by
  induction rows with
  | nil => intro acc; simp
  | cons r rs ih =>
    intro acc
    simp only [List.foldl_cons, List.map_cons, List.flatten_cons]
    rw [ih]
    simp only [List.append_assoc]

theorem rowsToString_len_foldl (rows : List erow) : ∀ acc : Int,
    rows.foldl (fun totlen r => totlen + r.size + 1) acc
      = acc + (rows.map (fun r => r.size + 1)).sum := by
  induction rows with
  | nil => intro acc; simp
  | cons r rs ih => intro acc; simp [ih]; ring

theorem splitAtNewlineLoop_cons (cur : List Char) (c : Char) (cs : List Char) :
    splitAtNewlineLoop cur (c :: cs)
      = if c = '\n' then cur :: splitAtNewlineLoop [] cs
        else splitAtNewlineLoop (cur ++ [c]) cs := rfl

theorem splitAtNewlineLoop_line (l : List Char) (hl : '\n' ∉ l) : ∀ (cur rest : List Char),
    splitAtNewlineLoop cur (l ++ '\n' :: rest) = (cur ++ l) :: splitAtNewlineLoop [] rest := by
  induction l with
  | nil => intro cur rest; simp [splitAtNewlineLoop_cons]
  | cons c cs ih =>
    intro cur rest
    have hc : c ≠ '\n' := fun h => hl (by simp [h])
    have hcs : '\n' ∉ cs := fun h => hl (by simp [h])
    rw [List.cons_append, splitAtNewlineLoop_cons, if_neg hc, ih hcs]
    simp

theorem splitAtNewline_join (ls : List (List Char)) (h : ∀ l ∈ ls, '\n' ∉ l) :
    splitAtNewlineLoop [] (ls.map (fun l => l ++ ['\n'])).flatten = ls := by
  induction ls with
  | nil => simp [splitAtNewlineLoop]
  | cons l ls ih =>
    simp only [List.map_cons, List.flatten_cons, List.append_assoc, List.singleton_append]
    rw [splitAtNewlineLoop_line l (h l (by simp)), ih (fun l' hl' => h l' (by simp [hl']))]
    simp

/-- C5: `editorRowsToString` returns the concatenation, in row order, of each
row's raw characters followed by exactly one `'\n'`, and reports the sum over
the rows of `size + 1` as length (which is the length of the buffer); for rows
without `'\n'`, splitting the buffer at `'\n'` gives back the row sequence. -/
theorem C5_rowsToString_lines (E : editorConfig) (hn : E.numrows = E.row.length) :
    (editorRowsToString E).1 = (E.row.map (fun r => r.chars ++ ['\n'])).flatten ∧
    (editorRowsToString E).2 = (E.row.map (fun r => r.size + 1)).sum ∧
    (editorRowsToString E).2 = (editorRowsToString E).1.length ∧
    ((∀ r ∈ E.row, '\n' ∉ r.chars) → splitAtNewline (editorRowsToString E).1 = docText E) := by
  have htake : E.row.take E.numrows.toNat = E.row := by
    rw [hn]; simp
  have h1 : (editorRowsToString E).1 = (E.row.map (fun r => r.chars ++ ['\n'])).flatten := by
    unfold editorRowsToString
    simp only [htake, rowsToString_buf_foldl, List.nil_append]
  have h2 : (editorRowsToString E).2 = (E.row.map (fun r => r.size + 1)).sum := by
    unfold editorRowsToString
    simp only [htake, rowsToString_len_foldl, zero_add]
  refine ⟨h1, h2, ?_, ?_⟩
  · rw [h1, h2]
    generalize E.row = rows
    induction rows with
    | nil => simp
    | cons r rs ih => simp [ih, erow.size]; ring
  · intro hno
    rw [h1]
    unfold splitAtNewline docText
    have := splitAtNewline_join (E.row.map (fun r => r.chars))
      (by
        intro l hl
        rw [List.mem_map] at hl
        obtain ⟨r, hr, rfl⟩ := hl
        exact hno r hr)
    rw [List.map_map] at this
    exact this

/-- C5 on the sample document: the buffer is `ab cd\nef\n` of length 9. -/
theorem C5_rowsToString_lines_witness :
    sampleDoc.numrows = sampleDoc.row.length ∧
    (editorRowsToString sampleDoc).1 = "ab cd\nef\n".toList ∧
    (editorRowsToString sampleDoc).2 = 9 ∧
    splitAtNewline (editorRowsToString sampleDoc).1 = ["ab cd".toList, "ef".toList] := by
  obtain ⟨h1, h2, _, h4⟩ := C5_rowsToString_lines sampleDoc (by decide)
  refine ⟨by decide, ?_, ?_, ?_⟩
  · rw [h1]; decide
  · rw [h2]; decide
  · rw [h4 (by decide)]; decide

/-! ## Claims on the invariants of the row store -/

theorem cursorOnRow_some (E : editorConfig) (cx cy : Int) (h : cursorOnRow E cx cy = true) :
    ∃ row, rowAt E cy = some row ∧ 0 ≤ cx ∧ cx ≤ row.size := by
  unfold cursorOnRow at h
  cases hr : rowAt E cy with
  | none => rw [hr] at h; cases h
  | some row => rw [hr] at h; exact ⟨row, rfl, of_decide_eq_true h⟩

theorem wellFormed_congr (E E' : editorConfig) (hwf : wellFormed E)
    (hn : E'.numrows = E.numrows)
    (h : E'.row.map (fun r => r.idx) = E.row.map (fun r => r.idx)) : wellFormed E' := by
  obtain ⟨h1, h2⟩ := wellFormed_of_idx E E'.row hwf h
  exact ⟨by rw [hn, h1]; exact hwf.1, h2⟩

/-- Every in-bounds call of an edit operation on a document at rest returns a
document at rest, with at most one row more. -/
theorem applyOp_inv (fuel : Nat) (E : editorConfig) (op : editOp) (hwf : wellFormed E)
    (hok : rowsOk E.row) (hb : opInBounds E op = true) (hfuel : E.numrows < fuel) :
    ∃ E', applyOp fuel E op = some E' ∧ wellFormed E' ∧ rowsOk E'.row ∧
      E'.numrows ≤ E.numrows + 1 := by
  have hnum := hwf.1
  cases op with
  | insertRow at_ s =>
    by_cases h : at_ < 0 ∨ at_ > E.numrows
    · exact ⟨E, editorInsertRow_out_of_range fuel E at_ s h, hwf, hok, by omega⟩
    · obtain ⟨rows', e, _, l, i1, ok1⟩ := editorInsertRow_spec fuel E at_ s hwf (by omega)
        (by omega) hfuel
      exact ⟨_, e, ⟨by simp only [l, hnum]; push_cast; rfl, i1⟩, ok1 hok, le_refl _⟩
  | delRow at_ =>
    by_cases h : at_ < 0 ∨ at_ ≥ E.numrows
    · refine ⟨editorDelRow E at_, rfl, ?_⟩
      rw [editorDelRow_out_of_range E at_ h]
      exact ⟨hwf, hok, by omega⟩
    · obtain ⟨rows', e, _, l, i1, ok1⟩ := editorDelRow_spec E at_ hwf (by omega) (by omega)
      refine ⟨editorDelRow E at_, rfl, ?_⟩
      rw [e]
      exact ⟨⟨by simp only [l, hnum], i1⟩, ok1 hok, by simp only []; omega⟩
  | rowInsertChar p at_ c =>
    have hp : p < E.row.length := of_decide_eq_true hb
    obtain ⟨rows', e, _, i1, ok1⟩ := editorRowInsertChar_spec fuel E p _ at_ c
      (List.getElem?_eq_getElem hp) hwf hfuel
    exact ⟨_, e, wellFormed_step E rows' _ hwf i1, ok1 hok, by simp only []; omega⟩
  | rowDelChar p at_ =>
    have hp : p < E.row.length := of_decide_eq_true hb
    by_cases h : at_ < 0 ∨ at_ ≥ (E.row[p]).size
    · exact ⟨E, editorRowDelChar_out_of_range fuel E p _ at_ (List.getElem?_eq_getElem hp) h,
        hwf, hok, by omega⟩
    · obtain ⟨rows', e, _, i1, ok1⟩ := editorRowDelChar_spec fuel E p _ at_
        (List.getElem?_eq_getElem hp) hwf (by omega) (by omega) hfuel
      exact ⟨_, e, wellFormed_step E rows' _ hwf i1, ok1 hok, by simp only []; omega⟩
  | rowAppendString p s =>
    have hp : p < E.row.length := of_decide_eq_true hb
    obtain ⟨rows', e, _, i1, ok1⟩ := editorRowAppendString_spec fuel E p _ s
      (List.getElem?_eq_getElem hp) hwf hfuel
    exact ⟨_, e, wellFormed_step E rows' _ hwf i1, ok1 hok, by simp only []; omega⟩
  | insertNewline cx cy =>
    have hwf0 : wellFormed { E with cx := cx, cy := cy } := hwf
    simp only [opInBounds, Bool.or_eq_true, decide_eq_true_eq] at hb
    rcases hb with hb | ⟨hcy, hcx⟩
    · obtain ⟨row, hrow, h0, h1⟩ := cursorOnRow_some E cx cy hb
      obtain ⟨rows', e, _, l, i1, ok1⟩ := editorInsertNewline_spec fuel
        { E with cx := cx, cy := cy } row hwf0 hrow h0 h1 hfuel
      exact ⟨_, e, ⟨by simp only [l, hnum]; push_cast; rfl, i1⟩, ok1 hok, le_refl _⟩
    · obtain ⟨rows', e, _, l, i1, ok1⟩ := editorInsertRow_spec fuel
        { E with cx := cx, cy := cy } cy [] hwf0 (by omega) (by simp only []; omega) hfuel
      have e' : editorInsertNewline fuel { E with cx := cx, cy := cy }
          = some { E with row := rows', numrows := E.numrows + 1, dirty := E.dirty + 1,
                          cy := cy + 1, cx := 0 } := by
        unfold editorInsertNewline
        rw [if_pos hcx, e]
      exact ⟨_, e', ⟨by simp only [l, hnum]; push_cast; rfl, i1⟩, ok1 hok, le_refl _⟩
  | joinLines cx cy =>
    have hwf0 : wellFormed { E with cx := cx, cy := cy } := hwf
    obtain ⟨row, hrow, _, _⟩ := cursorOnRow_some E cx cy hb
    obtain ⟨hcy0, hcylt, _⟩ := rowAt_some E cy row hrow
    by_cases hlast : cy = E.numrows - 1
    · exact ⟨_, editorJoinLines_last fuel { E with cx := cx, cy := cy } hlast, hwf0, hok,
        by simp only []; omega⟩
    · have hblt : cy.toNat + 1 < E.row.length := by omega
      obtain ⟨rows', e, _, l, i1, ok1⟩ := editorJoinLines_spec fuel
        { E with cx := cx, cy := cy } row (E.row[cy.toNat + 1]) hwf0 hrow
        (List.getElem?_eq_getElem hblt) hfuel
      exact ⟨_, e, ⟨by simp only [l, hnum], i1⟩, ok1 hok, by simp only []; omega⟩
  | delChar cx cy =>
    have hwf0 : wellFormed { E with cx := cx, cy := cy } := hwf
    simp only [opInBounds, Bool.or_eq_true, decide_eq_true_eq] at hb
    rcases hb with hb | hcy
    · obtain ⟨row, hrow, h0, h1⟩ := cursorOnRow_some E cx cy hb
      obtain ⟨hcy0, hcylt, _⟩ := rowAt_some E cy row hrow
      by_cases hpos : 0 < cx
      · obtain ⟨rows', e, _, i1, ok1⟩ := editorDelChar_char_spec fuel
          { E with cx := cx, cy := cy } row hwf0 hrow hpos h1 hfuel
        exact ⟨_, e, wellFormed_congr _ _ hwf0 rfl i1, ok1 hok, by simp only []; omega⟩
      · have hcx : cx = 0 := by omega
        by_cases hcyz : cy = 0
        · exact ⟨_, editorDelChar_noop fuel { E with cx := cx, cy := cy }
            (Or.inr ⟨hcx, hcyz⟩), hwf0, hok, by simp only []; omega⟩
        · have halt : (cy - 1).toNat < E.row.length := by omega
          have habove : rowAt { E with cx := cx, cy := cy } (cy - 1)
              = some (E.row[(cy - 1).toNat]) := by
            unfold rowAt
            rw [if_neg (by omega)]
            exact List.getElem?_eq_getElem halt
          obtain ⟨rows', e, _, l, i1, ok1⟩ := editorDelChar_join_spec fuel
            { E with cx := cx, cy := cy } row _ hwf0 hrow habove hcx hfuel
          exact ⟨_, e, ⟨by simp only [l, hnum], i1⟩, ok1 hok, by simp only []; omega⟩
    · exact ⟨_, editorDelChar_noop fuel { E with cx := cx, cy := cy } (Or.inl hcy), hwf0, hok,
        by simp only []; omega⟩

theorem runOps_inv (fuel : Nat) : ∀ (ops : List editOp) (E : editorConfig),
    wellFormed E → rowsOk E.row → opsInBounds fuel ops E = true →
    E.numrows + ops.length < fuel →
    ∃ E', runOps fuel ops E = some E' ∧ wellFormed E' ∧ rowsOk E'.row := by
  intro ops
  induction ops with
  | nil => intro E hwf hok _ _; exact ⟨E, rfl, hwf, hok⟩
  | cons op ops ih =>
    intro E hwf hok hb hfuel
    have hnum := hwf.1
    simp only [List.length_cons] at hfuel
    simp only [opsInBounds, Bool.and_eq_true] at hb
    obtain ⟨E1, e1, hwf1, hok1, hn1⟩ := applyOp_inv fuel E op hwf hok hb.1 (by omega)
    have hb2 := hb.2
    rw [e1] at hb2
    obtain ⟨E', e', hwf', hok'⟩ := ih E1 hwf1 hok1 hb2 (by push_cast at hfuel ⊢; omega)
    exact ⟨E', by simp only [runOps, e1, e'], hwf', hok'⟩

/-- C9: starting from the empty document, every sequence of calls of
`editorInsertRow`, `editorDelRow`, `editorRowInsertChar`, `editorRowDelChar`,
`editorRowAppendString`, `editorInsertNewline`, `editorJoinLines` and
`editorDelChar` with in-bounds cursors returns, and in the resulting document
every row satisfies `rsize >= size` and has a highlight array of length exactly
`rsize`. -/
theorem C9_rows_at_rest (fuel : Nat) (E0 : editorConfig) (ops : List editOp)
    (hrow : E0.row = []) (hnum : E0.numrows = 0) (hb : opsInBounds fuel ops E0 = true)
    (hfuel : ops.length < fuel) :
    ∃ E', runOps fuel ops E0 = some E' ∧
      ∀ r ∈ E'.row, r.rsize ≥ r.size ∧ (r.hl.length : Int) = r.rsize := by
  have hwf : wellFormed E0 := ⟨by rw [hnum, hrow]; rfl, by rw [hrow]; decide⟩
  have hok : rowsOk E0.row := by rw [hrow]; intro r hr; cases hr
  obtain ⟨E', e, _, hok'⟩ := runOps_inv fuel ops E0 hwf hok hb (by rw [hnum]; omega)
  refine ⟨E', e, ?_⟩
  intro r hr
  have := hok' r hr
  unfold rowOk at this
  simp only [erow.size, erow.rsize]
  omega

/-- C9 on a sequence of ten calls from the empty document. -/
theorem C9_rows_at_rest_witness :
    emptyDoc.row = [] ∧ emptyDoc.numrows = 0 ∧ opsInBounds 11 sampleOps emptyDoc = true ∧
    ∃ E', runOps 11 sampleOps emptyDoc = some E' ∧
      ∀ r ∈ E'.row, r.rsize ≥ r.size ∧ (r.hl.length : Int) = r.rsize :=
  ⟨rfl, rfl, by decide,
   C9_rows_at_rest 11 emptyDoc sampleOps rfl rfl (by decide) (by decide)⟩

/-! ## Claims on out-of-range arguments -/

/-- C11, as the code has it: for `0 <= at <= numrows`, `editorInsertRow(at,
content)` returns and inserts a new row holding `content` at position `at` (row
count +1, rows before `at` unchanged, later rows shifted by one, dirty counter
+1); for `at < 0` and `at > numrows` the guard at the top returns at once and
the document, the row count and the dirty counter stay as they are. -/
theorem C11_insertRow_in_range_or_noop (fuel : Nat) (E : editorConfig) (at_ : Int)
    (s : List Char) (hwf : wellFormed E) (hfuel : E.numrows < fuel) :
    (0 ≤ at_ ∧ at_ ≤ E.numrows →
      ∃ E', editorInsertRow fuel E at_ s = some E' ∧
        E'.numrows = E.numrows + 1 ∧ E'.row.length = E.row.length + 1 ∧
        docText E' = (docText E).take at_.toNat ++ s :: (docText E).drop at_.toNat ∧
        E'.dirty = E.dirty + 1) ∧
    (at_ < 0 ∨ at_ > E.numrows → editorInsertRow fuel E at_ s = some E) := by
  refine ⟨?_, editorInsertRow_out_of_range fuel E at_ s⟩
  intro h
  obtain ⟨rows', e, t, l, _, _⟩ := editorInsertRow_spec fuel E at_ s hwf h.1 h.2 hfuel
  exact ⟨_, e, rfl, l, t, rfl⟩

/-- C11 on the sample document: a row inserted at position 1. -/
theorem C11_insertRow_in_range_or_noop_witness :
    wellFormed sampleDoc ∧
    ∃ E', editorInsertRow 3 sampleDoc 1 ['x'] = some E' ∧ E'.numrows = 3 ∧
      docText E' = ["ab cd".toList, ['x'], "ef".toList] ∧ E'.dirty = 1 := by
  obtain ⟨E', h1, h2, _, h4, h5⟩ := (C11_insertRow_in_range_or_noop 3 sampleDoc 1 ['x']
    (by decide) (by decide)).1 (by decide)
  exact ⟨by decide, E', h1, h2, h4, h5⟩

/-- C11 as stated fails: `editorInsertRow(-1, "x")` and `editorInsertRow(5, "x")`
on the two-row sample document insert nothing, where the claim has a row
inserted at the clamped positions 0 and 2. -/
theorem C11_insertRow_counterexample :
    editorInsertRow 3 sampleDoc (-1) ['x'] = some sampleDoc ∧
    editorInsertRow 3 sampleDoc 5 ['x'] = some sampleDoc ∧
    sampleDoc.numrows ≠ sampleDoc.numrows + 1 ∧
    docText sampleDoc ≠ ['x'] :: docText sampleDoc :=
  ⟨rfl, rfl, by decide, by decide⟩

/-- C12, as the code has it: `editorRowInsertChar(row, at, ch)` returns and
yields `chars[:p] ++ [ch] ++ chars[p:]` with `p = at` for `0 <= at <= row.size`
and `p = row.size` for every other `at` (also for `at < 0`); the size grows by
exactly 1 and the dirty counter by 1. -/
theorem C12_rowInsertChar_position (fuel : Nat) (E : editorConfig) (p : Nat) (row : erow)
    (at_ : Int) (c : Char) (hwf : wellFormed E) (hrow : E.row[p]? = some row)
    (hfuel : E.numrows < fuel) :
    ∃ E' row', editorRowInsertChar fuel E p at_ c = some E' ∧ E'.row[p]? = some row' ∧
      row'.chars = row.chars.take (if 0 ≤ at_ ∧ at_ ≤ row.size then at_ else row.size).toNat ++
        c :: row.chars.drop (if 0 ≤ at_ ∧ at_ ≤ row.size then at_ else row.size).toNat ∧
      row'.size = row.size + 1 ∧ E'.dirty = E.dirty + 1 ∧
      docText E' = (docText E).set p row'.chars := by
  have hp : p < E.row.length := by
    by_contra hc
    rw [List.getElem?_eq_none (by omega)] at hrow
    cases hrow
  obtain ⟨rows', e, t, _, _⟩ := editorRowInsertChar_spec fuel E p row at_ c hrow hwf hfuel
  have hif : (if at_ < 0 ∨ at_ > row.size then row.size else at_)
      = (if 0 ≤ at_ ∧ at_ ≤ row.size then at_ else row.size) := by
    split_ifs <;> first | rfl | omega
  rw [hif] at t
  have hget : (rows'.map (fun r => r.chars))[p]? = some
      (row.chars.take (if 0 ≤ at_ ∧ at_ ≤ row.size then at_ else row.size).toNat ++
        c :: row.chars.drop (if 0 ≤ at_ ∧ at_ ≤ row.size then at_ else row.size).toNat) := by
    rw [t, List.getElem?_set, if_pos rfl, if_pos (by simpa using hp)]
  obtain ⟨row', hrow', hc⟩ := map_chars_getElem? rows' p _ hget
  refine ⟨_, row', e, hrow', hc, ?_, rfl, ?_⟩
  · have hle : (if 0 ≤ at_ ∧ at_ ≤ row.size then at_ else row.size).toNat ≤ row.chars.length := by
      simp only [erow.size]
      split_ifs with h
      · have := h.2; simp only [erow.size] at this; omega
      · omega
    simp only [erow.size, hc, List.length_append, List.length_take, List.length_cons,
      List.length_drop]
    omega
  · show rows'.map (fun r => r.chars) = _
    rw [t, hc]
    rfl

/-- C12 on the sample document: `x` inserted at column 2 of row 0. -/
theorem C12_rowInsertChar_position_witness :
    wellFormed sampleDoc ∧
    ∃ E' row', editorRowInsertChar 3 sampleDoc 0 2 'x' = some E' ∧ E'.row[0]? = some row' ∧
      row'.chars = "abx cd".toList ∧ row'.size = 6 ∧ E'.dirty = 1 := by
  obtain ⟨E', row', h1, h2, h3, h4, h5, _⟩ := C12_rowInsertChar_position 3 sampleDoc 0
    (plainRow 0 "ab cd") 2 'x' (by decide) rfl (by decide)
  exact ⟨by decide, E', row', h1, h2, h3, h4, h5⟩

/-- C12 as stated fails: with `at = -1` on the row `ab cd` the character goes
to the end of the row (`p = size`), where the claim has it at
`p = min(max(at, 0), size) = 0`. -/
theorem C12_rowInsertChar_counterexample :
    (editorRowInsertChar 3 sampleDoc 0 (-1) 'x').map docText
      = some ["ab cdx".toList, "ef".toList] ∧
    (editorRowInsertChar 3 sampleDoc 0 (-1) 'x').map docText
      ≠ some ["xab cd".toList, "ef".toList] :=
  ⟨by decide, by decide⟩

/-- C13: for a document whose `numrows` is its row count: with
`0 <= at < numrows`, `editorDelRow(at)` yields the row sequence without the row
at position `at` (the other rows keep raw content and order), `numrows`
decreases by 1 and `dirty` increases by 1; for every other `at` the whole state
is unchanged. -/
theorem C13_delRow_in_range_or_noop (E : editorConfig) (at_ : Int)
    (hn : E.numrows = E.row.length) :
    (0 ≤ at_ ∧ at_ < E.numrows →
      docText (editorDelRow E at_)
        = (docText E).take at_.toNat ++ (docText E).drop (at_.toNat + 1) ∧
      ((editorDelRow E at_).row.length : Int) = E.row.length - 1 ∧
      (editorDelRow E at_).numrows = E.numrows - 1 ∧
      (editorDelRow E at_).dirty = E.dirty + 1) ∧
    (at_ < 0 ∨ at_ ≥ E.numrows → editorDelRow E at_ = E) := by
  refine ⟨?_, editorDelRow_out_of_range E at_⟩
  intro h
  have ha : at_.toNat < E.row.length := by omega
  unfold editorDelRow
  rw [if_neg (by omega)]
  refine ⟨?_, ?_, rfl, rfl⟩
  · simp [docText, List.map_take, List.map_drop, List.map_map, Function.comp_def]
  · simp only [List.length_append, List.length_map, List.length_drop,
      List.length_take_of_le (le_of_lt ha)]
    omega

/-- C13 on the sample document: row 0 removed. -/
theorem C13_delRow_in_range_or_noop_witness :
    sampleDoc.numrows = sampleDoc.row.length ∧
    docText (editorDelRow sampleDoc 0) = ["ef".toList] ∧
    (editorDelRow sampleDoc 0).numrows = 1 ∧ (editorDelRow sampleDoc 0).dirty = 1 ∧
    editorDelRow sampleDoc 2 = sampleDoc := by
  obtain ⟨h1, h2⟩ := C13_delRow_in_range_or_noop sampleDoc 0 (by decide)
  obtain ⟨a, _, c, d⟩ := h1 (by decide)
  exact ⟨by decide, a, c, d,
    (C13_delRow_in_range_or_noop sampleDoc 2 (by decide)).2 (by decide)⟩

/-! ## Claims on the highlighter -/

/-- C14: with a syntax whose multiline comment ends with `*/` active, for every
row without tab characters whose predecessor row has its open-comment flag set
and whose text does not contain `*/`, the highlighter classifies every render
character as multiline comment and leaves the row's own open-comment flag set;
and when the rows `/* start`, `plain text with if and "str"`, `end */` are
loaded in order with the C syntax, row 1 is entirely multiline comment. -/
theorem C14_multiline_comment_row (fuel : Nat) (E : editorConfig) (p : Nat) (row prev : erow)
    (syn : editorSyntax) (hwf : wellFormed E) (hsyn : E.syntax_ = some syn)
    (hmcs : syn.multiline_comment_start.length ≠ 0)
    (hmce : syn.multiline_comment_end = "*/".toList)
    (hprev : E.row[p]? = some prev) (hflag : prev.hl_open_comment = true)
    (hrow : E.row[p + 1]? = some row) (htab : '\t' ∉ row.chars)
    (hno : ¬ "*/".toList <:+: row.chars) (hfuel : E.numrows < fuel) :
    (∃ E' row', editorUpdateRow fuel E (p + 1) = some E' ∧ E'.row[p + 1]? = some row' ∧
      row'.chars = row.chars ∧ row'.render = row.chars ∧
      row'.hl = List.replicate row'.render.length HL_MLCOMMENT ∧
      row'.hl_open_comment = true) ∧
    (∃ E' r1, editorOpenLoop 4 ["/* start".toList, "plain text with if and \"str\"".toList,
        "end */".toList] emptyDoc = some E' ∧ E'.row[1]? = some r1 ∧
      r1.render = "plain text with if and \"str\"".toList ∧
      r1.hl = List.replicate r1.render.length HL_MLCOMMENT) := by
  refine ⟨?_, ?_⟩
  · obtain ⟨E', st, e, hst, hr⟩ := editorUpdateRow_scan fuel E (p + 1) row syn hwf hrow hsyn hfuel
    have hrender : renderLoop row.chars [] = row.chars := by
      rw [renderLoop_noTabs _ _ htab]; rfl
    have hseed : seedComment E (p + 1) = true := by
      unfold seedComment
      simp only [hprev, hflag]
    rw [hseed, hrender] at hst
    rw [hrender] at hr
    obtain ⟨h1, h2⟩ := scanRow_in_comment syn { row with render := row.chars } st hmcs
      (by rw [hmce]; decide) (by rw [hmce]; decide) rfl (by rw [hmce]; exact hno) hst
    exact ⟨E', _, e, hr, rfl, rfl, h1, h2⟩
  · have h : (editorOpenLoop 4 ["/* start".toList, "plain text with if and \"str\"".toList,
        "end */".toList] emptyDoc).isSome = true := by decide
    obtain ⟨E', hE'⟩ := Option.isSome_iff_exists.1 h
    have h1 : ((editorOpenLoop 4 ["/* start".toList,
        "plain text with if and \"str\"".toList, "end */".toList] emptyDoc).bind
        (fun E' => E'.row[1]?)).map (fun r => (r.render, r.hl))
        = some ("plain text with if and \"str\"".toList,
            List.replicate 28 HL_MLCOMMENT) := by decide
    rw [hE'] at h1
    simp only [Option.bind] at h1
    cases hr : E'.row[1]? with
    | none => rw [hr] at h1; cases h1
    | some r1 =>
      rw [hr] at h1
      simp only [Option.map, Option.some.injEq, Prod.mk.injEq] at h1
      exact ⟨E', r1, hE', hr, h1.1, by rw [h1.2, h1.1]; rfl⟩

/-- C14 on three rows at rest: row 1 follows a row that ends inside a comment. -/
theorem C14_multiline_comment_row_witness :
    wellFormed commentDoc ∧ '\t' ∉ "if x".toList ∧ ¬ "*/".toList <:+: "if x".toList ∧
    ∃ E' row', editorUpdateRow 4 commentDoc 1 = some E' ∧ E'.row[1]? = some row' ∧
      row'.chars = "if x".toList ∧ row'.render = "if x".toList ∧
      row'.hl = List.replicate row'.render.length HL_MLCOMMENT ∧
      row'.hl_open_comment = true :=
  ⟨by decide, by decide, by decide,
   (C14_multiline_comment_row 4 commentDoc 0 (plainRow 1 "if x")
     { plainRow 0 "/* start" with hl_open_comment := true } _ (by decide) rfl (by decide) rfl
     rfl rfl rfl (by decide) (by decide) (by decide)).1⟩

/-- C15: with a built-in syntax active (number highlighting is enabled in all of
them) and the row not starting inside a comment: for every row of decimal
digits and `.` characters whose first character is a digit, every character is
classified as number; for every row of one alphabetic letter followed only by
decimal digits, no character is classified as number. -/
theorem C15_number_highlighting (fuel : Nat) (E : editorConfig) (p : Nat) (row : erow)
    (syn : editorSyntax) (hwf : wellFormed E) (hsyn : E.syntax_ = some syn)
    (hdb : syn ∈ HLDB) (hrow : E.row[p]? = some row) (hseed : seedComment E p = false)
    (hfuel : E.numrows < fuel) :
    syn.flags &&& HL_HIGHLIGHT_NUMBERS ≠ 0 ∧
    ((∀ c ∈ row.chars, isdigit c = true ∨ c = '.') →
      (∀ c, row.chars.head? = some c → isdigit c = true) →
      ∃ E' row', editorUpdateRow fuel E p = some E' ∧ E'.row[p]? = some row' ∧
        row'.render = row.chars ∧
        row'.hl = List.replicate row.chars.length HL_NUMBER) ∧
    (∀ a ds, row.chars = a :: ds → isalpha a = true → (∀ c ∈ ds, isdigit c = true) →
      ∃ E' row', editorUpdateRow fuel E p = some E' ∧ E'.row[p]? = some row' ∧
        row'.render = row.chars ∧ row'.hl.length = row.chars.length ∧
        ∀ h ∈ row'.hl, h ≠ HL_NUMBER) := by
  obtain ⟨E', st, e, hst, hr⟩ := editorUpdateRow_scan fuel E p row syn hwf hrow hsyn hfuel
  rw [hseed] at hst
  refine ⟨by rw [(HLDB_tokens syn hdb).2.2.2.1]; decide, ?_, ?_⟩
  · intro hall hfirst
    have htab : '\t' ∉ row.chars := by
      intro hm
      rcases hall _ hm with h | h
      · revert h; decide
      · revert h; decide
    have hrender : renderLoop row.chars [] = row.chars := by
      rw [renderLoop_noTabs _ _ htab]; rfl
    rw [hrender] at hst hr
    have := scanRow_number syn { row with render := row.chars } st hdb rfl hall hfirst hst
    exact ⟨E', _, e, hr, rfl, this⟩
  · intro a ds hchars ha hds
    have htab : '\t' ∉ row.chars := by
      intro hm
      rw [hchars, List.mem_cons] at hm
      rcases hm with h | h
      · rw [← h] at ha; revert ha; decide
      · have := hds _ h; revert this; decide
    have hrender : renderLoop row.chars [] = row.chars := by
      rw [renderLoop_noTabs _ _ htab]; rfl
    rw [hrender] at hst hr
    have := scanRow_letter_digits syn { row with render := row.chars } st hdb rfl a ds hchars
      ha hds hst
    refine ⟨E', _, e, hr, rfl, by simp only [this, List.length_replicate], ?_⟩
    intro h hh
    simp only [this] at hh
    rw [List.eq_of_mem_replicate hh]
    decide

/-- C15 on the rows `12.5` and `a12`. -/
theorem C15_number_highlighting_witness :
    wellFormed numberDoc ∧
    (∃ E' row', editorUpdateRow 3 numberDoc 0 = some E' ∧ E'.row[0]? = some row' ∧
      row'.render = "12.5".toList ∧ row'.hl = List.replicate 4 HL_NUMBER) ∧
    (∃ E' row', editorUpdateRow 3 numberDoc 1 = some E' ∧ E'.row[1]? = some row' ∧
      row'.render = "a12".toList ∧ row'.hl.length = 3 ∧ ∀ h ∈ row'.hl, h ≠ HL_NUMBER) :=
  ⟨by decide,
   (C15_number_highlighting 3 numberDoc 0 (plainRow 0 "12.5") _ (by decide) rfl
     (List.getElem?_mem (show HLDB[0]? = some _ from rfl)) rfl (by decide) (by decide)).2.1 (by decide) (by decide),
   (C15_number_highlighting 3 numberDoc 1 (plainRow 1 "a12") _ (by decide) rfl
     (List.getElem?_mem (show HLDB[0]? = some _ from rfl)) rfl (by decide) (by decide)).2.2 'a' "12".toList rfl (by decide) (by decide)⟩

/-! ## /-! ## Backward word motion -/ -/

theorem getCharType_space (c : Char) : getCharType c ≠ CHAR_SPACE ↔ isspace c = false := by
  unfold getCharType
  split_ifs with h1 h2 <;> simp [h1]

theorem getCharType_nonneg (c : Char) : getCharType c ≥ 0 := by
  unfold getCharType
  split_ifs <;> decide

theorem lastTokenStart_le (chars : List Char) (j : Nat) : lastTokenStart chars j ≤ j := by
  induction j with
  | zero => simp [lastTokenStart]
  | succ j ih =>
    unfold lastTokenStart
    split_ifs
    · exact le_refl _
    · omega

theorem lastTokenStart_start (chars : List Char) (h0 : tokenStart chars 0 = true) (j : Nat) :
    tokenStart chars (lastTokenStart chars j) = true := by
  induction j with
  | zero => simpa [lastTokenStart] using h0
  | succ j ih =>
    unfold lastTokenStart
    split_ifs with h
    · exact h
    · exact ih

theorem lastTokenStart_max (chars : List Char) (j q : Nat) (hq : q ≤ j)
    (hs : tokenStart chars q = true) : q ≤ lastTokenStart chars j := by
  induction j with
  | zero => omega
  | succ j ih =>
    unfold lastTokenStart
    split_ifs with h
    · exact hq
    · rcases Nat.lt_or_ge q (j + 1) with hlt | hge
      · exact ih (by omega)
      · have : q = j + 1 := by omega
        subst this
        exact absurd hs h

/-- With `was_on_first_letter` decided and one more class change needed, the
visit of column `j` leaves the loop exactly at a token start, and otherwise
keeps the counters. -/
theorem wordBackwardVisit_decided (row : erow) (j : Nat) (hj : j < row.chars.length)
    (lb w : Int) (hw : w = 0 ∨ w = 1) :
    (wordBackwardVisit row (j : Int) (getCharType (row.chars.getD j '\x00'))
        { lookbehind_type := lb, num_type_changes := w, was_on_first_letter := w }).2
      = tokenStart row.chars j ∧
    (tokenStart row.chars j = false →
      ∃ lb', (wordBackwardVisit row (j : Int) (getCharType (row.chars.getD j '\x00'))
        { lookbehind_type := lb, num_type_changes := w, was_on_first_letter := w }).1
        = { lookbehind_type := lb', num_type_changes := w, was_on_first_letter := w }) := by
  have h2 : ((j : Int) - 1).toNat = j - 1 := by omega
  unfold wordBackwardVisit tokenStart
  rw [h2]
  generalize getCharType (row.chars.getD j '\x00') = c
  generalize getCharType (row.chars.getD (j - 1) '\x00') = d
  simp only [hj, decide_True, Bool.true_and]
  by_cases hsp : c = CHAR_SPACE
  · simp [hsp]
  · rcases Nat.eq_zero_or_pos j with h0 | hpos
    · subst h0
      rcases hw with hw | hw <;> subst hw <;> simp [hsp]
    · have h1 : ((j : Int) ≥ 1) := by omega
      have h3 : j ≠ 0 := by omega
      by_cases hne : c = d
      · subst hne
        rcases hw with hw | hw <;> subst hw <;> simp [hsp, h1, h3]
      · rcases hw with hw | hw <;> subst hw <;> simp [hsp, h1, h3, hne]

/-- One round of the backward loop on the only row of a document. -/
theorem wordBackwardLoop_step (E : editorConfig) (row : erow) (hrow : E.row = [row])
    (hcy : E.cy = 0) (j : Nat) (hj : j ≤ row.chars.length) (v : wordBackwardVars) (f : Nat) :
    wordBackwardLoop (f + 1) v { E with cx := (j : Int) } =
      if (wordBackwardVisit row (j : Int) (getCharType (row.chars.getD j '\x00')) v).2 = true
      then some { E with cx := (j : Int) }
      else wordBackwardLoop f
        (wordBackwardVisit row (j : Int) (getCharType (row.chars.getD j '\x00')) v).1
        { E with cx := ((j - 1 : Nat) : Int) } := by
  have hc : charAt row (j : Int) = some (row.chars.getD j '\x00') := by
    unfold charAt
    rw [if_neg (by simp only [erow.size]; omega)]
    rfl
  have hr : ∀ a b : Int, rowAt { E with cx := a, cy := b } 0 = some row := by
    intro a b
    simp [rowAt, hrow]
  rw [wordBackwardLoop]
  dsimp only
  rw [hcy, if_pos (le_refl _), hr]
  dsimp only
  rw [hc]
  dsimp only
  rcases Nat.eq_zero_or_pos j with h0 | hpos
  · subst h0
    rw [if_pos (by decide : ((0 : Nat) : Int) - 1 < 0), if_neg (by decide : ¬ ((0 : Int) > 0))]
    rfl
  · rw [if_neg (by omega : ¬ ((j : Int) - 1 < 0))]
    have : (j : Int) - 1 = ((j - 1 : Nat) : Int) := by omega
    rw [this]

/-- The backward scan on the only row: from column `j`, with
`was_on_first_letter` decided and one more class change needed, the loop
returns with the cursor on the greatest token start at or below `j`. -/
theorem wordBackwardLoop_scan (E : editorConfig) (row : erow) (hrow : E.row = [row])
    (hcy : E.cy = 0) (h0 : tokenStart row.chars 0 = true) (w : Int) (hw : w = 0 ∨ w = 1) :
    ∀ (j fuel : Nat) (lb : Int), j < row.chars.length → j < fuel →
      wordBackwardLoop fuel
          { lookbehind_type := lb, num_type_changes := w, was_on_first_letter := w }
          { E with cx := (j : Int) }
        = some { E with cx := ((lastTokenStart row.chars j : Nat) : Int) } := by
  intro j
  induction j with
  | zero =>
    intro fuel lb hj hf
    obtain ⟨f, rfl⟩ : ∃ f, fuel = f + 1 := ⟨fuel - 1, by omega⟩
    have hv := (wordBackwardVisit_decided row 0 hj lb w hw).1
    rw [h0] at hv
    rw [wordBackwardLoop_step E row hrow hcy 0 (by omega), if_pos hv]
    rfl
  | succ j ih =>
    intro fuel lb hj hf
    obtain ⟨f, rfl⟩ : ∃ f, fuel = f + 1 := ⟨fuel - 1, by omega⟩
    have hv := wordBackwardVisit_decided row (j + 1) hj lb w hw
    rw [wordBackwardLoop_step E row hrow hcy (j + 1) (by omega)]
    cases hts : tokenStart row.chars (j + 1) with
    | true =>
      rw [hts] at hv
      rw [if_pos hv.1]
      simp [lastTokenStart, hts]
    | false =>
      rw [hts] at hv
      obtain ⟨lb', hlb⟩ := hv.2 rfl
      rw [if_neg (by rw [hv.1]; simp), hlb]
      have := ih f lb' (by omega) (by omega)
      simp only [lastTokenStart, hts]
      simpa using this

/-- C16: in a document of the single row `row` whose first character is not
whitespace, with the cursor on a non-whitespace character at column `cx`,
`editorMoveCursorWordBackward` returns and only moves the cursor column: to a
token start `r`, which is the greatest token start strictly below `cx` when
`cx` is itself a token start and `cx > 0`, and the greatest token start not
above `cx` otherwise.  For `"foo bar"` the cursor at 4 moves to 0 and the cursor
at 5 moves to 4. -/
theorem C16_wordBackward_token_start (fuel : Nat) (E : editorConfig) (row : erow) (cx : Nat)
    (hrow : E.row = [row]) (hcy : E.cy = 0) (hcx : E.cx = (cx : Int))
    (hlt : cx < row.chars.length) (hfirst : isspace (row.chars.getD 0 '\x00') = false)
    (hcur : isspace (row.chars.getD cx '\x00') = false) (hfuel : cx + 1 < fuel) :
    (∃ r : Nat, editorMoveCursorWordBackward fuel E = some { E with cx := (r : Int) } ∧
      tokenStart row.chars r = true ∧
      (if tokenStart row.chars cx = true ∧ 0 < cx
       then r < cx ∧ ∀ q, q < cx → tokenStart row.chars q = true → q ≤ r
       else r ≤ cx ∧ ∀ q, q ≤ cx → tokenStart row.chars q = true → q ≤ r)) ∧
    editorMoveCursorWordBackward 6 (oneRowDoc "foo bar" 4) = some (oneRowDoc "foo bar" 0) ∧
    editorMoveCursorWordBackward 6 (oneRowDoc "foo bar" 5) = some (oneRowDoc "foo bar" 4) := by
  refine ⟨?_, rfl, rfl⟩
  have h0 : tokenStart row.chars 0 = true := by
    have := (getCharType_space (row.chars.getD 0 '\x00')).2 hfirst
    have hpos : 0 < row.chars.length := by omega
    unfold tokenStart
    revert this
    generalize getCharType (row.chars.getD 0 '\x00') = c
    intro this
    simp [hpos, this]
  have hcs := (getCharType_space (row.chars.getD cx '\x00')).2 hcur
  obtain ⟨f, rfl⟩ : ∃ f, fuel = f + 1 := ⟨fuel - 1, by omega⟩
  have hE : E = { E with cx := (cx : Int) } := by rw [← hcx]
  have hstep := wordBackwardLoop_step E row hrow hcy cx (by omega)
    { lookbehind_type := -1, num_type_changes := 0, was_on_first_letter := -1 } f
  refine ⟨lastTokenStart row.chars (cx - 1), ?_, lastTokenStart_start _ h0 _, ?_⟩
  · unfold editorMoveCursorWordBackward
    rw [hE, hstep]
    have h2 : ((cx : Int) - 1).toNat = cx - 1 := by omega
    have key : ∃ lb w, (w = 0 ∨ w = 1) ∧
        wordBackwardVisit row (cx : Int) (getCharType (row.chars.getD cx '\x00'))
          { lookbehind_type := -1, num_type_changes := 0, was_on_first_letter := -1 }
        = ({ lookbehind_type := lb, num_type_changes := w, was_on_first_letter := w }, false) := by
      unfold wordBackwardVisit
      rw [h2]
      have hd0 := getCharType_nonneg (row.chars.getD (cx - 1) '\x00')
      revert hcs hd0
      generalize getCharType (row.chars.getD cx '\x00') = c
      generalize getCharType (row.chars.getD (cx - 1) '\x00') = d
      intro hcs hd0
      rcases Nat.eq_zero_or_pos cx with hz | hpos
      · subst hz
        refine ⟨CHAR_SPACE, 1, Or.inr rfl, ?_⟩
        simp [hcs]
      · have h1 : ((cx : Int) ≥ 1) := by omega
        by_cases hne : c = d
        · subst hne
          refine ⟨c, 0, Or.inl rfl, ?_⟩
          simp [hcs, h1, hd0]
        · refine ⟨d, 1, Or.inr rfl, ?_⟩
          simp [hcs, h1, hd0, hne]
    obtain ⟨lb, w, hw, hv⟩ := key
    rw [hv]
    simp only [Bool.false_eq_true, if_false]
    exact wordBackwardLoop_scan E row hrow hcy h0 w hw (cx - 1) f lb (by omega) (by omega)
  · split_ifs with h
    · refine ⟨by have := lastTokenStart_le row.chars (cx - 1); omega, ?_⟩
      intro q hq hs
      exact lastTokenStart_max _ _ _ (by omega) hs
    · refine ⟨by have := lastTokenStart_le row.chars (cx - 1); omega, ?_⟩
      intro q hq hs
      rcases Nat.lt_or_ge q cx with hl | hg
      · exact lastTokenStart_max _ _ _ (by omega) hs
      · have hqc : q = cx := by omega
        subst hqc
        have hz : q = 0 := by
          by_contra hne
          exact h ⟨hs, by omega⟩
        omega

/-- C16 at the row `"ab(c)"` with the cursor on `c` (column 3). -/
theorem C16_wordBackward_token_start_witness :
    ∃ r : Nat, editorMoveCursorWordBackward 5 (oneRowDoc "ab(c)" 3)
        = some { oneRowDoc "ab(c)" 3 with cx := (r : Int) } ∧
      tokenStart "ab(c)".toList r = true ∧
      (if tokenStart "ab(c)".toList 3 = true ∧ 0 < 3
       then r < 3 ∧ ∀ q, q < 3 → tokenStart "ab(c)".toList q = true → q ≤ r
       else r ≤ 3 ∧ ∀ q, q ≤ 3 → tokenStart "ab(c)".toList q = true → q ≤ r) :=
  (C16_wordBackward_token_start 5 (oneRowDoc "ab(c)" 3) (plainRow 0 "ab(c)") 3 rfl rfl rfl
    (by decide) (by decide) (by decide) (by decide)).1

/-! ## /-! ## Search step -/ -/

/-- C17: a search step of `editorFindCallback` (a key other than Enter and
Escape) on a document of `n >= 1` rows, with `m` and `d` the last-match row and
the direction in effect after the key (`d` is `+1` or `-1`, and `+1` when
`m = -1`, that is when there is no prior match): if the `k`-th row of the
cyclic order `m + d, m + 2d, ...` modulo `n` is the first one whose render
buffer contains the query, at offset `off` of its first occurrence, then the
step returns with `cy` on that row, `cx = editorRowRxToCx(row, off)`, the
entries `off .. off + strlen(query) - 1` of its highlight array set to
`HL_MATCH`, every other entry and every other row as before.  In the two-row
document where only row 0 contains the query and the cursor is in row 1, the
forward search lands on row 0, from no prior match as well as from a last
match in row 1. -/
theorem C17_find_cyclic_first_match (E E1 : editorConfig) (fs : findState) (q : List Char)
    (key : Int) (n k : Nat) (m d : Int) (row : erow) (off : Nat)
    (hrestore : findRestore E fs = some E1)
    (hkey : key ≠ keyOf '\r' ∧ key ≠ keyOf '\x1b')
    (hnum : E1.numrows = (n : Int)) (hlen : E1.row.length = n)
    (hlast : fs.last_match = -1 ∨ (0 ≤ fs.last_match ∧ fs.last_match < n))
    (hm : (findKey fs key).last_match = m) (hd : (findKey fs key).direction = d)
    (hk : 1 ≤ k ∧ k ≤ n)
    (hbefore : ∀ (j : Nat) (r : erow), 1 ≤ j → j < k →
      rowAt E1 ((m + j * d) % n) = some r → strstr r.render q = none)
    (hrow : rowAt E1 ((m + k * d) % n) = some row)
    (hoff : strstr row.render q = some off)
    (hhl : row.hl.length = row.render.length) :
    (d = 1 ∨ d = -1) ∧ (m = -1 → d = 1) ∧
    (∃ E' fs' row', editorFindCallback E fs q key = some (E', fs') ∧
      E'.cy = (m + k * d) % n ∧ E'.cx = editorRowRxToCx row (off : Int) ∧
      fs'.last_match = (m + k * d) % n ∧
      off + (cstr q).length ≤ row.render.length ∧
      cstr q <+: (cstr row.render).drop off ∧
      (∀ j, j < off → ¬ cstr q <+: (cstr row.render).drop j) ∧
      rowAt E' ((m + k * d) % n) = some row' ∧
      row' = { row with hl := row'.hl } ∧
      row'.hl.length = row.hl.length ∧
      (∀ i, row'.hl[i]? =
        if off ≤ i ∧ i < off + (cstr q).length then some HL_MATCH else row.hl[i]?) ∧
      ∀ p : Int, p ≠ (m + k * d) % n → rowAt E' p = rowAt E1 p) ∧
    (editorFindCallback searchDoc findStateInit "foo".toList (keyOf 'o')).map
        (fun r => (r.1.cy, r.1.cx)) = some (0, 2) ∧
    (editorFindCallback searchDoc { findStateInit with last_match := 1 } "foo".toList
        ARROW_RIGHT).map (fun r => (r.1.cy, r.1.cx)) = some (0, 2) := by
  subst hm hd
  obtain ⟨hd1, hd2, hd3⟩ := findKey_direction fs key
  refine ⟨hd1, hd2, ?_, by decide, by decide⟩
  have hcur : ((findKey fs key).last_match = -1 ∧ (findKey fs key).direction = 1) ∨
      (0 ≤ (findKey fs key).last_match ∧ (findKey fs key).last_match < n) := by
    rcases hd3 with h | h
    · exact Or.inl ⟨h, hd2 h⟩
    · rcases hlast with h' | h'
      · exact Or.inl ⟨by omega, hd2 (by omega)⟩
      · exact Or.inr (by omega)
  have hloop := findLoop_match q E1 { findKey fs key with saved_hl := none } n hnum hlen
    hd1 row off hoff (by omega) n k (findKey fs key).last_match hk.1 hk.2 hcur hbefore hrow
  obtain ⟨hs1, hs2, hs3⟩ := strstr_some row.render q off hoff
  have hc0 : 0 ≤ ((findKey fs key).last_match + k * (findKey fs key).direction) % (n : Int) :=
    Int.emod_nonneg _ (by omega)
  have hc1 : ((findKey fs key).last_match + k * (findKey fs key).direction) % (n : Int) < n :=
    Int.emod_lt_of_pos _ (by omega)
  have hin : (((findKey fs key).last_match + k * (findKey fs key).direction) % (n : Int)).toNat
      < E1.row.length := by omega
  refine ⟨{ E1 with
              cy := ((findKey fs key).last_match + k * (findKey fs key).direction) % n,
              cx := editorRowRxToCx row (off : Int),
              rowoff := E1.numrows,
              row := E1.row.set (((findKey fs key).last_match + k * (findKey fs key).direction) % (n : Int)).toNat { row with hl := memsetHl HL_MATCH (cstr q).length off row.hl } },
    { findKey fs key with
              last_match := ((findKey fs key).last_match + k * (findKey fs key).direction) % n,
              saved_hl_line := ((findKey fs key).last_match + k * (findKey fs key).direction) % n,
              saved_hl := some (row.hl.take row.render.length) },
    { row with hl := memsetHl HL_MATCH (cstr q).length off row.hl }, ?_, rfl, rfl,
    rfl, hs1, hs2, hs3, ?_, rfl, ?_, ?_, ?_⟩
  · unfold editorFindCallback
    rw [hrestore]
    dsimp only
    rw [if_neg (by intro h; rcases h with h | h; exact hkey.1 h; exact hkey.2 h),
      findKey_saved]
    dsimp only
    have hfuel : E1.numrows.toNat = n := by omega
    rw [hfuel]
    exact hloop
  · unfold rowAt
    dsimp only
    rw [if_neg (by omega), List.getElem?_set, if_pos rfl, if_pos hin]
  · dsimp only
    rw [memsetHl_length]
  · intro i
    dsimp only
    rw [memsetHl_getElem?]
    by_cases h : off ≤ i ∧ i < off + (cstr q).length
    · rw [if_pos h, if_pos ⟨h.1, h.2, by omega⟩]
    · rw [if_neg h, if_neg (fun h' => h ⟨h'.1, h'.2.1⟩)]
  · intro p hp
    unfold rowAt
    dsimp only
    by_cases hneg : p < 0
    · rw [if_pos hneg, if_pos hneg]
    · rw [if_neg hneg, if_neg hneg, List.getElem?_set_ne (by omega)]

/-- C17 at the two-row document, searching backwards from a last match in row
1: the first examined row is row 0, where `foo` starts at offset 2. -/
theorem C17_find_cyclic_first_match_witness :
    ∃ E' fs' row', editorFindCallback searchDoc { findStateInit with last_match := 1 }
        "foo".toList ARROW_LEFT = some (E', fs') ∧
      E'.cy = 0 ∧ E'.cx = 2 ∧ fs'.last_match = 0 ∧ rowAt E' 0 = some row' ∧
      row'.hl = [HL_NORMAL, HL_NORMAL, HL_MATCH, HL_MATCH, HL_MATCH] := by
  obtain ⟨E', fs', row', h1, h2, h3, h4, _, _, _, h5, h6, h7, h8, _⟩ :=
    (C17_find_cyclic_first_match searchDoc searchDoc { findStateInit with last_match := 1 }
      "foo".toList ARROW_LEFT 2 1 1 (-1) (plainRow 0 "a foo") 2 rfl (by decide) rfl rfl
      (by decide) rfl rfl (by decide) (by intro j r h1 h2; omega) rfl (by decide) rfl).2.2.1
  refine ⟨E', fs', row', h1, h2.trans (by decide), h3.trans (by decide), h4.trans (by decide),
    h5, ?_⟩
  apply List.ext_getElem?
  intro i
  rw [h8 i]
  rcases i with _ | _ | _ | _ | _ | i <;> simp [plainRow, cstr]

/-- C18: for every document (with `numrows` rows) and every query (a C string,
so free of NUL) that occurs in no row's render buffer, a step of
`editorFindCallback` with no overlay pending returns and leaves the whole
editor state as it was, in particular `cx`, `cy`, `rowoff`, `coloff` and every
row's highlight array; no overlay is pending afterwards. -/
theorem C18_find_no_match_unchanged (E : editorConfig) (fs : findState) (q : List Char)
    (key : Int) (hnum : E.numrows = (E.row.length : Int)) (hsaved : fs.saved_hl = none)
    (hlast : fs.last_match = -1 ∨ (0 ≤ fs.last_match ∧ fs.last_match < E.numrows))
    (hq : '\x00' ∉ q) (hno : ∀ r ∈ E.row, ¬ q <:+: r.render) :
    ∃ fs', editorFindCallback E fs q key = some (E, fs') ∧ fs'.saved_hl = none := by
  have hres : findRestore E fs = some E := by
    unfold findRestore
    rw [hsaved]
  unfold editorFindCallback
  rw [hres]
  dsimp only
  split_ifs with hkey
  · exact ⟨_, rfl, rfl⟩
  · obtain ⟨hd1, hd2, hd3⟩ := findKey_direction fs key
    rw [findKey_saved]
    refine ⟨{ findKey fs key with saved_hl := none },
      findLoop_nomatch q E { findKey fs key with saved_hl := none } hnum hd1
        (fun r hr => strstr_none _ _ hq (hno r hr)) E.numrows.toNat (findKey fs key).last_match
        (by omega) ?_, rfl⟩
    dsimp only
    rcases hd3 with h | h
    · exact Or.inl ⟨h, hd2 h⟩
    · rcases hlast with h' | h'
      · exact Or.inl ⟨by omega, hd2 (by omega)⟩
      · exact Or.inr (by omega)

/-- C18 at the two-row document and the query `zz`, stepping on from a last
match in row 0. -/
theorem C18_find_no_match_unchanged_witness :
    ∃ fs', editorFindCallback searchDoc { findStateInit with last_match := 0 } "zz".toList
        ARROW_DOWN = some (searchDoc, fs') ∧ fs'.saved_hl = none :=
  C18_find_no_match_unchanged searchDoc { findStateInit with last_match := 0 } "zz".toList
    ARROW_DOWN rfl rfl (by decide) (by decide) (by decide)

/-! ## /-! ## Chords -/ -/

theorem message_eq (cap : Nat) (E : editorConfig) (text : List Char)
    (h : text.length < cap) : message cap E text = { E with statusmsg := String.mk text } := by
  unfold message
  rw [if_neg (by omega), List.take_of_length_le (by omega)]

/-- The call of `message` changes the status buffer only. -/
theorem message_frame (cap : Nat) (E : editorConfig) (text : List Char) :
    (message cap E text).row = E.row ∧ (message cap E text).numrows = E.numrows ∧
    (message cap E text).cx = E.cx ∧ (message cap E text).cy = E.cy ∧
    (message cap E text).dirty = E.dirty ∧ (message cap E text).mode = E.mode := by
  unfold message
  split_ifs <;> exact ⟨rfl, rfl, rfl, rfl, rfl, rfl⟩

/-- With the cursor row inside the array, `editorScroll` returns and leaves the
rows, the row count, the cursor, the dirty counter, the mode and the status
buffer as they are. -/
theorem editorScroll_frame (E : editorConfig) (hnum : E.numrows ≤ (E.row.length : Int))
    (hcy : 0 ≤ E.cy) :
    ∃ E', editorScroll E = some E' ∧ E'.row = E.row ∧ E'.numrows = E.numrows ∧
      E'.cx = E.cx ∧ E'.cy = E.cy ∧ E'.dirty = E.dirty ∧ E'.mode = E.mode ∧
      E'.statusmsg = E.statusmsg := by
  obtain ⟨rx, ro, co, h⟩ := editorScroll_spec E hnum hcy
  exact ⟨_, h, rfl, rfl, rfl, rfl, rfl, rfl, rfl⟩

theorem toByteChar_ne_nul (c : Int) (h : c % 256 ≠ 0) : toByteChar c ≠ '\x00' := by
  unfold toByteChar
  have h0 : 0 ≤ c % 256 := Int.emod_nonneg _ (by decide)
  have h1 : c % 256 < 256 := Int.emod_lt_of_pos _ (by decide)
  intro hc
  have h2 : (Char.ofNat (c % 256).toNat).toNat = (c % 256).toNat := by
    unfold Char.ofNat
    rw [dif_pos (by unfold Nat.isValidChar; omega)]
    rfl
  rw [hc] at h2
  have h3 : ('\x00' : Char).toNat = 0 := rfl
  omega

/-- C19: in Normal mode, with the cursor row inside the row array and a status
buffer that holds the text, the round of the main loop that reads `d` and then
a key `c` other than `d` returns; the rows, the row count, the cursor
`(cx, cy)`, the dirty counter and the mode are as before, and the status
buffer holds the text of `"%c is undefined"` for `c`.  For a key whose byte is
not NUL this text is the C string in the buffer. -/
theorem C19_d_chord_undefined (x : externals) (cap fuel : Nat) (E : editorConfig) (c : Int)
    (hmode : E.mode = editorMode.MODE_NORMAL) (hnum : E.numrows ≤ (E.row.length : Int))
    (hcy : 0 ≤ E.cy) (hcap : 15 ≤ cap) (hc : c ≠ keyOf 'd') :
    (∃ E', mainLoopRound x cap fuel E (keyOf 'd') c = some E' ∧
      E'.row = E.row ∧ E'.numrows = E.numrows ∧ E'.cx = E.cx ∧ E'.cy = E.cy ∧
      E'.dirty = E.dirty ∧ E'.mode = E.mode ∧
      E'.statusmsg = String.mk (toByteChar c :: " is undefined".toList)) ∧
    (c % 256 ≠ 0 → cstr (toByteChar c :: " is undefined".toList)
      = toByteChar c :: " is undefined".toList) := by
  refine ⟨?_, ?_⟩
  · obtain ⟨E1, h1, a1, a2, a3, a4, a5, a6, _⟩ := editorScroll_frame E hnum hcy
    obtain ⟨b1, b2, b3, b4, b5, b6⟩ := message_frame cap E1 "d...".toList
    obtain ⟨E2, h2, c1, c2, c3, c4, c5, c6, _⟩ :=
      editorScroll_frame (message cap E1 "d...".toList) (by rw [b1, b2, a1, a2]; exact hnum)
        (by rw [b4, a4]; exact hcy)
    have hm : message cap E2 (undefinedText c)
        = { E2 with statusmsg := String.mk (undefinedText c) } :=
      message_eq _ _ _ (by simp only [undefinedText, List.length_cons]; exact hcap)
    refine ⟨{ E2 with statusmsg := String.mk (undefinedText c) }, ?_,
      by rw [c1, b1, a1], by rw [c2, b2, a2], by rw [c3, b3, a3], by rw [c4, b4, a4],
      by rw [c5, b5, a5], by rw [c6, b6, a6], rfl⟩
    have hm1 : E1.mode = editorMode.MODE_NORMAL := by rw [a6, hmode]
    unfold mainLoopRound editorRefreshScreen
    rw [h1]
    dsimp only
    rw [hm1]
    dsimp only
    unfold editorProcessKeypressNormalMode
    rw [if_neg (by decide), if_neg (by decide), if_pos rfl]
    unfold processKeyNormalMode_d editorRefreshScreen
    rw [h2]
    dsimp only
    rw [if_neg hc, hm]
  · intro h
    have hne := toByteChar_ne_nul c h
    unfold cstr
    rw [List.takeWhile_eq_self_iff]
    intro a ha
    rcases List.mem_cons.1 ha with h1 | h1
    · subst h1
      simpa using hne
    · have hall : ∀ b ∈ " is undefined".toList, (b != '\x00') = true := by decide
      exact hall a h1

/-- C19 on the two-row sample with second key `x`. -/
theorem C19_d_chord_undefined_witness :
    ∃ E', mainLoopRound idleExternals 80 3 sampleDoc (keyOf 'd') (keyOf 'x') = some E' ∧
      E'.row = sampleDoc.row ∧ E'.numrows = sampleDoc.numrows ∧ E'.cx = sampleDoc.cx ∧
      E'.cy = sampleDoc.cy ∧ E'.dirty = sampleDoc.dirty ∧ E'.mode = sampleDoc.mode ∧
      E'.statusmsg = "x is undefined" :=
  (C19_d_chord_undefined idleExternals 80 3 sampleDoc (keyOf 'x') rfl (by decide) (by decide)
    (by decide) (by decide)).1

/-- The round of the main loop in Insert mode that reads `j`: the refresh of
the screen, then `processKeyInsertMode_j` on the refreshed state. -/
theorem mainLoopRound_insert_j (x : externals) (cap fuel : Nat) (E : editorConfig) (c2 : Int)
    (hmode : E.mode = editorMode.MODE_INSERT) (hnum : E.numrows ≤ (E.row.length : Int))
    (hcy : 0 ≤ E.cy) :
    ∃ E1, mainLoopRound x cap fuel E (keyOf 'j') c2 = processKeyInsertMode_j x cap fuel E1 c2 ∧
      E1.row = E.row ∧ E1.numrows = E.numrows ∧ E1.cx = E.cx ∧ E1.cy = E.cy ∧
      E1.dirty = E.dirty ∧ E1.mode = E.mode := by
  obtain ⟨E1, h1, a1, a2, a3, a4, a5, a6, _⟩ := editorScroll_frame E hnum hcy
  refine ⟨E1, ?_, a1, a2, a3, a4, a5, a6⟩
  have hm1 : E1.mode = editorMode.MODE_INSERT := by rw [a6, hmode]
  unfold mainLoopRound editorRefreshScreen
  rw [h1]
  dsimp only
  rw [hm1]
  dsimp only
  unfold editorProcessKeypressInsertMode
  rw [if_neg (by decide), if_pos rfl]

/-- C20: in Insert mode, on a document at rest with `cy >= 0`, the round of the
main loop that reads `j` and then makes the timed read returns, and:
if the timed read times out (`-1`), the character `j` is inserted at the
cursor (into the cursor row at column `cx`, or as the content of a new last
row when the cursor is on the line after the last row), the cursor advances by
one column and the mode stays Insert; if the second key is `k`, the mode
becomes Normal and rows, row count, dirty counter and cursor are unchanged; if
the second key is `j`, `editorSave` is called on a state with the rows, row
count, dirty counter and cursor unchanged, and the mode of the state it leaves
becomes Normal. -/
theorem C20_insert_j_chord (x : externals) (cap fuel : Nat) (E : editorConfig)
    (hmode : E.mode = editorMode.MODE_INSERT) (hwf : wellFormed E) (hcy : 0 ≤ E.cy)
    (hfuel : E.numrows + 1 < fuel) :
    (∀ row, rowAt E E.cy = some row → 0 ≤ E.cx → E.cx ≤ row.size →
      ∃ E', mainLoopRound x cap fuel E (keyOf 'j') (-1) = some E' ∧
        E'.mode = editorMode.MODE_INSERT ∧ E'.cx = E.cx + 1 ∧ E'.cy = E.cy ∧
        E'.numrows = E.numrows ∧
        docText E' = (docText E).set E.cy.toNat
          (row.chars.take E.cx.toNat ++ 'j' :: row.chars.drop E.cx.toNat)) ∧
    (E.cy = E.numrows →
      ∃ E', mainLoopRound x cap fuel E (keyOf 'j') (-1) = some E' ∧
        E'.mode = editorMode.MODE_INSERT ∧ E'.cx = E.cx + 1 ∧ E'.cy = E.cy ∧
        E'.numrows = E.numrows + 1 ∧ docText E' = docText E ++ [['j']]) ∧
    (∃ E', mainLoopRound x cap fuel E (keyOf 'j') (keyOf 'k') = some E' ∧
      E'.mode = editorMode.MODE_NORMAL ∧ E'.row = E.row ∧ E'.numrows = E.numrows ∧
      E'.dirty = E.dirty ∧ E'.cx = E.cx ∧ E'.cy = E.cy) ∧
    (∃ E2, E2.row = E.row ∧ E2.numrows = E.numrows ∧ E2.dirty = E.dirty ∧ E2.cx = E.cx ∧
      E2.cy = E.cy ∧
      mainLoopRound x cap fuel E (keyOf 'j') (keyOf 'j')
        = (x.editorSave E2).map (fun S => { S with mode := editorMode.MODE_NORMAL })) := by
  have hnum : E.numrows ≤ (E.row.length : Int) := le_of_eq hwf.1
  have hj : toByteChar (keyOf 'j') = 'j' := toByteChar_keyOf 'j' (by decide)
  refine ⟨?_, ?_, ?_, ?_⟩
  · intro row hrow hcx0 hcx1
    obtain ⟨E1, h1, a1, a2, a3, a4, a5, a6⟩ :=
      mainLoopRound_insert_j x cap fuel E (-1) hmode hnum hcy
    have hwf1 : wellFormed E1 := wellFormed_congr E E1 hwf a2 (by rw [a1])
    have hrow1 : rowAt E1 E1.cy = some row := by
      unfold rowAt at hrow ⊢
      rw [a1, a4]; exact hrow
    obtain ⟨rows', g1, g2, g3⟩ :=
      editorInsertChar_row fuel E1 row (keyOf 'j') hwf1 hrow1 (by omega)
    have hlen : rows'.length = E1.row.length := by
      have := congrArg List.length g3
      simpa using this
    obtain ⟨E2, h2, c1, c2, c3, c4, c5, c6, _⟩ :=
      editorScroll_frame { E1 with row := rows', dirty := E1.dirty + 1, cx := E1.cx + 1 }
        (by simp only [hlen]; rw [a1, a2]; exact hnum) (by simp only []; omega)
    obtain ⟨b1, b2, b3, b4, b5, b6⟩ := message_frame cap E2 (undefinedText (-1))
    refine ⟨message cap E2 (undefinedText (-1)), ?_, by rw [b6, c6]; simp only []; rw [a6, hmode],
      by rw [b3, c3]; simp only []; rw [a3], by rw [b4, c4]; simp only []; rw [a4],
      by rw [b2, c2]; simp only []; rw [a2], ?_⟩
    · rw [h1]
      unfold processKeyInsertMode_j editorRefreshScreen
      rw [if_pos rfl, g1]
      dsimp only
      rw [h2]
      dsimp only
      rw [if_neg (by decide), if_neg (by decide)]
    · unfold docText
      rw [b1, c1]
      simp only []
      rw [g2, hj, a3, a4]
      have hp : (if E.cx < 0 ∨ E.cx > row.size then row.size else E.cx) = E.cx := by
        rw [if_neg (by omega)]
      rw [hp]
      unfold docText
      rw [a1]
  · intro hend
    obtain ⟨E1, h1, a1, a2, a3, a4, a5, a6⟩ :=
      mainLoopRound_insert_j x cap fuel E (-1) hmode hnum hcy
    have hwf1 : wellFormed E1 := wellFormed_congr E E1 hwf a2 (by rw [a1])
    obtain ⟨rows', g1, g2, g3, _⟩ :=
      editorInsertChar_end fuel E1 (keyOf 'j') hwf1 (by rw [a4, a2]; exact hend) (by omega)
    obtain ⟨E2, h2, c1, c2, c3, c4, c5, c6, _⟩ :=
      editorScroll_frame { E1 with row := rows', numrows := E1.numrows + 1, dirty := E1.dirty + 1 + 1, cx := E1.cx + 1 }
        (by simp only [g3]; rw [a1, a2]; push_cast; omega) (by simp only []; omega)
    obtain ⟨b1, b2, b3, b4, b5, b6⟩ := message_frame cap E2 (undefinedText (-1))
    refine ⟨message cap E2 (undefinedText (-1)), ?_, by rw [b6, c6]; simp only []; rw [a6, hmode],
      by rw [b3, c3]; simp only []; rw [a3], by rw [b4, c4]; simp only []; rw [a4],
      by rw [b2, c2]; simp only []; rw [a2], ?_⟩
    · rw [h1]
      unfold processKeyInsertMode_j editorRefreshScreen
      rw [if_pos rfl, g1]
      dsimp only
      rw [h2]
      dsimp only
      rw [if_neg (by decide), if_neg (by decide)]
    · unfold docText
      rw [b1, c1]
      simp only []
      rw [g2, hj]
      unfold docText
      rw [a1]
  · obtain ⟨E1, h1, a1, a2, a3, a4, a5, a6⟩ :=
      mainLoopRound_insert_j x cap fuel E (keyOf 'k') hmode hnum hcy
    obtain ⟨E2, h2, c1, c2, c3, c4, c5, c6, _⟩ :=
      editorScroll_frame E1 (by rw [a1, a2]; exact hnum) (by rw [a4]; exact hcy)
    refine ⟨{ E2 with mode := editorMode.MODE_NORMAL }, ?_, rfl, by simp only []; rw [c1, a1],
      by simp only []; rw [c2, a2], by simp only []; rw [c5, a5], by simp only []; rw [c3, a3],
      by simp only []; rw [c4, a4]⟩
    rw [h1]
    unfold processKeyInsertMode_j editorRefreshScreen
    rw [if_neg (by decide)]
    dsimp only
    rw [h2]
    dsimp only
    rw [if_pos rfl]
  · obtain ⟨E1, h1, a1, a2, a3, a4, a5, a6⟩ :=
      mainLoopRound_insert_j x cap fuel E (keyOf 'j') hmode hnum hcy
    obtain ⟨E2, h2, c1, c2, c3, c4, c5, c6, _⟩ :=
      editorScroll_frame E1 (by rw [a1, a2]; exact hnum) (by rw [a4]; exact hcy)
    refine ⟨E2, by rw [c1, a1], by rw [c2, a2], by rw [c5, a5], by rw [c3, a3],
      by rw [c4, a4], ?_⟩
    rw [h1]
    unfold processKeyInsertMode_j editorRefreshScreen
    rw [if_neg (by decide)]
    dsimp only
    rw [h2]
    dsimp only
    rw [if_neg (by decide), if_pos rfl]
    cases x.editorSave E2 <;> rfl

/-- C20 on the two-row sample in Insert mode with the cursor at column 2 of
`ab cd`: the timeout gives `abj cd` with the cursor at column 3, and `k` leaves
the document and the cursor alone. -/
theorem C20_insert_j_chord_witness :
    (∃ E', mainLoopRound idleExternals 80 4 insertDoc (keyOf 'j') (-1) = some E' ∧
      E'.mode = editorMode.MODE_INSERT ∧ E'.cx = 3 ∧ E'.cy = 0 ∧
      docText E' = ["abj cd".toList, "ef".toList]) ∧
    (∃ E', mainLoopRound idleExternals 80 4 insertDoc (keyOf 'j') (keyOf 'k') = some E' ∧
      E'.mode = editorMode.MODE_NORMAL ∧ E'.row = insertDoc.row ∧
      E'.numrows = insertDoc.numrows ∧ E'.dirty = insertDoc.dirty ∧ E'.cx = insertDoc.cx ∧
      E'.cy = insertDoc.cy) := by
  have h := C20_insert_j_chord idleExternals 80 4 insertDoc rfl (by decide) (by decide)
    (by decide)
  obtain ⟨E', h1, h2, h3, h4, _, h6⟩ := h.1 (plainRow 0 "ab cd") rfl (by decide) (by decide)
  exact ⟨⟨E', h1, h2, h3.trans (by decide), h4.trans (by decide), h6.trans (by decide)⟩,
    h.2.2.1⟩

/-! ## Cases in which row operations, the scan and the cursor motions leave their bounds -/

/-- C28 fails on the empty document: with the cursor at `(0, 0)` and
`numrows = 0`, `editorMoveCursor(ARROW_DOWN)` and `editorMoveCursor('j')` leave
`cy = 1`, beyond `numrows`; on the two-row sample with the cursor on the line
after the last row (`cy = numrows = 2`) they leave `cy = 3`. -/
theorem C28_moveCursor_down_past_file :
    emptyDoc.cy = 0 ∧ emptyDoc.numrows = 0 ∧
    (∃ E', editorMoveCursor emptyDoc ARROW_DOWN = some E' ∧ E'.cy = 1 ∧ E'.numrows = 0 ∧
      ¬ E'.cy ≤ E'.numrows) ∧
    (∃ E', editorMoveCursor emptyDoc (keyOf 'j') = some E' ∧ E'.cy = 1 ∧ E'.numrows = 0) ∧
    (∃ E', editorMoveCursor { sampleDoc with cy := 2, cx := 0 } ARROW_DOWN = some E' ∧
      E'.cy = 3 ∧ E'.numrows = 2) :=
  ⟨rfl, rfl, ⟨_, rfl, rfl, rfl, by decide⟩, ⟨_, rfl, rfl, rfl⟩, ⟨_, rfl, rfl, rfl⟩⟩

/-- C25 fails on the single row `" foo"` with the cursor at `(0, 0)`: a round
of the loop of `editorMoveCursorWordBackward` reads the space, skips the block
and resets `cx` to 0, so it ends in the state it started in; the function
returns for no number of rounds.  The same holds when the row is the single
space. -/
theorem C25_wordBackward_never_returns :
    (∀ (fuel : Nat) (v : wordBackwardVars),
      wordBackwardLoop (fuel + 1) v (oneRowDoc " foo" 0)
        = wordBackwardLoop fuel v (oneRowDoc " foo" 0)) ∧
    (∀ fuel : Nat, editorMoveCursorWordBackward fuel (oneRowDoc " foo" 0) = none) ∧
    (∀ fuel : Nat, editorMoveCursorWordBackward fuel (oneRowDoc " " 0) = none) := by
  have step1 : ∀ (fuel : Nat) (v : wordBackwardVars),
      wordBackwardLoop (fuel + 1) v (oneRowDoc " foo" 0)
        = wordBackwardLoop fuel v (oneRowDoc " foo" 0) := fun fuel v => rfl
  have step2 : ∀ (fuel : Nat) (v : wordBackwardVars),
      wordBackwardLoop (fuel + 1) v (oneRowDoc " " 0)
        = wordBackwardLoop fuel v (oneRowDoc " " 0) := fun fuel v => rfl
  refine ⟨step1, ?_, ?_⟩
  · intro fuel
    unfold editorMoveCursorWordBackward
    induction fuel with
    | zero => rfl
    | succ n ih => rw [step1]; exact ih
  · intro fuel
    unfold editorMoveCursorWordBackward
    induction fuel with
    | zero => rfl
    | succ n ih => rw [step2]; exact ih

/-- C29 fails on the rows `""`, `"x"` with the cursor at column 0 of row 1: the
first round of `editorMoveCursorWordBackward` moves to row 0 with
`cx = size - 1 = -1`, and the next round reads `chars[-1]` of row 0, outside
`[0, size]`. -/
theorem C29_wordBackward_reads_before_row :
    emptyFirstDoc.numrows = 2 ∧ emptyFirstDoc.cy = 1 ∧ emptyFirstDoc.cx = 0 ∧
    (∀ fuel : Nat, editorMoveCursorWordBackward (fuel + 1) emptyFirstDoc
      = wordBackwardLoop fuel
          { lookbehind_type := CHAR_SPACE, num_type_changes := 1, was_on_first_letter := 1 }
          { emptyFirstDoc with cy := 0, cx := -1 }) ∧
    rowAt { emptyFirstDoc with cy := 0, cx := -1 } 0 = some (plainRow 0 "") ∧
    charAt (plainRow 0 "") (-1) = none ∧
    (∀ fuel : Nat, editorMoveCursorWordBackward fuel emptyFirstDoc = none) := by
  have h1 : ∀ fuel : Nat, editorMoveCursorWordBackward (fuel + 1) emptyFirstDoc
      = wordBackwardLoop fuel
          { lookbehind_type := CHAR_SPACE, num_type_changes := 1, was_on_first_letter := 1 }
          { emptyFirstDoc with cy := 0, cx := -1 } := fun fuel => rfl
  refine ⟨rfl, rfl, rfl, h1, rfl, rfl, ?_⟩
  intro fuel
  rcases fuel with _ | _ | n
  · rfl
  · rfl
  · rw [h1]; rfl

/-- C23 fails on the row `"\t//x"` under the C syntax: the render buffer is
`"    //x"` (7 characters), the scan loop runs while `i < size = 4` and ends
before it reaches the `//` at render offset 4, so the seven highlight entries
stay normal; the row `"    //x"`, with the tab replaced by the spaces it
renders to, has the entries 4 to 6 classified as comment. -/
theorem C23_scan_stops_at_raw_size :
    (∃ E' r, editorInsertRow 2 emptyDoc 0 "\t//x".toList = some E' ∧ E'.row[0]? = some r ∧
      r.chars.length = 4 ∧ r.render = "    //x".toList ∧
      r.hl = List.replicate 7 HL_NORMAL) ∧
    (∃ E' r, editorInsertRow 2 emptyDoc 0 "    //x".toList = some E' ∧ E'.row[0]? = some r ∧
      r.render = "    //x".toList ∧
      r.hl = List.replicate 4 HL_NORMAL ++ List.replicate 3 HL_COMMENT) :=
  ⟨⟨_, _, rfl, rfl, rfl, rfl, rfl⟩, ⟨_, _, rfl, rfl, rfl, rfl⟩⟩

/-- C21 fails on the rows `"/* a"`, `"b"` loaded in order under the C syntax,
a highlight-consistent document: after `editorDelRow(0)` the row `"b"` still
carries the comment class and the open-comment flag, which the scan seeded
with the clear flag does not produce; after `editorInsertRow(1, "*/")` the row
`"b"`, now row 2 and below a row that closes the comment, still carries
them. -/
theorem C21_stale_highlight_after_row_ops :
    ∃ D, editorOpenLoop 3 ["/* a".toList, "b".toList] emptyDoc = some D ∧
      highlightConsistent D = true ∧
      highlightConsistent (editorDelRow D 0) = false ∧
      (editorDelRow D 0).row.map (fun r => (r.chars, r.hl, r.hl_open_comment))
        = [("b".toList, [HL_MLCOMMENT], true)] ∧
      ∃ D2, editorInsertRow 4 D 1 "*/".toList = some D2 ∧ highlightConsistent D2 = false ∧
        D2.row.map (fun r => (r.chars, r.hl, r.hl_open_comment))
          = [("/* a".toList, List.replicate 4 HL_MLCOMMENT, true),
             ("*/".toList, List.replicate 2 HL_MLCOMMENT, false),
             ("b".toList, [HL_MLCOMMENT], true)] :=
  ⟨_, rfl, by decide, by decide, by decide, _, rfl, by decide, by decide⟩

/-! ## Termination and consistency of the highlighter -/

/-- C27: under each built-in syntax, every round of the in-row scan that does
not leave the loop by `break` advances the scan position by at least one, so
the scan of a row returns within `size` rounds; on a document whose rows carry
their positions as `idx` and with `numrows` at most the number of rows, the call
of `editorUpdateSyntax` on row `p` makes at most one further call, on row
`p + 1` and only when `p + 1 < numrows`, and it returns when the recursion may
go `numrows - p` deep. -/
theorem C27_updateSyntax_terminates (syn : editorSyntax) (E : editorConfig) (p fuel : Nat)
    (row : erow) (hdb : syn ∈ HLDB) (hsyn : E.syntax_ = some syn) (hidx : idxOk E.row)
    (hnum : E.numrows ≤ (E.row.length : Int))
    (hrow : E.row[p]? = some row) (hfuel : E.numrows ≤ fuel + p + 1) :
    (∀ (render : List Char) (st : scanState), (scanStep syn render st).2 = false →
      st.i + 1 ≤ (scanStep syn render st).1.i) ∧
    (∀ (r : erow) (seed : Bool), ∃ st, scanRow syn r seed = some st ∧
      scanLoop syn r.chars.length r.render r.chars.length
        { i := 0, prev_sep := true, in_string := '\x00', in_comment := seed,
          hl := List.replicate r.render.length HL_NORMAL } = some st) ∧
    (∃ st, scanRow syn row (seedComment E p) = some st ∧
      editorUpdateSyntax (fuel + 1) E p =
        if (row.hl_open_comment != st.in_comment) = true ∧ (p : Int) + 1 < E.numrows then
          editorUpdateSyntax fuel { E with row := E.row.set p { row with hl := st.hl, hl_open_comment := st.in_comment } } (p + 1)
        else some { E with row := E.row.set p { row with hl := st.hl, hl_open_comment := st.in_comment } }) ∧
    (∃ E', editorUpdateSyntax (fuel + 1) E p = some E') := by
  have hp : p < E.row.length := by
    by_contra hc
    rw [List.getElem?_eq_none (by omega)] at hrow
    cases hrow
  refine ⟨fun render st hb => scanStep_advance syn hdb render st hb, ?_,
    editorUpdateSyntax_unfold fuel E p row syn hidx hrow hsyn, ?_⟩
  · intro r seed
    obtain ⟨st, hst⟩ := scanLoop_rounds syn hdb r.chars.length r.render r.chars.length
      { i := 0, prev_sep := true, in_string := '\x00', in_comment := seed,
        hl := List.replicate r.render.length HL_NORMAL } (by simp only []; omega)
    refine ⟨st, ?_, hst⟩
    have := scanLoop_mono syn r.chars.length r.render _ _ _ hst (r.chars.length + 2)
    unfold scanRow
    have e : 2 * r.chars.length + 2 = r.chars.length + (r.chars.length + 2) := by omega
    rw [e]
    exact this
  · obtain ⟨rows', h, _⟩ := editorUpdateSyntax_spec (fuel + 1) E p hidx hnum hp
      (by omega) (by push_cast; omega)
    exact ⟨_, h⟩

/-- C27 on the three-row sample under the C syntax, from row 0. -/
theorem C27_updateSyntax_terminates_witness :
    ∃ E', editorUpdateSyntax 3 commentDoc 0 = some E' :=
  (C27_updateSyntax_terminates _ commentDoc 0 2 { plainRow 0 "/* start" with hl_open_comment := true }
    (List.getElem?_mem (show HLDB[0]? = some _ from rfl)) rfl (by decide) (by decide) rfl
    (by decide)).2.2.2

/-- Re-deriving row `p` after a change of its raw content, in a
highlight-consistent document at rest, returns a document in which every row
is consistent. -/
theorem editorUpdateRow_consistent (syn : editorSyntax) (fuel : Nat) (E : editorConfig)
    (p : Nat) (row : erow) (cs : List Char) (hwf : wellFormed E) (hsyn : E.syntax_ = some syn)
    (hcons : ∀ q, rowConsistent syn E q = true) (hrow : E.row[p]? = some row)
    (hfuel : E.numrows < fuel) :
    ∃ rows', editorUpdateRow fuel { E with row := E.row.set p { row with chars := cs } } p
        = some { E with row := rows' } ∧
      ∀ q, rowConsistent syn { E with row := rows' } q = true := by
  have hp : p < E.row.length := by
    by_contra hc
    rw [List.getElem?_eq_none (by omega)] at hrow
    cases hrow
  generalize hR : ({ row with chars := cs, render := renderLoop cs [] } : erow) = R
  have hRidx : R.idx = row.idx := by rw [← hR]
  have hRflag : R.hl_open_comment = row.hl_open_comment := by rw [← hR]
  have hidx2 : idxOk (E.row.set p R) := by
    unfold idxOk
    have hm : (E.row.map (fun r => r.idx))[p]? = some R.idx := by
      rw [List.getElem?_map, hrow, hRidx]; rfl
    rw [List.map_set, set_getElem?_self _ _ _ hm]
    exact hwf.2
  have hgetp : (E.row.set p R)[p]? = some R := by
    rw [List.getElem?_set, if_pos rfl, if_pos hp]
  have hgetq : ∀ q, q ≠ p → (E.row.set p R)[q]? = E.row[q]? := by
    intro q hq
    rw [List.getElem?_set, if_neg (by omega)]
  obtain ⟨rows', h1, _, h3⟩ := editorUpdateSyntax_consistent syn fuel
    { E with row := E.row.set p R } p hidx2
    (by simp only [List.length_set]; exact hwf.1) hsyn
    (by simp only [List.length_set]; exact hp)
    (by simp only []; omega) (by have := hwf.1; omega)
    (by
      intro q hq
      rw [rowConsistent_congr syn _ E q (hgetq q hq)
        (seedComment_congr _ _ q (by
          intro k hk
          simp only []
          by_cases hkp : k = p
          · subst hkp
            rw [hgetp, hrow]
            simp only [Option.map, hRflag]
          · rw [hgetq k hkp]))]
      exact hcons q)
  refine ⟨rows', ?_, h3⟩
  unfold editorUpdateRow
  have hg0 : (E.row.set p { row with chars := cs })[p]? = some { row with chars := cs } := by
    rw [List.getElem?_set, if_pos rfl, if_pos hp]
  simp only [hg0, List.set_set]
  rw [hR]
  exact h1

/-- C22: in a highlight-consistent document at rest with an active syntax, for
every row `p`, column `at` and character `c`, `editorRowInsertChar` and
`editorRowDelChar` return a document that is again highlight-consistent. -/
theorem C22_char_ops_keep_consistency (fuel : Nat) (E : editorConfig) (p : Nat) (row : erow)
    (at_ : Int) (c : Char) (syn : editorSyntax) (hwf : wellFormed E)
    (hsyn : E.syntax_ = some syn) (hcons : highlightConsistent E = true)
    (hrow : E.row[p]? = some row) (hfuel : E.numrows < fuel) :
    (∃ E', editorRowInsertChar fuel E p at_ c = some E' ∧ highlightConsistent E' = true) ∧
    (∃ E', editorRowDelChar fuel E p at_ = some E' ∧ highlightConsistent E' = true) := by
  have hall := (highlightConsistent_iff E syn hsyn).1 hcons
  refine ⟨?_, ?_⟩
  · obtain ⟨rows', h1, h2⟩ := editorUpdateRow_consistent syn fuel E p row
      (row.chars.take (if at_ < 0 ∨ at_ > row.size then row.size else at_).toNat ++
        c :: row.chars.drop (if at_ < 0 ∨ at_ > row.size then row.size else at_).toNat)
      hwf hsyn hall hrow hfuel
    refine ⟨{ E with row := rows', dirty := E.dirty + 1 }, ?_, ?_⟩
    · unfold editorRowInsertChar
      simp only [hrow]
      rw [h1]
    · exact (highlightConsistent_iff { E with row := rows', dirty := E.dirty + 1 } syn hsyn).2
        (fun q => h2 q)
  · by_cases hat : at_ < 0 ∨ at_ ≥ row.size
    · refine ⟨E, ?_, hcons⟩
      unfold editorRowDelChar
      simp only [hrow]
      rw [if_pos hat]
    · obtain ⟨rows', h1, h2⟩ := editorUpdateRow_consistent syn fuel E p row
        (row.chars.take at_.toNat ++ row.chars.drop (at_.toNat + 1)) hwf hsyn hall hrow hfuel
      refine ⟨{ E with row := rows', dirty := E.dirty + 1 }, ?_, ?_⟩
      · unfold editorRowDelChar
        simp only [hrow]
        rw [if_neg hat]
        rw [h1]
      · exact (highlightConsistent_iff { E with row := rows', dirty := E.dirty + 1 } syn hsyn).2
          (fun q => h2 q)

/-- C22 on the two-row sample in which row 0 opens a comment that row 1
continues: inserting `x` at column 1 of row 0, and deleting the `*` there,
both end in a highlight-consistent document; after the deletion no row is
inside a comment any more. -/
theorem C22_char_ops_keep_consistency_witness :
    highlightConsistent openCommentDoc = true ∧
    (∃ E', editorRowInsertChar 3 openCommentDoc 0 1 'x' = some E' ∧
      highlightConsistent E' = true) ∧
    (∃ E', editorRowDelChar 3 openCommentDoc 0 1 = some E' ∧
      highlightConsistent E' = true) ∧
    (editorRowDelChar 3 openCommentDoc 0 1).map
        (fun E' => E'.row.map (fun r => (r.chars, r.hl, r.hl_open_comment)))
      = some [("/ a".toList, List.replicate 3 HL_NORMAL, false),
              ("b".toList, [HL_NORMAL], false)] :=
  ⟨by decide,
   (C22_char_ops_keep_consistency 3 openCommentDoc 0 _ 1 'x' _ (by decide) rfl (by decide) rfl
     (by decide)).1,
   (C22_char_ops_keep_consistency 3 openCommentDoc 0 _ 1 'x' _ (by decide) rfl (by decide) rfl
     (by decide)).2,
   by decide⟩

/-- C24, as the code has it: under a built-in syntax, whenever a round of the
scan of a row classifies a keyword (primary or secondary class) starting at
render offset `i`, either `i = 0`, or the render character at `i - 1` is a
separator, or it is a quote character (the scan sets `prev_sep` after every
character of a string literal, the closing quote included). -/
theorem C24_keyword_after_separator_or_quote (syn : editorSyntax) (row : erow) (seed : Bool)
    (fuel : Nat) (st : scanState) (hsyn : syn ∈ HLDB)
    (hst : st ∈ scanTrace syn row.chars.length row.render fuel
      { i := 0, prev_sep := true, in_string := '\x00', in_comment := seed,
        hl := List.replicate row.render.length HL_NORMAL })
    (hkw : classifiesKeyword syn row.render st) :
    st.i = 0 ∨ is_separator (row.render.getD (st.i - 1) '\x00') = true ∨
      row.render.getD (st.i - 1) '\x00' = '"' ∨ row.render.getD (st.i - 1) '\x00' = '\'' := by
  have hinv := scanTrace_sepInv syn hsyn row.chars.length row.render fuel _
    ⟨Or.inl rfl, fun _ _ _ => Or.inl rfl⟩ st hst
  obtain ⟨h1, h2, h3⟩ := classifiesKeyword_state syn hsyn row.render st hkw
  exact hinv.2 h1 h2 h3

/-- C24 on the row `"a"if` under the C syntax: the round that starts at offset
3 classifies the keyword `if`, and the character before it is a quote. -/
theorem C24_keyword_after_separator_or_quote_witness :
    (3 : Nat) = 0 ∨ is_separator (quoteKeywordRow.render.getD (3 - 1) '\x00') = true ∨
      quoteKeywordRow.render.getD (3 - 1) '\x00' = '"' ∨
      quoteKeywordRow.render.getD (3 - 1) '\x00' = '\'' :=
  C24_keyword_after_separator_or_quote _ quoteKeywordRow false 12
    { i := 3, prev_sep := true, in_string := '\x00', in_comment := false,
      hl := [HL_STRING, HL_STRING, HL_STRING, HL_NORMAL, HL_NORMAL] }
    (List.getElem?_mem (show HLDB[0]? = some _ from rfl))
    (List.getElem?_mem (show (scanTrace _ _ _ 12 _)[3]? = some _ from rfl))
    ⟨2, false, rfl, rfl⟩

/-- C24 as stated fails on the row `"a"if` under the C syntax: the scan
classifies the keyword `if` starting at render offset 3, while the render
character at offset 2 is the closing quote of the string, which is not a
separator. -/
theorem C24_keyword_counterexample :
    ∃ syn ∈ HLDB, ∃ st ∈ scanTrace syn quoteKeywordRow.chars.length quoteKeywordRow.render 12
        { i := 0, prev_sep := true, in_string := '\x00', in_comment := false,
          hl := List.replicate quoteKeywordRow.render.length HL_NORMAL },
      classifiesKeyword syn quoteKeywordRow.render st ∧ st.i = 3 ∧ st.i ≠ 0 ∧
      quoteKeywordRow.render.getD (st.i - 1) '\x00' = '"' ∧
      is_separator (quoteKeywordRow.render.getD (st.i - 1) '\x00') = false ∧
      (editorInsertRow 2 emptyDoc 0 "\"a\"if".toList).map (fun E => E.row.map (fun r => r.hl))
        = some [[HL_STRING, HL_STRING, HL_STRING, HL_KEYWORD1, HL_KEYWORD1]] :=
  ⟨_, List.getElem?_mem (show HLDB[0]? = some _ from rfl),
   { i := 3, prev_sep := true, in_string := '\x00', in_comment := false,
     hl := [HL_STRING, HL_STRING, HL_STRING, HL_NORMAL, HL_NORMAL] },
   List.getElem?_mem (show (scanTrace _ _ _ 12 _)[3]? = some _ from rfl),
   ⟨2, false, rfl, rfl⟩, rfl, by decide, by decide, by decide, by decide⟩

/-! ## Forward word motion: the first stop -/

/-- C26: in a document with `numrows` rows and the cursor at `(cx, cy) = (x, y)`
on a character of row `y` (`x < size`), `editorMoveCursorWordForward` returns
and only moves the cursor, to a position `(x', y')` with `y' < numrows` and
`x' <= size` of row `y'`: the first stop after the start in document order (a
column `p > 0` holding a non-whitespace character whose class differs from
that of the character at `p - 1`, or column 0 of a later row that is empty or
starts with a non-whitespace character), or, when there is no stop after the
start, column `size` of the last row. -/
theorem C26_wordForward_next_stop (fuel : Nat) (E : editorConfig) (row : erow) (y x : Nat)
    (hnum : E.numrows = (E.row.length : Int)) (hcy : E.cy = (y : Int))
    (hcx : E.cx = (x : Int)) (hrow : E.row[y]? = some row) (hx : x < row.chars.length)
    (hfuel : restLen E.row 0 < fuel) :
    ∃ y' x' : Nat,
      editorMoveCursorWordForward fuel E = some { E with cy := (y' : Int), cx := (x' : Int) } ∧
      y' < E.row.length ∧ x' ≤ rowLen E.row y' ∧
      ((wordTarget E.row y y' x' = true ∧ posLt y x y' x' ∧
          ∀ a b, posLt y x a b → posLt a b y' x' → wordTarget E.row y a b = false) ∨
       ((∀ a b, posLt y x a b → wordTarget E.row y a b = false) ∧
          y' + 1 = E.row.length ∧ x' = rowLen E.row y')) := by
  obtain ⟨f, rfl⟩ : ∃ f, fuel = f + 1 := ⟨fuel - 1, by omega⟩
  have hE : E = { E with cy := (y : Int), cx := (x : Int) } := by rw [← hcy, ← hcx]
  have hle := restLen_le E.row y
  obtain ⟨y', x', h1, h2, h3, h4⟩ := wordForwardLoop_spec E hnum y f y (x + 1) row hrow
    (le_refl _) (by omega) (by omega) (by omega)
  rw [Nat.add_sub_cancel] at h1
  refine ⟨y', x', ?_, h2, h3, ?_⟩
  · unfold editorMoveCursorWordForward
    rw [hE, wordForwardLoop_inRow E hnum y x row hrow hx, if_neg (by
      intro h
      have := h.2.1
      omega)]
    exact h1
  · rcases h4 with ⟨ht, hnl, hbt⟩ | ⟨hnone, hl, hx'⟩
    · refine Or.inl ⟨ht, ?_, ?_⟩
      · unfold posLt at hnl ⊢; omega
      · intro a b g1 g2
        exact hbt a b (by unfold posLt at g1 ⊢; omega) g2
    · refine Or.inr ⟨?_, hl, hx'⟩
      intro a b g1
      exact hnone a b (by unfold posLt at g1 ⊢; omega)

/-- C26 on the two-row sample with the cursor on the space of `ab cd`
(column 2 of row 0). -/
theorem C26_wordForward_next_stop_witness :
    ∃ y' x' : Nat,
      editorMoveCursorWordForward 10 sampleDoc
        = some { sampleDoc with cy := (y' : Int), cx := (x' : Int) } ∧
      y' < sampleDoc.row.length ∧ x' ≤ rowLen sampleDoc.row y' ∧
      ((wordTarget sampleDoc.row 0 y' x' = true ∧ posLt 0 2 y' x' ∧
          ∀ a b, posLt 0 2 a b → posLt a b y' x' → wordTarget sampleDoc.row 0 a b = false) ∨
       ((∀ a b, posLt 0 2 a b → wordTarget sampleDoc.row 0 a b = false) ∧
          y' + 1 = sampleDoc.row.length ∧ x' = rowLen sampleDoc.row y')) :=
  C26_wordForward_next_stop 10 sampleDoc (plainRow 0 "ab cd") 0 2 rfl rfl rfl rfl (by decide)
    (by decide)

end Bse
